import Mathlib

/-! # Table-driven scanner (`src/Code/lexical.h`): shallow embedding

A `std::string` is a `List Char` (one `Char` per byte).  The `<cctype>` predicates are the
"C" locale ones, so only ASCII bytes are letters, digits or blanks.  The `int` counters of the
class are natural numbers (no overflow is modelled).  A read outside a transition table is
undefined behaviour in C++; the embedding makes it explicit: every automaton run returns an
`Option`, and `none` stands for such a read.
-/

namespace Lexical

/-! ## Character classes (`<cctype>`, "C" locale) -/

def isalpha (c : Char) : Bool :=
  (65 ≤ c.toNat && c.toNat ≤ 90) || (97 ≤ c.toNat && c.toNat ≤ 122)

def isdigit (c : Char) : Bool :=
  48 ≤ c.toNat && c.toNat ≤ 57

def isalnum (c : Char) : Bool :=
  isalpha c || isdigit c

def isspace (c : Char) : Bool :=
  c.toNat = 32 || (9 ≤ c.toNat && c.toNat ≤ 13)

/-! ## Token classes and output rows -/

inductive TokenClass where
  | Keyword
  | Identifier
  | Number
  | Punctuation
  | Operator
  deriving DecidableEq, Repr

/-- One row of `tokenFile`: a lexeme with its type, or the `No Tokens` row. -/
inductive TokenRow where
  | tok (lexeme : List Char) (type : TokenClass)
  | noTokens
  deriving DecidableEq, Repr

/-- One row of `symbolTableFile`: lexeme, type, line number and token number, or the
`No Tokens` row whose columns are all `N/A`. -/
inductive SymbolRow where
  | sym (lexeme : List Char) (type : TokenClass) (lineNum : Nat) (tokenNo : Nat)
  | noTokens
  deriving DecidableEq, Repr

/-- One line of `errorFile` written by `processToken`:
`Error: Invalid token "<token>" at line <lineNum>`. -/
structure ErrorRow where
  token : List Char
  lineNum : Nat
  deriving DecidableEq, Repr

/-- One line written to `std::cout` by `processToken`, in the order of writing. -/
inductive ConsoleRow where
  | valid (type : TokenClass) (lexeme : List Char) (lineNum : Nat)
  | invalid (token : List Char) (lineNum : Nat)
  deriving DecidableEq, Repr

end Lexical

/-- The mutable members of `class Lexical`: the seven counters and what has been written to
the three output files and to `std::cout`. -/
structure Lexical where
  tokenNo : Nat := 0
  nKeywords : Nat := 0
  nIdentifiers : Nat := 0
  nNumbers : Nat := 0
  nPunctuations : Nat := 0
  nOperators : Nat := 0
  nInvalid : Nat := 0
  tokenFile : List Lexical.TokenRow := []
  symbolTableFile : List Lexical.SymbolRow := []
  errorFile : List Lexical.ErrorRow := []
  console : List Lexical.ConsoleRow := []
  deriving DecidableEq, Repr

namespace Lexical

/-- All valid keywords (`Lexical::keywords`). -/
def keywords : List (List Char) :=
  ["loop", "agar", "magar", "asm", "else", "new", "this", "auto",
   "enum", "operator", "throw", "bool", "explicit", "private", "true",
   "break", "export", "protected", "try", "case", "extern", "public",
   "typedef", "catch", "false", "register", "typeid", "char", "float",
   "typename", "class", "for", "return", "union", "const", "friend",
   "short", "unsigned", "goto", "signed", "using", "continue", "if",
   "sizeof", "virtual", "default", "inline", "static", "void", "delete",
   "int", "volatile", "do", "long", "struct", "double", "mutable",
   "switch", "while", "namespace"].map String.toList

/-! ## Transition tables -/

def identifierTable : List (List Int) :=
  [ [ 2, -1,  1, -1],
    [ 3,  3,  3, -1],
    [ 2,  2,  3, -1],
    [ 3,  3,  3, -1],
    [-1, -1, -1, -1] ]

def numberTable : List (List Int) :=
  [ [2,  1,  3, -1, -1],
    [2, -1,  3, -1, -1],
    [2, -1,  4,  5, -1],
    [4, -1, -1, -1, -1],
    [4, -1, -1,  5, -1],
    [7,  6, -1, -1, -1],
    [7, -1, -1, -1, -1],
    [7, -1, -1, -1, -1] ]

def punctuationTable : List (List Int) :=
  [ [ 1,  1,  1,  1,  1,  1, -1],
    [-2, -2, -2, -2, -2, -2, -2] ]

def operatorTable : List (List Int) :=
  [ [  1,  2,  3,  4,  5,  6,  7,  8,  9, 10, 11, 12, -1 ],
    [ -1, -1, -1, 13, -1, -1, -1, -1, -1, -1, -1, -1, -1 ],
    [ -1, 13, 13, -1, -1, -1, -1, -1, -1, -1, -1, -1, -1 ],
    [ -1, -1, 13, -1, -1, -1, -1, -1, -1, -1, -1, -1, -1 ],
    [ -1, 13, 13, 13,  4, -1, 13, -1, -1, -1, -1, -1, -1 ],
    [ -1, -1, -1, 13, 13, -1, -1, -1, -1, -1, -1, -1, -1 ],
    [ -1, -1, -1, -1, -1, -1, -1, -1, -1, -1, -1, -1, -1 ],
    [ -1, -1, -1, -1, -1, -1, 13, -1, -1, -1, -1, -1, -1 ],
    [ -1, -1, -1, -1, -1, -1, -1, -1, -1, -1, -1, -1, -1 ],
    [ -1, -1, -1, -1, -1, -1, -1, -1, 13, -1, -1, -1, -1 ],
    [ -1, -1, -1, -1, -1, -1, -1, -1, -1, 13, -1, -1, -1 ],
    [ -1, -1, -1, -1, -1, -1, -1, -1, -1, -1, 13, -1, -1 ],
    [ -1, -1, -1, -1, -1, -1, -1, -1, -1, -1, -1, 13, -1 ],
    [ -1, -1, -1, -1, -1, -1, -1, -1, -1, -1, -1, -1, -1 ] ]

/-! ## Column-mapping functions -/

def getIdentifierCol (c : Char) : Int :=
  if isalpha c then 0
  else if isdigit c then 1
  else if c = '_' then 2
  else 3

def getNumberCol (c : Char) : Int :=
  if isdigit c then 0
  else if c = '+' ∨ c = '-' then 1
  else if c = '.' then 2
  else if c = 'e' ∨ c = 'E' then 3
  else 4

def getPunctuationCol (c : Char) : Int :=
  if c = '[' then 0
  else if c = '\x7b' then 1
  else if c = '<' then 2
  else if c = '>' then 3
  else if c = '\x7d' then 4
  else if c = ']' then 5
  else 6

def getOperatorCol (c : Char) : Int :=
  if c = '!' then 0
  else if c = '<' then 1
  else if c = '>' then 2
  else if c = '=' then 3
  else if c = ':' then 4
  else if c = '*' then 5
  else if c = '+' then 6
  else if c = '/' then 7
  else if c = '-' then 8
  else if c = '&' then 9
  else if c = '|' then 10
  else if c = '%' then 11
  else 12

/-! ## Unified FSM driver -/

/-- The read `table[state][col]`; `none` when `state` is not a row of the table or `col` is
not a column of that row (an out-of-bounds read in the source). -/
def tableAt (table : List (List Int)) (state col : Int) : Option Int :=
  if 0 ≤ state ∧ 0 ≤ col then
    match table.get? state.toNat with
    | some row => row.get? col.toNat
    | none => none
  else none

/-- The driver `Lexical::runFSM`; the recursion over the characters is the `for` loop, the
second argument is the loop variable `state`. -/
def runFSM (token : List Char) (state : Int) (table : List (List Int)) (numColumns : Int)
    (getCol : Char → Int) (validStates : List Int) : Option Int :=
  match token with
  | [] => some (if validStates.contains state then state else -1)
  | c :: rest =>
    let col := getCol c
    if col ≥ numColumns ∨ col < 0 then some (-1)
    else
      match tableAt table state col with
      | none => none
      | some next =>
        if next = -1 then some (-1)
        else runFSM rest next table numColumns getCol validStates

/-! ## Wrapper FSM functions -/

def identifierFSM (token : List Char) : Option Int :=
  runFSM token 0 identifierTable 4 getIdentifierCol [3]

def numberFSM (token : List Char) : Option Int :=
  runFSM token 0 numberTable 6 getNumberCol [2, 4, 7]

def punctuationFSM (token : List Char) : Option Int :=
  runFSM token 0 punctuationTable 7 getPunctuationCol [1]

def operatorFSM (token : List Char) : Option Int :=
  runFSM token 0 operatorTable 13 getOperatorCol [13, 6, 7, 8, 9, 12, 5]

def isKeyword (token : List Char) : Bool :=
  keywords.contains token

/-! ## Utility functions (the splitters)

Each splitter returns the pair `(tokenPart, lastChar)` that the source writes through its two
reference parameters.  `token.substr(0, pos)` is `token.take pos` and `token.substr(pos)` is
`token.drop pos`. -/

/-- The splitter `Lexical::seperateKeywordToken`; `token.back()` of an empty string is
undefined behaviour, rendered as `none`. -/
def seperateKeywordToken (token : List Char) : Option (List Char × List Char) :=
  match token.getLast? with
  | none => none
  | some back =>
    if !isalpha back then some (token.take (token.length - 1), [back])
    else some (token, [])

/-- The `while (pos > 0)` loop of `seperateIdentifierToken`: the final value of `pos`.  The
read `token[pos - 1]` is inside the string for every `pos` up to its length. -/
def identifierScan (token : List Char) : Nat → Nat
  | 0 => 0
  | pos + 1 =>
    let c := token.getD pos ' '
    if isalnum c || c = '_' then pos + 1
    else identifierScan token pos

def seperateIdentifierToken (token : List Char) : List Char × List Char :=
  let pos := identifierScan token token.length
  (token.take pos, token.drop pos)

/-- The `while (pos > 0)` loop of `seperateNumToken`: the final value of `pos`.  The read
`token[pos - 1]` is inside the string for every `pos` up to its length. -/
def numScan (token : List Char) : Nat → Nat
  | 0 => 0
  | pos + 1 =>
    let c := token.getD pos ' '
    if isdigit c || c = '.' || c = 'e' || c = 'E' then pos + 1
    else numScan token pos

def seperateNumToken (token : List Char) : List Char × List Char :=
  let pos := numScan token token.length
  (token.take pos, token.drop pos)

/-- The `while (pos < token.length())` loop of `seperatePunctuationToken`: the first argument
is what remains of `token` from index `pos` on, the last one is `tokenPart` so far. -/
def punctuationScan (token : List Char) : List Char → Nat → List Char → List Char × List Char
  | [], _, tokenPart => (tokenPart, [])
  | c :: rest, pos, tokenPart =>
    if getPunctuationCol c ≥ 0 ∧ getPunctuationCol c ≤ 5 then
      if tokenPart ≠ [] then (tokenPart, token.drop pos)
      else ([c], token.drop (pos + 1))
    else punctuationScan token rest (pos + 1) (tokenPart ++ [c])

def seperatePunctuationToken (token : List Char) : List Char × List Char :=
  punctuationScan token token 0 []

/-- The first `while` loop of `separateOperatorToken`: the first argument is what remains of
`token` from index `start` on (`start < end` holds exactly while it is non-empty, `end` still
being `token.length()`); the result is the final `(start, hasStartValid)`. -/
def operatorScanStart : List Char → Nat → Bool → Nat × Bool
  | [], start, hasStartValid => (start, hasStartValid)
  | c :: rest, start, hasStartValid =>
    if isalnum c || c = '_' then operatorScanStart rest (start + 1) true
    else (start, hasStartValid)

/-- The second `while` loop of `separateOperatorToken`, on the loop variable `end`; the
result is the final `(end, hasEndValid)`.  The read `token[end - 1]` is inside the string. -/
def operatorScanEnd (token : List Char) (start : Nat) : Nat → Bool → Nat × Bool
  | 0, hasEndValid => (0, hasEndValid)
  | e + 1, hasEndValid =>
    let c := token.getD e ' '
    if e + 1 > start ∧ (isalnum c || c = '_') then operatorScanEnd token start e true
    else (e + 1, hasEndValid)

def separateOperatorToken (token : List Char) : List Char × List Char :=
  let (start, hasStartValid) := operatorScanStart token 0 false
  let (e, hasEndValid) := operatorScanEnd token start token.length false
  if hasStartValid && hasEndValid then (token, [])
  else ((token.drop start).take (e - start), token.take start ++ token.drop e)

/-! ## Token processing -/

/-- What every accepting branch of `processToken` does before it recurses: bump the counter
of the class, write the three output rows (the symbol-table row carries the current
`tokenNo`), then `tokenNo++`. -/
def emitValid (type : TokenClass) (tokenPart : List Char) (lineNum : Nat) (st : Lexical) :
    Lexical :=
  { st with
    nKeywords := if type = .Keyword then st.nKeywords + 1 else st.nKeywords
    nIdentifiers := if type = .Identifier then st.nIdentifiers + 1 else st.nIdentifiers
    nNumbers := if type = .Number then st.nNumbers + 1 else st.nNumbers
    nPunctuations := if type = .Punctuation then st.nPunctuations + 1 else st.nPunctuations
    nOperators := if type = .Operator then st.nOperators + 1 else st.nOperators
    console := st.console ++ [.valid type tokenPart lineNum]
    tokenFile := st.tokenFile ++ [.tok tokenPart type]
    symbolTableFile := st.symbolTableFile ++ [.sym tokenPart type lineNum st.tokenNo]
    tokenNo := st.tokenNo + 1 }

/-- The last branch of `processToken` (`// Invalid Token`). -/
def emitInvalid (token : List Char) (lineNum : Nat) (st : Lexical) : Lexical :=
  { st with
    nInvalid := st.nInvalid + 1
    console := st.console ++ [.invalid token lineNum]
    errorFile := st.errorFile ++ [⟨token, lineNum⟩] }

/-- The first branch of `processToken` (`token.empty()`). -/
def emitNoTokens (st : Lexical) : Lexical :=
  { st with
    tokenFile := st.tokenFile ++ [.noTokens]
    symbolTableFile := st.symbolTableFile ++ [.noTokens] }

/-- The body of `Lexical::processToken`, with a bound `fuel` on the depth of the recursion
(`none` is fuel exhaustion or an undefined read; neither happens when
`token.length ≤ fuel`). -/
def processTokenFuel (fuel : Nat) (token : List Char) (lineNum : Nat) (st : Lexical) :
    Option Lexical :=
  if token = [] then some (emitNoTokens st)
  else
    match fuel with
    | 0 => none
    | fuel + 1 =>
      -- Keywords
      match seperateKeywordToken token with
      | none => none
      | some (tokenPart, lastChar) =>
      if isKeyword tokenPart then
        let st := emitValid .Keyword tokenPart lineNum st
        if lastChar ≠ [] then processTokenFuel fuel lastChar lineNum st else some st
      else
      -- Identifier
      match seperateIdentifierToken token with
      | (tokenPart, lastChar) =>
      match identifierFSM tokenPart with
      | none => none
      | some r =>
      if r = 3 then
        let st := emitValid .Identifier tokenPart lineNum st
        if lastChar ≠ [] then processTokenFuel fuel lastChar lineNum st else some st
      else
      -- Number
      match seperateNumToken token with
      | (tokenPart, lastChar) =>
      match numberFSM tokenPart with
      | none => none
      | some r =>
      if r ≠ -1 then
        let st := emitValid .Number tokenPart lineNum st
        if lastChar ≠ [] then processTokenFuel fuel lastChar lineNum st else some st
      else
      -- Punctuation
      match seperatePunctuationToken token with
      | (tokenPart, lastChar) =>
      -- `punctuationFSM` runs only when `tokenPart.length() == 1` (the `&&` short-circuits)
      match (if tokenPart.length = 1 then punctuationFSM tokenPart else some (-1)) with
      | none => none
      | some r =>
      if tokenPart.length = 1 ∧ r ≠ -1 then
        let st := emitValid .Punctuation tokenPart lineNum st
        if lastChar ≠ [] then processTokenFuel fuel lastChar lineNum st else some st
      else
      -- Operator
      match separateOperatorToken token with
      | (tokenPart, lastChar) =>
      match operatorFSM tokenPart with
      | none => none
      | some r =>
      if r ≠ -1 then
        let st := emitValid .Operator tokenPart lineNum st
        if lastChar ≠ [] then processTokenFuel fuel lastChar lineNum st else some st
      else
      -- Invalid Token
      some (emitInvalid token lineNum st)

/-- The call `processToken(token, lineNum)`: every recursive call is on a strictly shorter
string, so `token.length` bounds the depth. -/
def processToken (token : List Char) (lineNum : Nat) (st : Lexical) : Option Lexical :=
  processTokenFuel token.length token lineNum st

/-! ## The scanning loop of `PerformLexical` -/

/-- The test that ends a candidate in the `for` loop of `PerformLexical`. -/
def isSeparator (c : Char) : Bool :=
  isspace c || c = '$' || c = ',' || c = ';' || c = '(' || c = ')'

/-- The `for` loop over one line, followed by the final `if (!token.empty())`.  The first
argument is what remains of `line`, the second is the buffer `token`. -/
def scanLine : List Char → List Char → Nat → Lexical → Option Lexical
  | [], token, lineNum, st =>
    if token ≠ [] then processToken token lineNum st else some st
  | c :: rest, token, lineNum, st =>
    if isSeparator c then
      if token ≠ [] then
        match processToken token lineNum st with
        | none => none
        | some st => scanLine rest [] lineNum st
      else scanLine rest [] lineNum st
    else scanLine rest (token ++ [c]) lineNum st

/-- The `while (getline(inputFile, line))` loop of `PerformLexical`; the second argument is
`lineNum` before the line is read. -/
def scanLines : List (List Char) → Nat → Lexical → Option Lexical
  | [], _, st => some st
  | line :: rest, lineNum, st =>
    match scanLine line [] (lineNum + 1) st with
    | none => none
    | some st => scanLines rest (lineNum + 1) st

/-- The lines that `getline` reads from a source text: the pieces between line feeds, without
an empty piece after a final line feed. -/
def sourceLines (source : List Char) : List (List Char) :=
  if source = [] then []
  else
    let lines := source.splitOn (Char.ofNat 10)
    if lines.getLast? = some [] then lines.dropLast else lines

/-- The scanning part of `Lexical::PerformLexical` on the text of the input file, from a
fresh scanner.  Opening the files and the headers and summaries written around the loop are
not part of the model. -/
def PerformLexical (source : List Char) : Option Lexical :=
  scanLines (sourceLines source) 0 {}

/-- The arguments of the successive `processToken` calls that the loop of `scanLine` makes,
in order (the same loop, recording the candidate instead of processing it). -/
def lineCandidates : List Char → List Char → List (List Char)
  | [], token => if token ≠ [] then [token] else []
  | c :: rest, token =>
    if isSeparator c then
      if token ≠ [] then token :: lineCandidates rest []
      else lineCandidates rest []
    else lineCandidates rest (token ++ [c])

/-- The calls `processToken(token, lineNum)` for a list of candidates of one line. -/
def processCandidates : List (List Char) → Nat → Lexical → Option Lexical
  | [], _, st => some st
  | token :: rest, lineNum, st =>
    match processToken token lineNum st with
    | none => none
    | some st => processCandidates rest lineNum st

/-! ## The table reads of a `processToken` call -/

/-- The four automata that `processToken` runs. -/
inductive Automaton where
  | identifier
  | number
  | punctuation
  | operator
  deriving DecidableEq, Repr

/-- The reads `table[state][col]` that the loop of `runFSM` performs, in order, each as the
pair `(state, col)`: the same loop as `runFSM`, recording the index of the read. -/
def runFSMReads (token : List Char) (state : Int) (table : List (List Int))
    (numColumns : Int) (getCol : Char → Int) : List (Int × Int) :=
  match token with
  | [] => []
  | c :: rest =>
    let col := getCol c
    if col ≥ numColumns ∨ col < 0 then []
    else
      (state, col) ::
        match tableAt table state col with
        | none => []
        | some next =>
          if next = -1 then []
          else runFSMReads rest next table numColumns getCol

/-- The reads of the call `identifierFSM(token)`, `numberFSM(token)`, `punctuationFSM(token)`
or `operatorFSM(token)`. -/
def Automaton.reads : Automaton → List Char → List (Int × Int)
  | .identifier, token => runFSMReads token 0 identifierTable 4 getIdentifierCol
  | .number, token => runFSMReads token 0 numberTable 6 getNumberCol
  | .punctuation, token => runFSMReads token 0 punctuationTable 7 getPunctuationCol
  | .operator, token => runFSMReads token 0 operatorTable 13 getOperatorCol

/-- The transition table of an automaton. -/
def Automaton.table : Automaton → List (List Int)
  | .identifier => identifierTable
  | .number => numberTable
  | .punctuation => punctuationTable
  | .operator => operatorTable

/-- The declared bounds of the transition tables: `identifierTable[5][4]`,
`numberTable[8][5]`, `punctuationTable[2][7]`, `operatorTable[14][13]`. -/
def Automaton.bounds : Automaton → Int × Int
  | .identifier => (5, 4)
  | .number => (8, 5)
  | .punctuation => (2, 7)
  | .operator => (14, 13)

/-- A result of `processToken` with the runs of the automata recorded before it. -/
def withRuns (runs : List (Automaton × List Char))
    (result : Option Lexical × List (Automaton × List Char)) :
    Option Lexical × List (Automaton × List Char) :=
  (result.1, runs ++ result.2)

/-- The body of `Lexical::processToken` once more, returning with the result of
`processTokenFuel` the calls of the automata that the call and its recursive calls make, in
order, each as the automaton and its argument. -/
def processTokenTraced (fuel : Nat) (token : List Char) (lineNum : Nat) (st : Lexical) :
    Option Lexical × List (Automaton × List Char) :=
  if token = [] then (some (emitNoTokens st), [])
  else
    match fuel with
    | 0 => (none, [])
    | fuel + 1 =>
      -- Keywords
      match seperateKeywordToken token with
      | none => (none, [])
      | some (tokenPart, lastChar) =>
      if isKeyword tokenPart then
        let st := emitValid .Keyword tokenPart lineNum st
        if lastChar ≠ [] then processTokenTraced fuel lastChar lineNum st else (some st, [])
      else
      -- Identifier
      match seperateIdentifierToken token with
      | (tokenPart, lastChar) =>
      let runs := [(Automaton.identifier, tokenPart)]
      match identifierFSM tokenPart with
      | none => (none, runs)
      | some r =>
      if r = 3 then
        let st := emitValid .Identifier tokenPart lineNum st
        withRuns runs
          (if lastChar ≠ [] then processTokenTraced fuel lastChar lineNum st
            else (some st, []))
      else
      -- Number
      match seperateNumToken token with
      | (tokenPart, lastChar) =>
      let runs := runs ++ [(Automaton.number, tokenPart)]
      match numberFSM tokenPart with
      | none => (none, runs)
      | some r =>
      if r ≠ -1 then
        let st := emitValid .Number tokenPart lineNum st
        withRuns runs
          (if lastChar ≠ [] then processTokenTraced fuel lastChar lineNum st
            else (some st, []))
      else
      -- Punctuation
      match seperatePunctuationToken token with
      | (tokenPart, lastChar) =>
      -- `punctuationFSM` runs only when `tokenPart.length() == 1` (the `&&` short-circuits)
      let runs :=
        if tokenPart.length = 1 then runs ++ [(Automaton.punctuation, tokenPart)] else runs
      match (if tokenPart.length = 1 then punctuationFSM tokenPart else some (-1)) with
      | none => (none, runs)
      | some r =>
      if tokenPart.length = 1 ∧ r ≠ -1 then
        let st := emitValid .Punctuation tokenPart lineNum st
        withRuns runs
          (if lastChar ≠ [] then processTokenTraced fuel lastChar lineNum st
            else (some st, []))
      else
      -- Operator
      match separateOperatorToken token with
      | (tokenPart, lastChar) =>
      let runs := runs ++ [(Automaton.operator, tokenPart)]
      match operatorFSM tokenPart with
      | none => (none, runs)
      | some r =>
      if r ≠ -1 then
        let st := emitValid .Operator tokenPart lineNum st
        withRuns runs
          (if lastChar ≠ [] then processTokenTraced fuel lastChar lineNum st
            else (some st, []))
      else
      -- Invalid Token
      (some (emitInvalid token lineNum st), runs)

/-- The call `identifierFSM(token)`, `numberFSM(token)`, `punctuationFSM(token)` or
`operatorFSM(token)`. -/
def Automaton.run : Automaton → List Char → Option Int
  | .identifier, token => identifierFSM token
  | .number, token => numberFSM token
  | .punctuation, token => punctuationFSM token
  | .operator, token => operatorFSM token

/-! ## The tables inside the object

A read `table[state][col]` with `state` outside the rows of the table is outside the array,
which the language leaves undefined (`tableAt` gives `none` for it).  The program reads the
memory of its `Lexical` object: the four tables are `const int` members declared one after
the other, each stored row by row and, being arrays of `int`, without padding between them,
so `table[state][col]` is the `int` at distance `state * columns + col` from the start of
the table, inside a neighbouring table when it is outside its own. -/

/-- The `int`s of the four transition tables in the order in which they lie in the object:
`identifierTable` (20), `numberTable` (40), `punctuationTable` (14), `operatorTable`
(182). -/
def objectTables : List Int :=
  identifierTable.flatten ++ numberTable.flatten ++ punctuationTable.flatten
    ++ operatorTable.flatten

/-- The read `table[state][col]` as the program performs it, for a table of `columns`
columns that starts `offset` `int`s after the start of `identifierTable`; `none` when the
address is outside the four tables. -/
def objectAt (offset columns : Nat) (state col : Int) : Option Int :=
  if 0 ≤ (offset : Int) + state * columns + col then
    objectTables.get? ((offset : Int) + state * columns + col).toNat
  else none

/-- The driver `Lexical::runFSM` with the reads of `objectAt`. -/
def runFSMInObject (token : List Char) (state : Int) (offset columns : Nat)
    (numColumns : Int) (getCol : Char → Int) (validStates : List Int) : Option Int :=
  match token with
  | [] => some (if validStates.contains state then state else -1)
  | c :: rest =>
    let col := getCol c
    if col ≥ numColumns ∨ col < 0 then some (-1)
    else
      match objectAt offset columns state col with
      | none => none
      | some next =>
        if next = -1 then some (-1)
        else runFSMInObject rest next offset columns numColumns getCol validStates

/-- The function `punctuationFSM` with the reads of `objectAt`: `punctuationTable` has 7
columns and starts 60 `int`s after the start of `identifierTable`. -/
def punctuationFSMInObject (token : List Char) : Option Int :=
  runFSMInObject token 0 60 7 7 getPunctuationCol [1]

/-! ## Notions of the specification -/

/-- Following the spec's words ("Source is split on ASCII whitespace and the hard delimiters
`$ , ; ( )`"; each resulting run is a candidate): the maximal runs of characters of a line that
are neither whitespace nor a hard delimiter, from left to right, are the non-empty pieces
between the separators. -/
def maximalRuns (line : List Char) : List (List Char) :=
  (line.splitOnP fun c => isSeparator c).filter fun run => run ≠ []

/-- The lexeme carried by a line of the console, valid or invalid. -/
def ConsoleRow.lexeme : ConsoleRow → List Char
  | .valid _ lexeme _ => lexeme
  | .invalid token _ => token

/-- A run of an automaton accepts when it returns a state other than `-1`. -/
def accepts (r : Option Int) : Prop :=
  ∃ s, r = some s ∧ s ≠ -1

instance (r : Option Int) : Decidable (accepts r) :=
  match r with
  | none => isFalse (by rintro ⟨s, h, -⟩; cases h)
  | some s =>
    if h : s = -1 then isFalse (by rintro ⟨t, ht, hne⟩; cases ht; exact hne h)
    else isTrue ⟨s, rfl, h⟩

/-- The effect of `processToken` that one console line stands for: a valid line is written by
an accepting branch (`emitValid`), an invalid one by the last branch (`emitInvalid`). -/
def applyRow (st : Lexical) : ConsoleRow → Lexical
  | .valid type lexeme lineNum => emitValid type lexeme lineNum st
  | .invalid token lineNum => emitInvalid token lineNum st

/-- "DFA acceptance matches class": a lexeme of class Identifier, Number, Punctuation or
Operator is accepted by the automaton of its class; a Keyword is a member of the keyword set
and is rejected by the identifier automaton. -/
def classRule : TokenClass → List Char → Prop
  | .Keyword, lexeme => lexeme ∈ keywords ∧ identifierFSM lexeme = some (-1)
  | .Identifier, lexeme => accepts (identifierFSM lexeme)
  | .Number, lexeme => accepts (numberFSM lexeme)
  | .Punctuation, lexeme => accepts (punctuationFSM lexeme)
  | .Operator, lexeme => accepts (operatorFSM lexeme)

/-- No classifier of the cascade accepts the candidate: the head that each splitter returns
fails the test of its class. -/
def noClassifierAccepts (token : List Char) : Prop :=
  (∀ split ∈ seperateKeywordToken token, isKeyword split.1 = false)
  ∧ ¬ accepts (identifierFSM (seperateIdentifierToken token).1)
  ∧ ¬ accepts (numberFSM (seperateNumToken token).1)
  ∧ ¬ ((seperatePunctuationToken token).1.length = 1
        ∧ accepts (punctuationFSM (seperatePunctuationToken token).1))
  ∧ ¬ accepts (operatorFSM (separateOperatorToken token).1)

instance (token : List Char) : Decidable (noClassifierAccepts token) := by
  unfold noClassifierAccepts
  infer_instance

/-- The result of a `processToken` call on `token` from state `st` is described by a list of
console lines: the call returns, its effect is that of the lines in order, every valid line
obeys the rule of its class, the lexemes of the lines concatenate to a rearrangement of
`token`, and to `token` itself when no line is an Operator. -/
def Emits (token : List Char) (st : Lexical) (result : Option Lexical) : Prop :=
  ∃ rows : List ConsoleRow,
    result = some (rows.foldl applyRow st)
    ∧ (∀ type lexeme n, ConsoleRow.valid type lexeme n ∈ rows → classRule type lexeme)
    ∧ ((rows.map ConsoleRow.lexeme).flatten).Perm token
    ∧ ((∀ lexeme n, ConsoleRow.valid .Operator lexeme n ∉ rows) →
        (rows.map ConsoleRow.lexeme).flatten = token)

/-- The token number written in a row of the symbol table, if the row has one. -/
def SymbolRow.index : SymbolRow → Option Nat
  | .sym _ _ _ tokenNo => some tokenNo
  | .noTokens => none

/-- The token (lexeme, type, line) that a row of the symbol table is about. -/
def SymbolRow.entry : SymbolRow → Option (List Char × TokenClass × Nat)
  | .sym lexeme type lineNum _ => some (lexeme, type, lineNum)
  | .noTokens => none

/-- The valid token (lexeme, type, line) that a console line reports, if it reports one. -/
def ConsoleRow.entry : ConsoleRow → Option (List Char × TokenClass × Nat)
  | .valid type lexeme lineNum => some (lexeme, type, lineNum)
  | .invalid _ _ => none

/-- The invalid lexeme that a console line reports, if it reports one. -/
def ConsoleRow.error : ConsoleRow → Option ErrorRow
  | .valid _ _ _ => none
  | .invalid token lineNum => some ⟨token, lineNum⟩

/-- The ordering invariant of the scanner state: the token numbers written to the symbol
table are `0, 1, ..., tokenNo - 1` in order; the rows that carry a token number are exactly
the valid tokens, in emission order; the invalid lexemes are exactly the entries of the error
file (which carry no number); and `tokenNo` is the sum of the five valid-class counters. -/
def Consistent (st : Lexical) : Prop :=
  st.symbolTableFile.filterMap SymbolRow.index = List.range st.tokenNo
  ∧ st.symbolTableFile.filterMap SymbolRow.entry = st.console.filterMap ConsoleRow.entry
  ∧ st.errorFile = st.console.filterMap ConsoleRow.error
  ∧ st.tokenNo
      = st.nKeywords + st.nIdentifiers + st.nNumbers + st.nPunctuations + st.nOperators

/-- A sequence of calls `processToken(token, lineNum)`, one after the other. -/
def processCalls : List (List Char × Nat) → Lexical → Option Lexical
  | [], st => some st
  | (token, lineNum) :: rest, st =>
    match processToken token lineNum st with
    | none => none
    | some st => processCalls rest st

/-- Following the claim's words: the string has length at least 2, consists only of ASCII
letters, digits and `_`, starts with a letter or `_`, and contains at least one `_`. -/
def identifierShape (s : List Char) : Prop :=
  2 ≤ s.length
  ∧ (∀ c ∈ s, isalpha c = true ∨ isdigit c = true ∨ c = '_')
  ∧ (∀ c ∈ s.head?, isalpha c = true ∨ c = '_')
  ∧ '_' ∈ s

instance (s : List Char) : Decidable (identifierShape s) := by
  unfold identifierShape
  infer_instance

/-- Following the claim's words: the string is one of `:`, `*`, `+`, `/`, `-`, `%`, `!=`,
`<<`, `<>`, `>>`, `:=`, `::`, `++`, `--`, `&&`, `||`, `%%`, or it is `=` followed by zero
or more `:` followed by exactly one of `<`, `>`, `=`, `+`. -/
def operatorShape (s : List Char) : Prop :=
  s ∈ [":".toList, "*".toList, "+".toList, "/".toList, "-".toList, "%".toList,
    "!=".toList, "<<".toList, "<>".toList, ">>".toList, ":=".toList, "::".toList,
    "++".toList, "--".toList, "&&".toList, "||".toList, "%%".toList]
  ∨ ∃ n x, x ∈ ['<', '>', '=', '+'] ∧ s = '=' :: (List.replicate n ':' ++ [x])

/-- The class `D` of the claim, an ASCII digit, as a regular expression. -/
def digitRegex : RegularExpression Char :=
  .char '0' + .char '1' + .char '2' + .char '3' + .char '4' + .char '5' + .char '6'
    + .char '7' + .char '8' + .char '9'

/-- The expression `D+`. -/
def digitsRegex : RegularExpression Char :=
  digitRegex * digitRegex.star

/-- The expression `[+-]?`. -/
def optionalSignRegex : RegularExpression Char :=
  1 + (.char '+' + .char '-')

/-- The expression `D+ | D+ '.' D* | '.' D+`. -/
def mantissaRegex : RegularExpression Char :=
  digitsRegex + digitsRegex * (.char '.' * digitRegex.star) + .char '.' * digitsRegex

/-- The expression `[eE] [+-]? D+`. -/
def exponentRegex : RegularExpression Char :=
  (.char 'e' + .char 'E') * (optionalSignRegex * digitsRegex)

/-- Following the claim's words: the regular expression
`[+-]? ( D+ | D+ '.' D* | '.' D+ ) ( [eE] [+-]? D+ )?`. -/
def numberRegex : RegularExpression Char :=
  optionalSignRegex * (mantissaRegex * (1 + exponentRegex))

/-- Following the claim's words: "optional sign, digits, optional `.` digits, optional
exponent", the regular expression `[+-]? D+ ( '.' D+ )? ( [eE] [+-]? D+ )?`. -/
def plainNumberRegex : RegularExpression Char :=
  optionalSignRegex * (digitsRegex * ((1 + .char '.' * digitsRegex) * (1 + exponentRegex)))

end Lexical

/-! # Grammar engine (`src/Code/Synthetic.h`): shallow embedding

A `std::string` is again a `List Char` (a multi-byte character such as `ε` is one `Char`; no
operation of the source looks inside one).  An `std::unordered_set<std::string>` is a list
without repetition and an `std::unordered_map` is an association list with distinct keys.
The C++ standard leaves the iteration order of these containers unspecified: in the model
the order of the list is the iteration order, and a new element or key goes to the end.  A
loop over a map that the loop body extends (`removeLeftRecursion`, `removeLeftFactoring`,
`analyzeGrammar`) goes on through the keys that the body has inserted: they are at the end
of the order.  Reading `m[key]` for an absent key gives the empty set.
-/

namespace Synthetic

/-! ## Containers -/

/-- An `std::unordered_set<std::string>`. -/
abbrev StrSet := List (List Char)

/-- An `std::unordered_map<std::string, std::unordered_set<std::string>>`. -/
abbrev StrMap := List (List Char × StrSet)

/-- The call `s.insert(x)`. -/
def setInsert (s : StrSet) (x : List Char) : StrSet :=
  if x ∈ s then s else s ++ [x]

/-- The call `s.insert(t.begin(), t.end())`. -/
def setInsertAll (s t : StrSet) : StrSet :=
  t.foldl setInsert s

/-- The call `s.erase(x)`. -/
def setErase (s : StrSet) (x : List Char) : StrSet :=
  s.filter fun y => y ≠ x

/-- The value of `m[key]` (the empty set when the key is absent). -/
def mapGet (m : StrMap) (key : List Char) : StrSet :=
  (m.lookup key).getD []

/-- The test `m.find(key) != m.end()`. -/
def mapHas (m : StrMap) (key : List Char) : Bool :=
  (m.lookup key).isSome

/-- The assignment `m[key] = value`. -/
def mapSet : StrMap → List Char → StrSet → StrMap
  | [], key, value => [(key, value)]
  | (k, v) :: rest, key, value =>
    if k = key then (k, value) :: rest else (k, v) :: mapSet rest key value

/-- The call `m[key].insert(x)`. -/
def mapAdd (m : StrMap) (key x : List Char) : StrMap :=
  mapSet m key (setInsert (mapGet m key) x)

/-! ## String helpers -/

/-- The call `s.find(sub)` from index `i` on: the index of the first occurrence, `none` for
`std::string::npos`. -/
def findFrom : List Char → List Char → Nat → Option Nat
  | [], sub, i => if sub = [] then some i else none
  | c :: rest, sub, i =>
    if sub.isPrefixOf (c :: rest) then some i else findFrom rest sub (i + 1)

/-- The call `s.find(sub)`. -/
def find (s sub : List Char) : Option Nat :=
  findFrom s sub 0

/-- The call `s.find(ch)` for a character. -/
def findChar (s : List Char) (ch : Char) : Option Nat :=
  s.findIdx? fun c => c = ch

/-- The extraction `stream >> token` repeated until it fails: the maximal runs of
non-whitespace characters. -/
def words (s : List Char) : List (List Char) :=
  (s.splitOnP fun c => Lexical.isspace c).filter fun w => w ≠ []

/-- The characters that `trim` removes. -/
def trimChars : List Char := [' ', Char.ofNat 9, Char.ofNat 10, Char.ofNat 13]

/-- The call `str.find_first_not_of(" \t\n\r")`. -/
def findFirstNotOf (s : List Char) : Option Nat :=
  s.findIdx? fun c => !trimChars.contains c

/-- The call `str.find_last_not_of(" \t\n\r")`. -/
def findLastNotOf (s : List Char) : Option Nat :=
  (findFirstNotOf s.reverse).map fun i => s.length - 1 - i

def trim (str : List Char) : List Char :=
  match findFirstNotOf str, findLastNotOf str with
  | some start, some e => (str.drop start).take (e - start + 1)
  | _, _ => []

/-- The constant `Synthetic::EPSILON`. -/
def EPSILON : List Char := "ε".toList

/-! ## Loading the grammar -/

/-- The `for` loop of `splitProductions`: the first argument is what remains of `production`
from index `i` on.  The flag `inOperator` of the source is never set and is left out. -/
def splitLoop : List Char → List Char → StrSet → StrSet
  | [], current, result =>
    if current ≠ [] then setInsert result current else result
  | c :: rest, current, result =>
    if c = '|' then
      match rest with
      | d :: rest2 =>
        if d = '|' then splitLoop rest2 (current ++ ['|', '|']) result
        else if current ≠ [] then splitLoop (d :: rest2) [] (setInsert result current)
        else splitLoop (d :: rest2) current result
      | [] =>
        if current ≠ [] then splitLoop [] [] (setInsert result current)
        else splitLoop [] current result
    else splitLoop rest (current ++ [c]) result

def splitProductions (production : List Char) : StrSet :=
  splitLoop production [] []

/-- The body of the `while (getline(file, line))` loop of `loadGrammarFromFile`.  For
`pos == 0` the length `pos - 1` wraps around and `substr` returns the whole line. -/
def loadLine (grammar : StrMap) (line : List Char) : StrMap :=
  match find line "->".toList with
  | some pos =>
    let nonTerminal := if pos = 0 then line else line.take (pos - 1)
    let production := line.drop (pos + 2)
    mapSet grammar nonTerminal (splitProductions production)
  | none => grammar

/-- The function `loadGrammarFromFile` on the text of the grammar file, from the empty
grammar. -/
def loadGrammarFromFile (text : List Char) : StrMap :=
  (Lexical.sourceLines text).foldl loadLine []

/-! ## Ambiguity checker -/

/-- The expression `(pos == npos) ? prod : prod.substr(0, pos)` with `pos = prod.find(' ')`
that `hasLeftFactoring` and `removeLeftFactoring` call the prefix of a production. -/
def prefixOf (prod : List Char) : List Char :=
  match findChar prod ' ' with
  | none => prod
  | some pos => prod.take pos

/-- The statement `prefixCount[key]++` on an `std::unordered_map<std::string, int>`. -/
def countAdd : List (List Char × Nat) → List Char → List (List Char × Nat)
  | [], key => [(key, 1)]
  | (k, n) :: rest, key =>
    if k = key then (k, n + 1) :: rest else (k, n) :: countAdd rest key

def hasLeftFactoring (grammar : StrMap) : Bool :=
  grammar.any fun rule =>
    let prefixCount := rule.2.foldl (fun counts prod => countAdd counts (prefixOf prod)) []
    prefixCount.any fun count => count.2 > 1

def hasLeftRecursion (grammar : StrMap) : Bool :=
  grammar.any fun rule =>
    rule.2.any fun prod => find prod rule.1 = some 0

/-! ## Ambiguity remover -/

/-- The body of the loop of `removeLeftRecursion` for the key `nonTerminal`; `sets` is the
pair of `alpha` and `beta`. -/
def removeLeftRecursionStep (grammar : StrMap) (nonTerminal : List Char) : StrMap :=
  let productions := mapGet grammar nonTerminal
  let sets := productions.foldl
    (fun (sets : StrSet × StrSet) prod =>
      if find prod nonTerminal = some 0 then
        (setInsert sets.1 (prod.drop nonTerminal.length), sets.2)
      else (sets.1, setInsert sets.2 prod))
    ([], [])
  let alpha := sets.1
  let beta := sets.2
  if alpha ≠ [] then
    let newNonTerminal := nonTerminal ++ "'".toList
    let grammar := mapSet grammar nonTerminal []
    let grammar := beta.foldl
      (fun grammar b => mapAdd grammar nonTerminal (b ++ " ".toList ++ newNonTerminal)) grammar
    let grammar := alpha.foldl
      (fun grammar a => mapAdd grammar newNonTerminal (a ++ " ".toList ++ newNonTerminal))
      grammar
    mapAdd grammar newNonTerminal "^".toList
  else grammar

/-- The number of characters of a grammar, counting one more for every key and every
alternative. -/
def grammarSize (grammar : StrMap) : Nat :=
  (grammar.map fun rule =>
    rule.1.length + 1 + (rule.2.map fun prod => prod.length + 1).sum).sum

/-- The fuel that `removeLeftRecursion`, `removeLeftFactoring` and `analyzeGrammar` give to
their loops over the keys of a grammar.  A loop that returns gives the same result with
every larger fuel (`forEachRule_of_le`, `roundsLoop_of_le`), so the value of the bound does
not show in the result of a loop that stays below it. -/
def loopBound (grammar : StrMap) : Nat :=
  (grammarSize grammar + 2) * (grammarSize grammar + 2)

/-- A loop `for (auto& rule : grammar)` whose body extends `grammar`: the body runs for the
key at each position of the iteration order in turn, the keys that it has inserted
included.  `fuel` bounds the number of iterations and `none` is fuel exhaustion. -/
def forEachRule (body : StrMap → List Char → StrMap) : Nat → Nat → StrMap → Option StrMap
  | 0, index, grammar => if index < grammar.length then none else some grammar
  | fuel + 1, index, grammar =>
    match grammar.get? index with
    | some rule => forEachRule body fuel (index + 1) (body grammar rule.1)
    | none => some grammar

/-- The function `removeLeftRecursion`: the loop over the keys with the body
`removeLeftRecursionStep`. -/
def removeLeftRecursion (grammar : StrMap) : StrMap :=
  (forEachRule removeLeftRecursionStep (loopBound grammar) 0 grammar).getD grammar

/-- The first loop in the body of `removeLeftFactoring`: the map `prefixMap`. -/
def groupByPrefix (productions : StrSet) : StrMap :=
  productions.foldl (fun prefixMap prod => mapAdd prefixMap (prefixOf prod) prod) []

/-- The body of the loop over `prefixMap` in `removeLeftFactoring`. -/
def factorGroup (nonTerminal : List Char) (grammar : StrMap)
    (prefixPair : List Char × StrSet) : StrMap :=
  let prefix1 := prefixPair.1
  let group := prefixPair.2
  if group.length > 1 then
    let newNonTerminal := nonTerminal ++ "'".toList
    let grammar := mapAdd grammar nonTerminal (prefix1 ++ " ".toList ++ newNonTerminal)
    group.foldl
      (fun grammar g => mapAdd grammar newNonTerminal (trim (g.drop prefix1.length))) grammar
  else
    match group with
    | first :: _ => mapAdd grammar nonTerminal first
    | [] => grammar

/-- The body of the loop of `removeLeftFactoring` for the key `nonTerminal`. -/
def removeLeftFactoringStep (grammar : StrMap) (nonTerminal : List Char) : StrMap :=
  let productions := mapGet grammar nonTerminal
  let prefixMap := groupByPrefix productions
  if prefixMap.length < productions.length then
    (prefixMap.foldl (factorGroup nonTerminal) (mapSet grammar nonTerminal []))
  else grammar

/-- The function `removeLeftFactoring`: the loop over the keys with the body
`removeLeftFactoringStep`. -/
def removeLeftFactoring (grammar : StrMap) : StrMap :=
  (forEachRule removeLeftFactoringStep (loopBound grammar) 0 grammar).getD grammar

/-! ## Grammar analysis -/

/-- The body of the first loop of `analyzeGrammar`, on the pair of `grammar` and
`leftFactoringFound`. -/
def factoringRound (state : StrMap × Bool) : StrMap × Bool :=
  if hasLeftFactoring state.1 then
    let grammar := removeLeftFactoring state.1
    (grammar, hasLeftFactoring grammar)
  else state

/-- The body of the second loop of `analyzeGrammar`, on the pair of `grammar` and
`leftRecursionFound`. -/
def recursionRound (state : StrMap × Bool) : StrMap × Bool :=
  if hasLeftRecursion state.1 then
    let grammar := removeLeftRecursion state.1
    (grammar, hasLeftRecursion grammar)
  else state

/-- A loop `for (it = grammar.begin(); it != grammar.end(); ++it)` of `analyzeGrammar`,
whose body extends `grammar`: one round for each position of the iteration order, the keys
that the rounds have inserted included.  `fuel` bounds the number of rounds and `none` is
fuel exhaustion. -/
def roundsLoop (round : StrMap × Bool → StrMap × Bool) :
    Nat → Nat → StrMap × Bool → Option (StrMap × Bool)
  | 0, index, state => if index < state.1.length then none else some state
  | fuel + 1, index, state =>
    if index < state.1.length then roundsLoop round fuel (index + 1) (round state)
    else some state

/-- The function `analyzeGrammar`: the grammar it leaves behind and the value it
returns. -/
def analyzeGrammar (grammar : StrMap) : StrMap × Bool :=
  let afterFactoring :=
    (roundsLoop factoringRound (loopBound grammar) 0 (grammar, false)).getD (grammar, false)
  let afterRecursion :=
    (roundsLoop recursionRound (loopBound afterFactoring.1) 0
      (afterFactoring.1, false)).getD (afterFactoring.1, false)
  (afterRecursion.1, !(afterFactoring.2 || afterRecursion.2))

/-! ## Computation of FIRST and FOLLOW

The state of `computeFirst` is the pair of `firstSets` and `visited`, the state of
`computeFollow` the pair of `followSets` and `visited`.  Both functions are recursive; `fuel`
bounds the depth of the recursion and `none` is fuel exhaustion. -/

def isTerminal (grammar : StrMap) (token : List Char) : Bool :=
  !mapHas grammar token

/-- The `while (nullable && stream >> token)` loop of `computeFirst` on the tokens that
remain; the result carries the final value of `nullable`.  The argument `recurse` is the
recursive call `computeFirst(token, visited)`. -/
def firstOfTokens (recurse : List Char → StrMap × StrSet → Option (StrMap × StrSet))
    (grammar : StrMap) (nonTerminal : List Char) :
    List (List Char) → StrMap × StrSet → Option ((StrMap × StrSet) × Bool)
  | [], state => some (state, true)
  | token :: rest, state =>
    if isTerminal grammar token then
      some ((mapAdd state.1 nonTerminal token, state.2), false)
    else
      match recurse token state with
      | none => none
      | some state =>
        let firstSets := mapSet state.1 nonTerminal
          (setInsertAll (mapGet state.1 nonTerminal) (mapGet state.1 token))
        if (mapGet firstSets token).contains "NULL".toList then
          firstOfTokens recurse grammar nonTerminal rest
            (mapSet firstSets nonTerminal
              (setErase (mapGet firstSets nonTerminal) "NULL".toList), state.2)
        else some ((firstSets, state.2), false)

def computeFirst (fuel : Nat) (grammar : StrMap) (nonTerminal : List Char)
    (state : StrMap × StrSet) : Option (StrMap × StrSet) :=
  if state.2.contains nonTerminal || !(mapGet state.1 nonTerminal).isEmpty then some state
  else
    match fuel with
    | 0 => none
    | fuel + 1 =>
      (mapGet grammar nonTerminal).foldlM
        (fun state production =>
          match firstOfTokens (computeFirst fuel grammar) grammar nonTerminal
              (words production) state with
          | none => none
          | some (state, nullable) =>
            if nullable then some (mapAdd state.1 nonTerminal "NULL".toList, state.2)
            else some state)
        (state.1, setInsert state.2 nonTerminal)

/-- The `for (j = i + 1; ...)` loop of `computeFollow` on the tokens that follow an occurrence
of `nonTerminal`: the new value of `followSets[nonTerminal]` and of `addFollowOfLHS`. -/
def followAfter (grammar firstSets : StrMap) :
    List (List Char) → StrSet → StrSet × Bool
  | [], follow => (follow, true)
  | nextToken :: rest, follow =>
    if !mapHas grammar nextToken then (setInsert follow nextToken, false)
    else
      let follow := setErase (setInsertAll follow (mapGet firstSets nextToken)) "NULL".toList
      if !(mapGet firstSets nextToken).contains "NULL".toList then (follow, false)
      else followAfter grammar firstSets rest follow

/-- The `for (i = 0; ...)` loop of `computeFollow` over the tokens of one production of
`lhs`, from index `i` on.  The argument `recurse` is the recursive call
`computeFollow(lhs, visited)`. -/
def followOfTokens (recurse : List Char → StrMap × StrSet → Option (StrMap × StrSet))
    (grammar firstSets : StrMap) (nonTerminal lhs : List Char) :
    List (List Char) → StrMap × StrSet → Option (StrMap × StrSet)
  | [], state => some state
  | token :: rest, state =>
    if token = nonTerminal then
      let after := followAfter grammar firstSets rest (mapGet state.1 nonTerminal)
      let state := (mapSet state.1 nonTerminal after.1, state.2)
      if after.2 then
        match recurse lhs state with
        | none => none
        | some state =>
          followOfTokens recurse grammar firstSets nonTerminal lhs rest
            (mapSet state.1 nonTerminal
              (setInsertAll (mapGet state.1 nonTerminal) (mapGet state.1 lhs)), state.2)
      else followOfTokens recurse grammar firstSets nonTerminal lhs rest state
    else followOfTokens recurse grammar firstSets nonTerminal lhs rest state

def computeFollow (fuel : Nat) (grammar firstSets : StrMap) (nonTerminal : List Char)
    (state : StrMap × StrSet) : Option (StrMap × StrSet) :=
  if state.2.contains nonTerminal || !(mapGet state.1 nonTerminal).isEmpty then some state
  else
    match fuel with
    | 0 => none
    | fuel + 1 =>
      let visited := setInsert state.2 nonTerminal
      -- the start symbol is taken to be `grammar.begin()->first`
      let followSets :=
        if (grammar.head?.map fun rule => rule.1) = some nonTerminal then
          mapAdd state.1 nonTerminal "$".toList
        else state.1
      grammar.foldlM
        (fun state rule =>
          rule.2.foldlM
            (fun state production =>
              followOfTokens (computeFollow fuel grammar firstSets) grammar firstSets
                nonTerminal rule.1 (words production) state)
            state)
        (followSets, visited)

/-- The two loops of `computeFirstAndFollow`: the final `firstSets` and `followSets`. -/
def computeFirstAndFollow (grammar : StrMap) : Option (StrMap × StrMap) :=
  match (grammar.map fun rule => rule.1).foldlM
      (fun state nonTerminal => computeFirst (grammar.length + 1) grammar nonTerminal state)
      (([] : StrMap), ([] : StrSet)) with
  | none => none
  | some (firstSets, _) =>
    match (grammar.map fun rule => rule.1).foldlM
        (fun state nonTerminal =>
          computeFollow (grammar.length + 1) grammar firstSets nonTerminal state)
        (([] : StrMap), ([] : StrSet)) with
    | none => none
    | some (followSets, _) => some (firstSets, followSets)

/-! ## The parse table -/

/-- The assignment `m[key] = value` on an `std::unordered_map` with string keys. -/
def assocSet {β : Type} : List (List Char × β) → List Char → β → List (List Char × β)
  | [], key, value => [(key, value)]
  | (k, v) :: rest, key, value =>
    if k = key then (k, value) :: rest else (k, v) :: assocSet rest key value

/-- A row of the parse table: an `std::unordered_map<std::string, std::string>`. -/
abbrev TableRow := List (List Char × List Char)

/-- The member `parseTable`. -/
abbrev ParseTable := List (List Char × TableRow)

/-- The row `parseTable[nonTerminal]` (the empty row when the key is absent). -/
def tableRow (parseTable : ParseTable) (nonTerminal : List Char) : TableRow :=
  (parseTable.lookup nonTerminal).getD []

/-- The cell `parseTable[nonTerminal][terminal]`; `none` when
`parseTable[nonTerminal].count(terminal)` is 0. -/
def tableGet (parseTable : ParseTable) (nonTerminal terminal : List Char) :
    Option (List Char) :=
  (tableRow parseTable nonTerminal).lookup terminal

/-- The assignment `parseTable[nonTerminal][terminal] = value`. -/
def tableSet (parseTable : ParseTable) (nonTerminal terminal value : List Char) :
    ParseTable :=
  assocSet parseTable nonTerminal (assocSet (tableRow parseTable nonTerminal) terminal value)

/-- The `while (isNullable && stream >> token)` loop of `buildParseTable` on the tokens that
remain: the set `firstOfProduction` and the final value of `isNullable`. -/
def firstOfProductionLoop (grammar firstSets : StrMap) :
    List (List Char) → StrSet → StrSet × Bool
  | [], firstOfProduction => (firstOfProduction, true)
  | token :: rest, firstOfProduction =>
    if isTerminal grammar token then (setInsert firstOfProduction token, false)
    else
      let firstOfProduction := setInsertAll firstOfProduction (mapGet firstSets token)
      if (mapGet firstSets token).contains EPSILON then
        firstOfProductionLoop grammar firstSets rest (setErase firstOfProduction EPSILON)
      else (firstOfProduction, false)

/-- The set `firstOfProduction` that `buildParseTable` computes for one production, after
the statement `if (isNullable) firstOfProduction.insert(EPSILON)`. -/
def firstOfProduction (grammar firstSets : StrMap) (production : List Char) : StrSet :=
  let loop := firstOfProductionLoop grammar firstSets (words production) []
  if loop.2 then setInsert loop.1 EPSILON else loop.1

/-- The body of the loop of `buildParseTable` over the productions of `nonTerminal`. -/
def placeProduction (grammar firstSets followSets : StrMap) (nonTerminal : List Char)
    (parseTable : ParseTable) (production : List Char) : ParseTable :=
  let first := firstOfProduction grammar firstSets production
  let parseTable := first.foldl
    (fun parseTable terminal =>
      if terminal ≠ EPSILON then tableSet parseTable nonTerminal terminal production
      else parseTable)
    parseTable
  if first.contains EPSILON then
    (mapGet followSets nonTerminal).foldl
      (fun parseTable followSymbol => tableSet parseTable nonTerminal followSymbol production)
      parseTable
  else parseTable

/-- The panic-mode loop of `buildParseTable` for the row of `nonTerminal`. -/
def addSync (followSets : StrMap) (nonTerminal : List Char) (parseTable : ParseTable) :
    ParseTable :=
  (mapGet followSets nonTerminal).foldl
    (fun parseTable followSymbol =>
      if ((tableGet parseTable nonTerminal followSymbol).getD []).isEmpty then
        tableSet parseTable nonTerminal followSymbol "sync".toList
      else parseTable)
    parseTable

/-- The body of the outer loop of `buildParseTable`: the productions of one entry of the
grammar are placed, then the empty cells of its row get `sync`. -/
def buildRow (grammar firstSets followSets : StrMap) (parseTable : ParseTable)
    (entry : List Char × StrSet) : ParseTable :=
  addSync followSets entry.1
    (entry.2.foldl (placeProduction grammar firstSets followSets entry.1) parseTable)

/-- The function `buildParseTable`, from the empty table. -/
def buildParseTable (grammar firstSets followSets : StrMap) : ParseTable :=
  grammar.foldl (buildRow grammar firstSets followSets) []

/-! ## The parser -/

/-- The map `parseTree` of `parseInput`: an
`std::unordered_map<std::string, std::vector<std::string>>`. -/
abbrev ParseTree := List (List Char × List (List Char))

/-- The variables of `parseInput` that its main loop changes.  The stack has its top at the
head of the list; `console` holds the action lines written to `std::cout` and `errorFile`
the lines written to the error file, oldest first. -/
structure ParseState where
  parsingStack : List (List Char)
  tokenIndex : Nat
  success : Bool
  parseTree : ParseTree
  console : List (List Char)
  errorFile : List (List Char)
  deriving DecidableEq, Repr

/-- The map `tokens` of `parseInput` as the list of its values in key order: the words of the
input and the end marker. -/
def inputTokens (input : List Char) : List (List Char) :=
  words input ++ ["$".toList]

/-- The inner `while` loop of the panic-mode branch, on the tokens from `tokenIndex` on: the
value of `tokenIndex` when it exits. -/
def panicSkip (follow : StrSet) : List (List Char) → Nat → Nat
  | [], tokenIndex => tokenIndex
  | currentToken :: rest, tokenIndex =>
    if follow.contains currentToken then tokenIndex
    else panicSkip follow rest (tokenIndex + 1)

/-- The body of the main loop of `parseInput` (the loop condition holds when it runs: the
stack is not empty and `tokens.count(tokenIndex)` is 1). -/
def parseStep (grammar followSets : StrMap) (parseTable : ParseTable)
    (tokens : List (List Char)) (st : ParseState) : ParseState :=
  match st.parsingStack, tokens.get? st.tokenIndex with
  | top :: rest, some currentToken =>
    if top = currentToken then
      { st with
        parsingStack := rest
        tokenIndex := st.tokenIndex + 1
        console := st.console ++ ["Match: ".toList ++ currentToken] }
    else if isTerminal grammar top || top = "$".toList then
      let action := "Error: Unexpected token '".toList ++ currentToken
        ++ "'. Expected: '".toList ++ top ++ "'.".toList
      { st with
        tokenIndex := st.tokenIndex + 1
        success := false
        console := st.console ++ [action]
        errorFile := st.errorFile ++ [action] }
    else
      match tableGet parseTable top currentToken with
      | some production =>
        let productionSymbols := if production ≠ EPSILON then words production else []
        { st with
          parsingStack := productionSymbols ++ rest
          parseTree :=
            if production ≠ EPSILON then assocSet st.parseTree top productionSymbols
            else st.parseTree
          console := st.console ++ ["Expand: ".toList ++ top ++ " -> ".toList ++ production] }
      | none =>
        let action := "Error: No rule for '".toList ++ top ++ "' with token '".toList
          ++ currentToken ++ "'. Entering Panic Mode.".toList
        { st with
          parsingStack := rest
          tokenIndex := panicSkip (mapGet followSets top) (tokens.drop st.tokenIndex)
            st.tokenIndex
          success := false
          console := st.console ++ [action]
          errorFile := st.errorFile ++ [action] }
  | _, _ => st

/-- The condition of the main loop of `parseInput`. -/
def loopCondition (tokens : List (List Char)) (st : ParseState) : Bool :=
  !st.parsingStack.isEmpty && decide (st.tokenIndex < tokens.length)

/-- The main loop of `parseInput`; `fuel` bounds the number of iterations and `none` is
fuel exhaustion. -/
def parseLoop (grammar followSets : StrMap) (parseTable : ParseTable)
    (tokens : List (List Char)) : Nat → ParseState → Option ParseState
  | fuel, st =>
    if loopCondition tokens st then
      match fuel with
      | 0 => none
      | fuel + 1 =>
        parseLoop grammar followSets parseTable tokens fuel
          (parseStep grammar followSets parseTable tokens st)
    else some st

/-- The state of `parseInput` when its main loop starts. -/
def initialState (startSymbol : List Char) : ParseState :=
  { parsingStack := [startSymbol, "$".toList]
    tokenIndex := 0
    success := true
    parseTree := []
    console := []
    errorFile := [] }

/-- The statement after the main loop of `parseInput` that reports the outcome. -/
def report (tokens : List (List Char)) (st : ParseState) : ParseState :=
  if st.success && st.parsingStack.isEmpty && !decide (st.tokenIndex < tokens.length) then
    { st with console := st.console ++ ["Input successfully parsed.".toList] }
  else
    { st with
      console := st.console ++ ["Parsing failed.".toList]
      errorFile := st.errorFile ++ ["Parsing failed".toList] }

/-- The function `parseInput` up to the printing of the tree. -/
def parseInput (fuel : Nat) (grammar followSets : StrMap) (parseTable : ParseTable)
    (input startSymbol : List Char) : Option ParseState :=
  (parseLoop grammar followSets parseTable (inputTokens input) fuel
    (initialState startSymbol)).map (report (inputTokens input))

/-- The calls `computeFirstAndFollow` and `buildParseTable` of the driver: the parse table of
a grammar. -/
def tableOf (grammar : StrMap) : Option ParseTable :=
  (computeFirstAndFollow grammar).map fun sets => buildParseTable grammar sets.1 sets.2

/-- The calls that the driver makes after `analyzeGrammar` for one input of `parseInput`:
`computeFirstAndFollow`, `buildParseTable`, `parseInput`. -/
def parseWith (fuel : Nat) (grammar : StrMap) (input startSymbol : List Char) :
    Option ParseState :=
  match computeFirstAndFollow grammar with
  | none => none
  | some (firstSets, followSets) =>
    parseInput fuel grammar followSets (buildParseTable grammar firstSets followSets)
      input startSymbol

/-! ## Printing the tree and parsing a token file -/

/-- The function `printTree`: the lines that a call writes to `output`.  The function is
recursive; `fuel` bounds the depth of the recursion and `none` is fuel exhaustion. -/
def printTree : Nat → List Char → ParseTree → Nat → Option (List (List Char))
  | 0, _, _, _ => none
  | fuel + 1, symbol, tree, depth =>
    let line := (List.replicate depth "    ".toList).flatten ++ "|====> ".toList ++ symbol
    match tree.lookup symbol with
    | none => some [line]
    | some children =>
      children.foldl
        (fun output child =>
          match output with
          | none => none
          | some output =>
            (printTree fuel child tree (depth + 1)).map fun lines => output ++ lines)
        (some [line])

/-- The function `parseInput` with its last statements, the two calls
`printTree(startSymbol, parseTree, ...)` (the same call for either stream): the state after
the report and the lines of the tree.  One `fuel` bounds the iterations of the main loop and
the depth of `printTree`. -/
def parseInputWithTree (fuel : Nat) (grammar followSets : StrMap) (parseTable : ParseTable)
    (input startSymbol : List Char) : Option (ParseState × List (List Char)) :=
  match parseInput fuel grammar followSets parseTable input startSymbol with
  | none => none
  | some st => (printTree fuel startSymbol st.parseTree 0).map fun lines => (st, lines)

/-- What `parseFromFile` does with one line of the token file after the first two: a call of
`parseInput` on `firstValue`, or the warning that the line is empty or improperly
formatted. -/
inductive LineRecord where
  | parsed (lineNumber : Nat) (firstValue : List Char) (run : ParseState)
      (tree : List (List Char))
  | warning (lineNumber : Nat)
  deriving DecidableEq, Repr

/-- The `while (getline(file, line))` loop of `parseFromFile`; the last argument is
`lineNumber` before the line is read. -/
def parseFromFileLoop (fuel : Nat) (grammar followSets : StrMap) (parseTable : ParseTable)
    (startSymbol : List Char) : List (List Char) → Nat → Option (List LineRecord)
  | [], _ => some []
  | line :: rest, lineNumber =>
    if lineNumber + 1 ≤ 2 then
      parseFromFileLoop fuel grammar followSets parseTable startSymbol rest (lineNumber + 1)
    else
      -- `lineStream >> firstValue`
      match words line with
      | firstValue :: _ =>
        match parseInputWithTree fuel grammar followSets parseTable firstValue startSymbol with
        | none => none
        | some (run, tree) =>
          (parseFromFileLoop fuel grammar followSets parseTable startSymbol rest
            (lineNumber + 1)).map fun records =>
              LineRecord.parsed (lineNumber + 1) firstValue run tree :: records
      | [] =>
        (parseFromFileLoop fuel grammar followSets parseTable startSymbol rest
          (lineNumber + 1)).map fun records => LineRecord.warning (lineNumber + 1) :: records

/-- The function `parseFromFile` on the text of the token file.  Opening the files is not
part of the model; `fuel` is the bound of each call of `parseInput`. -/
def parseFromFile (fuel : Nat) (grammar followSets : StrMap) (parseTable : ParseTable)
    (text startSymbol : List Char) : Option (List LineRecord) :=
  parseFromFileLoop fuel grammar followSets parseTable startSymbol
    (Lexical.sourceLines text) 0

/-- The calls that the driver makes after `analyzeGrammar` for a token file:
`computeFirstAndFollow`, `buildParseTable`, `parseFromFile`. -/
def parseFileWith (fuel : Nat) (grammar : StrMap) (text startSymbol : List Char) :
    Option (List LineRecord) :=
  match computeFirstAndFollow grammar with
  | none => none
  | some (firstSets, followSets) =>
    parseFromFile fuel grammar followSets (buildParseTable grammar firstSets followSets)
      text startSymbol

/-! ## Notions of the specification -/

/-- No `|` of the string is alone: reading from the left, the pipes come in pairs `||`. -/
def pairedPipes : List Char → Bool
  | [] => true
  | c :: rest =>
    if c = '|' then
      match rest with
      | d :: rest2 => d = '|' && pairedPipes rest2
      | [] => false
    else pairedPipes rest

/-- Every character of a string with the flag "is a single `|`": a `|` with no `|` directly
before it (`before` is the character before the string) and none directly after it. -/
def markSingles : Option Char → List Char → List (Char × Bool)
  | _, [] => []
  | before, c :: rest =>
    (c, decide (c = '|' ∧ before ≠ some '|' ∧ rest.head? ≠ some '|'))
      :: markSingles (some c) rest

/-- The pieces between the single pipes of a string that follows the character `before`. -/
def piecesFrom (before : Option Char) (s : List Char) : List (List Char) :=
  ((markSingles before s).splitOnP fun m => m.2).map fun piece => piece.map fun m => m.1

/-- Following the spec's words (alternatives are separated by single pipes, two consecutive
pipes are a literal symbol): the pieces of a right-hand side between its single pipes, from
left to right. -/
def splitAtSinglePipes (production : List Char) : List (List Char) :=
  piecesFrom none production

/-- The first symbol of an alternative whose symbols are separated by blanks: the text
before the first blank. -/
def firstSymbol (alt : List Char) : List Char :=
  alt.takeWhile fun c => c ≠ ' '

/-- An alternative shares its first symbol with another alternative of the set: it is in a
group of at least two. -/
def sharesFirstSymbol (alts : StrSet) (p : List Char) : Prop :=
  ∃ q ∈ alts, q ≠ p ∧ firstSymbol q = firstSymbol p

/-- Following the extension rule of the specification: the FIRST set of a sequence of
symbols, from the FIRST sets of its non-terminals.  A terminal in front gives itself, a
non-terminal its FIRST set without `ε`, and the rule goes on to the next symbol when that
FIRST set has `ε`; when every symbol is passed (or there is none) the set has `ε`. -/
def firstOfSequence (grammar firstSets : StrMap) : List (List Char) → StrSet
  | [] => [EPSILON]
  | symbol :: rest =>
    if isTerminal grammar symbol then [symbol]
    else
      setErase (mapGet firstSets symbol) EPSILON
        ++ (if (mapGet firstSets symbol).contains EPSILON then
              firstOfSequence grammar firstSets rest
            else [])

/-- The FOLLOW rules at every non-terminal `B` of what remains of a production
`lhs -> α B β`: `FIRST(β)` without `ε` is inside `FOLLOW(B)`, and `FOLLOW(lhs)` is inside
`FOLLOW(B)` when `β` is empty or all of it is nullable. -/
def followClosedAt (grammar firstSets followSets : StrMap) (lhs : List Char) :
    List (List Char) → Bool
  | [] => true
  | symbol :: beta =>
    (if mapHas grammar symbol then
        ((firstOfSequence grammar firstSets beta).all fun a =>
          a = EPSILON || (mapGet followSets symbol).contains a)
        && (if (firstOfSequence grammar firstSets beta).contains EPSILON then
              (mapGet followSets lhs).all fun a => (mapGet followSets symbol).contains a
            else true)
      else true)
    && followClosedAt grammar firstSets followSets lhs beta

/-- The FOLLOW sets are closed under the FOLLOW rules at every production of the grammar. -/
def followClosed (grammar firstSets followSets : StrMap) : Bool :=
  grammar.all fun rule =>
    rule.2.all fun production =>
      followClosedAt grammar firstSets followSets rule.1 (words production)

/-- Following §4.2.6 of the specification: the production `p` of `nonTerminal` claims the
cell of the terminal `a`, by `a ∈ FIRST(p) \ {ε}` or by `ε ∈ FIRST(p)` and
`a ∈ FOLLOW(nonTerminal)`. -/
def claimsCell (grammar firstSets followSets : StrMap) (nonTerminal p a : List Char) : Prop :=
  (a ∈ firstOfSequence grammar firstSets (words p) ∧ a ≠ EPSILON)
    ∨ (EPSILON ∈ firstOfSequence grammar firstSets (words p)
        ∧ a ∈ mapGet followSets nonTerminal)

instance (grammar firstSets followSets : StrMap) (nonTerminal p a : List Char) :
    Decidable (claimsCell grammar firstSets followSets nonTerminal p a) := by
  unfold claimsCell
  exact inferInstance

/-- The content of one cell after the productions `ps` have been offered to it in order, the
last claimant winning, and after the pass that writes `sync` into a cell of a FOLLOW
terminal that is still empty; `old` is the content before. -/
def rowCell (claims : List Char → Bool) (inFollow : Bool) (ps : StrSet)
    (old : Option (List Char)) : Option (List Char) :=
  let cell := ps.foldl (fun cell p => if claims p then some p else cell) old
  if inFollow && (cell.getD []).isEmpty then some "sync".toList else cell

/-- The four kinds of step of §4.3 of the specification (an expand step is any step that
takes a cell of the table, whatever the cell holds). -/
inductive StepKind where
  | matching
  | mismatch
  | expand
  | panic
  deriving DecidableEq, Repr

/-- The kind of the step that the main loop of `parseInput` makes from a state, by the
tests of the source in their order; `none` when the loop condition fails. -/
def stepKind (grammar : StrMap) (parseTable : ParseTable) (tokens : List (List Char))
    (st : ParseState) : Option StepKind :=
  match st.parsingStack, tokens.get? st.tokenIndex with
  | top :: _, some currentToken =>
    if top = currentToken then some StepKind.matching
    else if isTerminal grammar top || top = "$".toList then some StepKind.mismatch
    else if (tableGet parseTable top currentToken).isSome then some StepKind.expand
    else some StepKind.panic
  | _, _ => none

/-- The kinds of the first `n` steps of the main loop from a state, fewer when the loop
exits before. -/
def stepKinds (grammar followSets : StrMap) (parseTable : ParseTable)
    (tokens : List (List Char)) : Nat → ParseState → List StepKind
  | 0, _ => []
  | n + 1, st =>
    match stepKind grammar parseTable tokens st with
    | some kind =>
      kind :: stepKinds grammar followSets parseTable tokens n
        (parseStep grammar followSets parseTable tokens st)
    | none => []

/-- Following the spec's words ("the first whitespace-delimited field" of every line after
the two header lines): the line numbers of the token file from 3 on, each with the first
field of its line, if the line has one. -/
def lineFields (text : List Char) : List (Nat × Option (List Char)) :=
  (((Lexical.sourceLines text).enumFrom 1).drop 2).map fun entry =>
    (entry.1, (words entry.2).head?)

/-- Following the claim's words: "the sequence formed by the first whitespace-delimited
field of every following line, in file order", as one input of `parseInput`. -/
def fieldStream (text : List Char) : List Char :=
  " ".toList.intercalate ((lineFields text).filterMap fun entry => entry.2)

/-- The record of `parseFromFile` for a line number and the first field of its line. -/
def lineRecord (fuel : Nat) (grammar followSets : StrMap) (parseTable : ParseTable)
    (startSymbol : List Char) (entry : Nat × Option (List Char)) : Option LineRecord :=
  match entry.2 with
  | some firstValue =>
    (parseInputWithTree fuel grammar followSets parseTable firstValue startSymbol).map
      fun result => LineRecord.parsed entry.1 firstValue result.1 result.2
  | none => some (LineRecord.warning entry.1)

/-- Following the spec's words ("leftmost derivation from the start symbol in the
normalized grammar"): the sentential forms that one leftmost derivation step gives from a
form.  The leftmost non-terminal is replaced by the symbols of one of its productions, the
symbol `ε` standing for the empty string. -/
def leftmostSteps (grammar : StrMap) : List (List Char) → List (List (List Char))
  | [] => []
  | symbol :: rest =>
    if isTerminal grammar symbol then
      (leftmostSteps grammar rest).map fun form => symbol :: form
    else
      (mapGet grammar symbol).map fun production =>
        (words production).filter (fun s => s ≠ EPSILON) ++ rest

/-- The token sequence `w` is derivable from `startSymbol` by leftmost steps. -/
def Derivable (grammar : StrMap) (startSymbol : List Char) (w : List (List Char)) : Prop :=
  Relation.ReflTransGen (fun form next => next ∈ leftmostSteps grammar form)
    [startSymbol] w

end Synthetic

/-! # Theorems -/

namespace Lexical

/-! ## Concrete scenarios -/

/-- C1 (evaluation at the failing input): scanning the source text `foo;` passes the single
candidate `foo` to `processToken`, but the identifier automaton ends in state S2, which is not
in its set of valid states, so `foo` is written to the error file as an invalid token and no
valid token is emitted. -/
theorem PerformLexical_foo_is_invalid :
    lineCandidates "foo;".toList [] = ["foo".toList]
    ∧ identifierFSM "foo".toList = some (-1)
    ∧ PerformLexical "foo;".toList = some
        { nInvalid := 1
          errorFile := [⟨"foo".toList, 1⟩]
          console := [.invalid "foo".toList 1] } := by
  decide

/-- C2 (evaluation at the failing input): `processToken` on `3.14e-2x` emits the Number
`3.14e-2` and then records the tail `x` as an invalid token (the identifier automaton ends in
state S2 on `x`), instead of emitting `x` as an Identifier. -/
theorem processToken_number_split_tail_invalid (lineNum : Nat) (st : Lexical) :
    processToken "3.14e-2x".toList lineNum st
      = some (emitInvalid "x".toList lineNum (emitValid .Number "3.14e-2".toList lineNum st))
    ∧ identifierFSM "x".toList = some (-1) :=
  ⟨rfl, by decide⟩

/-- C3: `processToken` on the candidate `=:=` emits exactly one token, the lexeme `=:=` with
class Operator (nothing else changes: no other token, no invalid lexeme), and
`operatorFSM` returns the accepting state 13 on `=:=`. -/
theorem processToken_operator_composition (lineNum : Nat) (st : Lexical) :
    processToken "=:=".toList lineNum st
      = some { st with
          nOperators := st.nOperators + 1
          console := st.console ++ [.valid .Operator "=:=".toList lineNum]
          tokenFile := st.tokenFile ++ [.tok "=:=".toList .Operator]
          symbolTableFile :=
            st.symbolTableFile ++ [.sym "=:=".toList .Operator lineNum st.tokenNo]
          tokenNo := st.tokenNo + 1 }
    ∧ operatorFSM "=:=".toList = some 13
    ∧ accepts (operatorFSM "=:=".toList) :=
  ⟨rfl, by decide, by decide⟩

/-! ## The operator and punctuation automata -/

/-- C8 (counterexample): `operatorFSM` does not accept every operator string of the claimed
alphabet: it returns `-1` on `<=`. -/
theorem operatorFSM_rejects_le :
    ¬ (∀ op ∈ ["!=", "<", "<=", "<>", ">", ">=", "=", "==", "=>", "=<", ":=", "=:", "=+",
        "::", "+", "++", "-", "--", "*", "/", "%", "&", "&&", "|", "||"],
        accepts (operatorFSM (String.toList op)))
    ∧ operatorFSM "<=".toList = some (-1) := by
  decide

/-- C8 (amended): `operatorFSM` accepts every one of `!=`, `<>`, `==`, `=>`, `=<`, `:=`,
`=+`, `::`, `+`, `++`, `-`, `--`, `*`, `/`, `%`, `&&`, `||`, and it rejects `<=` and `>=`,
for which the transition table has no transition. -/
theorem operatorFSM_accepts_encoded :
    (∀ op ∈ ["!=", "<>", "==", "=>", "=<", ":=", "=+", "::", "+", "++", "-", "--", "*", "/",
        "%", "&&", "||"], accepts (operatorFSM (String.toList op)))
    ∧ operatorFSM "<=".toList = some (-1)
    ∧ operatorFSM ">=".toList = some (-1) := by
  decide

/-- With the reads of `tableAt`, for which a read outside the array is undefined, the run of
`punctuationFSM` on `[[[` is undefined: the second character moves it to the marker state
`-2`, which `runFSM` does not treat as a rejection, and the third character reads row `-2`
of the table, outside the table.  The one-character string `[` is accepted and the
two-character string `[[` returns `-1`. -/
theorem punctuationFSM_reads_outside_table :
    punctuationFSM "[[[".toList = none
    ∧ tableAt punctuationTable 1 (getPunctuationCol '[') = some (-2)
    ∧ tableAt punctuationTable (-2) (getPunctuationCol '[') = none
    ∧ punctuationFSM "[".toList = some 1
    ∧ punctuationFSM "[[".toList = some (-1) := by
  decide

/-! ## Segmentation -/

theorem lineCandidates_eq_modifyHead (rest token : List Char) :
    lineCandidates rest token
      = (((rest.splitOnP fun c => isSeparator c).modifyHead fun run => token ++ run).filter
          fun run => run ≠ []) := by
  induction rest generalizing token with
  | nil =>
    by_cases h : token = [] <;> simp [lineCandidates, List.splitOnP_nil, h]
  | cons c rest ih =>
    rw [lineCandidates, List.splitOnP_cons]
    by_cases hc : isSeparator c = true
    · have hid : (fun run : List Char => run) = id := rfl
      by_cases h : token = []
      · simp [hc, h, ih, hid]
      · simp [hc, h, ih, hid]
    · simp only [hc, if_false, Bool.false_eq_true]
      rw [ih, List.modifyHead_modifyHead]
      congr 2
      funext run
      simp

theorem lineCandidates_clean (rest token : List Char)
    (htoken : ∀ ch ∈ token, isSeparator ch = false) :
    ∀ cand ∈ lineCandidates rest token, cand ≠ [] ∧ ∀ ch ∈ cand, isSeparator ch = false := by
  induction rest generalizing token with
  | nil =>
    intro cand hcand
    by_cases h : token = []
    · simp [lineCandidates, h] at hcand
    · simp [lineCandidates, h] at hcand
      subst hcand
      exact ⟨h, htoken⟩
  | cons c rest ih =>
    intro cand hcand
    rw [lineCandidates] at hcand
    by_cases hc : isSeparator c = true
    · by_cases h : token = []
      · simp only [hc, h, if_true, ne_eq, not_true_eq_false, if_false] at hcand
        exact ih [] (by simp) cand hcand
      · simp only [hc, h, if_true, ne_eq, not_false_eq_true, List.mem_cons] at hcand
        rcases hcand with rfl | hcand
        · exact ⟨h, htoken⟩
        · exact ih [] (by simp) cand hcand
    · simp only [hc, if_false, Bool.false_eq_true] at hcand
      refine ih (token ++ [c]) ?_ cand hcand
      intro ch hch
      rcases List.mem_append.mp hch with h | h
      · exact htoken ch h
      · simp at h
        subst h
        simpa using hc

/-- The loop over a line does nothing but call `processToken` on the candidates of
`lineCandidates`, in order. -/
theorem scanLine_eq_processCandidates (rest : List Char) :
    ∀ (token : List Char) (lineNum : Nat) (st : Lexical),
      scanLine rest token lineNum st
        = processCandidates (lineCandidates rest token) lineNum st := by
  induction rest with
  | nil =>
    intro token lineNum st
    by_cases h : token = []
    · simp [scanLine, lineCandidates, processCandidates, h]
    · simp only [scanLine, lineCandidates, h, ne_eq, not_false_eq_true, if_true,
        processCandidates]
      cases processToken token lineNum st <;> rfl
  | cons c rest ih =>
    intro token lineNum st
    rw [scanLine, lineCandidates]
    by_cases hc : isSeparator c = true
    · by_cases h : token = []
      · simp only [hc, h, if_true, ne_eq, not_true_eq_false, if_false]
        exact ih [] lineNum st
      · simp only [hc, h, if_true, ne_eq, not_false_eq_true, processCandidates]
        cases processToken token lineNum st with
        | none => rfl
        | some st1 => exact ih [] lineNum st1
    · simp only [hc, if_false, Bool.false_eq_true]
      exact ih (token ++ [c]) lineNum st

/-- The notion `maximalRuns` skips a separator. -/
theorem maximalRuns_separator (c : Char) (rest : List Char) (hc : isSeparator c = true) :
    maximalRuns (c :: rest) = maximalRuns rest := by
  simp [maximalRuns, List.splitOnP_cons, hc]

/-- The notion `maximalRuns` is greedy: from a character that is not a separator, the first
run extends over all the following characters that are not separators. -/
theorem maximalRuns_run (c : Char) (rest : List Char) (hc : isSeparator c = false) :
    maximalRuns (c :: rest)
      = (c :: rest.takeWhile fun x => !isSeparator x)
        :: maximalRuns (rest.dropWhile fun x => !isSeparator x) := by
  have hrest := List.takeWhile_append_dropWhile (fun x => !isSeparator x) rest
  have hrun : ∀ x ∈ c :: rest.takeWhile (fun x => !isSeparator x),
      ¬ (fun ch => isSeparator ch) x = true := by
    intro x hx
    rcases List.mem_cons.mp hx with rfl | hx
    · simp [hc]
    · simpa using List.mem_takeWhile_imp hx
  cases htail : rest.dropWhile (fun x => !isSeparator x) with
  | nil =>
    rw [htail, List.append_nil] at hrest
    rw [hrest] at hrun ⊢
    simp [maximalRuns, List.splitOnP_eq_single _ _ hrun]
  | cons sep after =>
    have hsep : isSeparator sep = true := by
      have := List.head?_dropWhile_not (fun x => !isSeparator x) rest
      simpa [htail] using this
    rw [htail] at hrest
    have hsplit := List.splitOnP_first (fun ch => isSeparator ch) _ hrun sep hsep after
    rw [List.cons_append, hrest] at hsplit
    rw [maximalRuns, hsplit, maximalRuns_separator sep after hsep]
    simp [maximalRuns]

/-- The notion `maximalRuns` on an example line. -/
theorem maximalRuns_example :
    maximalRuns "  agar(x1 ,y)$ z;;".toList = ["agar".toList, "x1".toList, "y".toList,
      "z".toList] := by
  decide

/-- C10: for every source line, the segmentation loop of `PerformLexical` calls
`processToken` on the candidates `lineCandidates line []` and on nothing else, and these are
exactly the maximal runs of characters that are neither whitespace nor one of `$ , ; ( )`,
in left-to-right order; no candidate is empty and no candidate contains whitespace or a hard
delimiter. -/
theorem lineCandidates_eq_maximalRuns (line : List Char) :
    (∀ lineNum st,
      scanLine line [] lineNum st = processCandidates (lineCandidates line []) lineNum st)
    ∧ lineCandidates line [] = maximalRuns line
    ∧ ∀ cand ∈ lineCandidates line [],
        cand ≠ [] ∧ ∀ ch ∈ cand,
          isspace ch = false ∧ ch ≠ '$' ∧ ch ≠ ',' ∧ ch ≠ ';' ∧ ch ≠ '(' ∧ ch ≠ ')' := by
  refine ⟨scanLine_eq_processCandidates line [], ?_, ?_⟩
  · rw [lineCandidates_eq_modifyHead, maximalRuns]
    congr 1
    have : (fun run : List Char => [] ++ run) = id := by funext run; simp
    rw [this, List.modifyHead_id]
    rfl
  · intro cand hcand
    obtain ⟨hne, hall⟩ := lineCandidates_clean line [] (by simp) cand hcand
    refine ⟨hne, fun ch hch => ?_⟩
    have := hall ch hch
    simp only [isSeparator, Bool.or_eq_false_iff, decide_eq_false_iff_not] at this
    tauto

/-! ## The automata never leave their tables on the runs `processToken` makes -/

/-- A run started in a set of states that the table maps into itself (or to `-1`) never
reads outside the table, and returns `-1` or a valid state. -/
theorem runFSM_closed (table : List (List Int)) (numColumns : Int) (getCol : Char → Int)
    (validStates states cols : List Int)
    (hcol : ∀ c, getCol c ∈ cols)
    (hstep : ∀ s ∈ states, ∀ col ∈ cols,
      (match tableAt table s col with
        | some next => decide (next = -1 ∨ next ∈ states)
        | none => false) = true) :
    ∀ (token : List Char) (s : Int), s ∈ states →
      ∃ r, runFSM token s table numColumns getCol validStates = some r
        ∧ (r = -1 ∨ r ∈ validStates) := by
  intro token
  induction token with
  | nil =>
    intro s _
    by_cases h : s ∈ validStates
    · exact ⟨s, by simp [runFSM, h], Or.inr h⟩
    · exact ⟨-1, by simp [runFSM, h], Or.inl rfl⟩
  | cons c rest ih =>
    intro s hs
    rw [runFSM]
    by_cases hc : getCol c ≥ numColumns ∨ getCol c < 0
    · exact ⟨-1, by simp [hc], Or.inl rfl⟩
    · have h := hstep s hs (getCol c) (hcol c)
      simp only [hc, if_false]
      cases hnext : tableAt table s (getCol c) with
      | none => simp [hnext] at h
      | some next =>
        simp only [hnext, decide_eq_true_eq] at h
        by_cases hm : next = -1
        · exact ⟨-1, by simp [hm], Or.inl rfl⟩
        · simp only [hm, if_false]
          exact ih next (h.resolve_left hm)

theorem ite_mem_list {p : Prop} [Decidable p] {a b : Int} {l : List Int}
    (ha : a ∈ l) (hb : b ∈ l) : (if p then a else b) ∈ l := by
  split <;> assumption

theorem getIdentifierCol_mem (c : Char) : getIdentifierCol c ∈ [(0 : Int), 1, 2, 3] := by
  unfold getIdentifierCol
  repeat' apply ite_mem_list
  all_goals decide

theorem getNumberCol_mem (c : Char) : getNumberCol c ∈ [(0 : Int), 1, 2, 3, 4] := by
  unfold getNumberCol
  repeat' apply ite_mem_list
  all_goals decide

theorem getOperatorCol_mem (c : Char) :
    getOperatorCol c ∈ [(0 : Int), 1, 2, 3, 4, 5, 6, 7, 8, 9, 10, 11, 12] := by
  unfold getOperatorCol
  repeat' apply ite_mem_list
  all_goals decide

theorem identifierFSM_total (token : List Char) :
    ∃ r, identifierFSM token = some r ∧ (r = -1 ∨ r = 3) := by
  obtain ⟨r, h, hr⟩ := runFSM_closed identifierTable 4 getIdentifierCol [3] [0, 1, 2, 3]
    [0, 1, 2, 3] getIdentifierCol_mem (by decide) token 0 (by simp)
  exact ⟨r, h, by simpa using hr⟩

theorem numberFSM_total (token : List Char) : ∃ r, numberFSM token = some r := by
  obtain ⟨r, h, -⟩ := runFSM_closed numberTable 6 getNumberCol [2, 4, 7]
    [0, 1, 2, 3, 4, 5, 6, 7] [0, 1, 2, 3, 4] getNumberCol_mem (by decide) token 0 (by simp)
  exact ⟨r, h⟩

theorem operatorFSM_total (token : List Char) : ∃ r, operatorFSM token = some r := by
  obtain ⟨r, h, -⟩ := runFSM_closed operatorTable 13 getOperatorCol [13, 6, 7, 8, 9, 12, 5]
    [0, 1, 2, 3, 4, 5, 6, 7, 8, 9, 10, 11, 12, 13]
    [0, 1, 2, 3, 4, 5, 6, 7, 8, 9, 10, 11, 12] getOperatorCol_mem (by decide) token 0
    (by simp)
  exact ⟨r, h⟩

theorem getPunctuationCol_cases (c : Char) :
    getPunctuationCol c ∈ [(0 : Int), 1, 2, 3, 4, 5, 6] := by
  unfold getPunctuationCol
  repeat' apply ite_mem_list
  all_goals decide

/-- On a one-character string the punctuation automaton makes one read, in row 0. -/
theorem punctuationFSM_single (c : Char) :
    punctuationFSM [c] = some (if getPunctuationCol c ≤ 5 then 1 else -1) := by
  have h := getPunctuationCol_cases c
  simp only [List.mem_cons, List.mem_singleton, List.not_mem_nil, or_false] at h
  rcases h with h | h | h | h | h | h | h <;>
    simp [punctuationFSM, runFSM, h] <;> decide

/-! ## What the splitters return -/

theorem seperateKeywordToken_some (token : List Char) (hne : token ≠ []) :
    ∃ tokenPart lastChar,
      seperateKeywordToken token = some (tokenPart, lastChar)
        ∧ tokenPart ++ lastChar = token := by
  obtain ⟨back, hback⟩ : ∃ back, token.getLast? = some back := by
    cases h : token.getLast? with
    | none => exact absurd (List.getLast?_eq_none_iff.mp h) hne
    | some back => exact ⟨back, rfl⟩
  have hsplit : token.take (token.length - 1) ++ [back] = token := by
    rw [← List.dropLast_eq_take]
    exact List.dropLast_append_getLast? back hback
  unfold seperateKeywordToken
  rw [hback]
  by_cases h : isalpha back = true
  · exact ⟨token, [], by simp [h], by simp⟩
  · exact ⟨token.take (token.length - 1), [back], by simp [h], hsplit⟩

theorem seperateIdentifierToken_append (token : List Char) :
    (seperateIdentifierToken token).1 ++ (seperateIdentifierToken token).2 = token := by
  simp [seperateIdentifierToken]

theorem seperateNumToken_append (token : List Char) :
    (seperateNumToken token).1 ++ (seperateNumToken token).2 = token := by
  simp [seperateNumToken]

theorem punctuationScan_append (token : List Char) :
    ∀ (rest : List Char) (pos : Nat) (tokenPart : List Char),
      token = tokenPart ++ rest → pos = tokenPart.length →
      (punctuationScan token rest pos tokenPart).1
        ++ (punctuationScan token rest pos tokenPart).2 = token := by
  intro rest
  induction rest with
  | nil =>
    intro pos tokenPart h _
    simp [punctuationScan, h]
  | cons c rest ih =>
    intro pos tokenPart h hpos
    rw [punctuationScan]
    by_cases hc : getPunctuationCol c ≥ 0 ∧ getPunctuationCol c ≤ 5
    · by_cases ht : tokenPart = []
      · subst ht
        subst hpos
        simp [hc, h]
      · subst hpos
        simp [hc, ht, h]
    · simp only [hc, if_false]
      exact ih (pos + 1) (tokenPart ++ [c]) (by simp [h]) (by simp [hpos])

theorem seperatePunctuationToken_append (token : List Char) :
    (seperatePunctuationToken token).1 ++ (seperatePunctuationToken token).2 = token :=
  punctuationScan_append token token 0 [] (by simp) (by simp)

theorem operatorScanStart_bounds :
    ∀ (rest : List Char) (start : Nat) (flag : Bool),
      start ≤ (operatorScanStart rest start flag).1
        ∧ (operatorScanStart rest start flag).1 ≤ start + rest.length := by
  intro rest
  induction rest with
  | nil => intro start flag; simp [operatorScanStart]
  | cons c rest ih =>
    intro start flag
    rw [operatorScanStart]
    by_cases hc : (isalnum c || decide (c = '_')) = true
    · simp only [hc, if_true]
      have := ih (start + 1) true
      simp only [List.length_cons]
      omega
    · simp only [hc, if_false, Bool.false_eq_true]
      simp

theorem operatorScanEnd_bounds (token : List Char) (start : Nat) :
    ∀ (e : Nat) (flag : Bool), start ≤ e →
      start ≤ (operatorScanEnd token start e flag).1
        ∧ (operatorScanEnd token start e flag).1 ≤ e := by
  intro e
  induction e with
  | zero => intro flag h; simp [operatorScanEnd]; omega
  | succ e ih =>
    intro flag h
    rw [operatorScanEnd]
    by_cases hc : e + 1 > start ∧ (isalnum (token.getD e ' ') || decide (token.getD e ' ' = '_')) = true
    · simp only [hc, and_self, if_true]
      have := ih true (by omega)
      omega
    · simp only [hc, if_false]
      simp [h]

theorem take_middle_drop_perm (token : List Char) (start e : Nat) (h : start ≤ e) :
    ((token.drop start).take (e - start) ++ (token.take start ++ token.drop e)).Perm token := by
  have h1 : token.take start ++ ((token.drop start).take (e - start) ++ token.drop e) = token := by
    have h2 : token.drop e = (token.drop start).drop (e - start) := by
      rw [List.drop_drop]
      congr 1
      omega
    rw [h2, List.take_append_drop, List.take_append_drop]
  calc ((token.drop start).take (e - start) ++ (token.take start ++ token.drop e))
      |>.Perm (token.take start ++ ((token.drop start).take (e - start) ++ token.drop e)) := by
        rw [← List.append_assoc, ← List.append_assoc]
        exact List.Perm.append_right _ List.perm_append_comm
    _ = token := h1

theorem separateOperatorToken_perm (token : List Char) :
    ((separateOperatorToken token).1 ++ (separateOperatorToken token).2).Perm token := by
  unfold separateOperatorToken
  have hs := operatorScanStart_bounds token 0 false
  have he := operatorScanEnd_bounds token (operatorScanStart token 0 false).1 token.length
    false (by omega)
  generalize operatorScanStart token 0 false = ps at hs he ⊢
  obtain ⟨start, hasStartValid⟩ := ps
  dsimp only at hs he ⊢
  generalize operatorScanEnd token start token.length false = pe at he ⊢
  obtain ⟨e, hasEndValid⟩ := pe
  dsimp only at he ⊢
  by_cases hb : (hasStartValid && hasEndValid) = true
  · simp [hb]
  · simp only [hb, if_false, Bool.false_eq_true]
    exact take_middle_drop_perm token start e he.1

/-! ## The shape of a `processToken` call -/

theorem identifierFSM_nil : identifierFSM [] = some (-1) := by decide

theorem numberFSM_nil : numberFSM [] = some (-1) := by decide

theorem operatorFSM_nil : operatorFSM [] = some (-1) := by decide

theorem keywords_rejected : ∀ kw ∈ keywords, kw ≠ [] ∧ identifierFSM kw = some (-1) := by
  decide

theorem tail_length_le {tokenPart lastChar token : List Char} {fuel : Nat}
    (hperm : (tokenPart ++ lastChar).Perm token) (hne : tokenPart ≠ [])
    (hlen : token.length ≤ fuel + 1) : lastChar.length ≤ fuel := by
  have h1 := hperm.length_eq
  have h2 := List.length_pos.mpr hne
  simp only [List.length_append] at h1
  omega

/-- An accepting branch of `processToken`: the head is emitted, then the tail is processed. -/
theorem emits_accept (fuel : Nat) (type : TokenClass) (tokenPart lastChar token : List Char)
    (lineNum : Nat) (st : Lexical)
    (hsplit : tokenPart ++ lastChar = token
      ∨ (type = .Operator ∧ (tokenPart ++ lastChar).Perm token))
    (hrule : classRule type tokenPart)
    (hrec : lastChar ≠ [] → Emits lastChar (emitValid type tokenPart lineNum st)
      (processTokenFuel fuel lastChar lineNum (emitValid type tokenPart lineNum st))) :
    Emits token st
      (if lastChar ≠ [] then
        processTokenFuel fuel lastChar lineNum (emitValid type tokenPart lineNum st)
      else some (emitValid type tokenPart lineNum st)) := by
  have hperm : (tokenPart ++ lastChar).Perm token := by
    rcases hsplit with h | ⟨-, h⟩
    · exact h ▸ List.Perm.refl _
    · exact h
  by_cases hl : lastChar = []
  · subst hl
    refine ⟨[.valid type tokenPart lineNum], by simp [applyRow], ?_, ?_, ?_⟩
    · intro t l n hmem
      simp only [List.mem_singleton, ConsoleRow.valid.injEq] at hmem
      obtain ⟨rfl, rfl, -⟩ := hmem
      exact hrule
    · simpa [ConsoleRow.lexeme] using hperm
    · intro hno
      rcases hsplit with h | ⟨hop, -⟩
      · simpa [ConsoleRow.lexeme] using h
      · subst hop
        exact absurd (List.mem_singleton.mpr rfl) (hno tokenPart lineNum)
  · obtain ⟨rows, hres, hrules, hp, heq⟩ := hrec hl
    refine ⟨.valid type tokenPart lineNum :: rows, by simp [hl, hres, applyRow], ?_, ?_, ?_⟩
    · intro t l n hmem
      rcases List.mem_cons.mp hmem with h | h
      · simp only [ConsoleRow.valid.injEq] at h
        obtain ⟨rfl, rfl, -⟩ := h
        exact hrule
      · exact hrules t l n h
    · simp only [List.map_cons, List.flatten_cons, ConsoleRow.lexeme]
      exact (List.Perm.append_left tokenPart hp).trans hperm
    · intro hno
      have hrows : (rows.map ConsoleRow.lexeme).flatten = lastChar :=
        heq fun l n hmem => hno l n (List.mem_cons_of_mem _ hmem)
      simp only [List.map_cons, List.flatten_cons, ConsoleRow.lexeme, hrows]
      rcases hsplit with h | ⟨hop, -⟩
      · exact h
      · subst hop
        exact absurd (List.mem_cons_self _ _) (hno tokenPart lineNum)

/-- Every call of `processToken` on a non-empty string returns, given fuel for the length
of the string, and its effect is described by `Emits`. -/
theorem processTokenFuel_emits (fuel : Nat) :
    ∀ (token : List Char) (lineNum : Nat) (st : Lexical), token ≠ [] → token.length ≤ fuel →
      Emits token st (processTokenFuel fuel token lineNum st) := by
  induction fuel with
  | zero =>
    intro token lineNum st hne hlen
    exact absurd (List.length_eq_zero.mp (Nat.le_zero.mp hlen)) hne
  | succ fuel ih =>
    intro token lineNum st hne hlen
    rw [processTokenFuel]
    simp only [hne, if_false]
    -- Keywords
    obtain ⟨kPart, kLast, hk, hkapp⟩ := seperateKeywordToken_some token hne
    simp only [hk]
    by_cases hkw : isKeyword kPart = true
    · simp only [hkw, if_true]
      have hmem : kPart ∈ keywords := by simpa [isKeyword] using hkw
      have hrej := keywords_rejected kPart hmem
      exact emits_accept fuel .Keyword kPart kLast token lineNum st (Or.inl hkapp)
        ⟨hmem, hrej.2⟩
        (fun hl => ih kLast lineNum _ hl
          (tail_length_le (hkapp ▸ List.Perm.refl _) hrej.1 hlen))
    simp only [hkw, if_false, Bool.false_eq_true]
    -- Identifier
    have hiapp := seperateIdentifierToken_append token
    rcases hi : seperateIdentifierToken token with ⟨iPart, iLast⟩
    rw [hi] at hiapp
    dsimp only at hiapp ⊢
    obtain ⟨ri, hri, hri3⟩ := identifierFSM_total iPart
    simp only [hri]
    by_cases hid : ri = 3
    · simp only [hid, if_true]
      subst hid
      have hine : iPart ≠ [] := by
        rintro rfl
        rw [identifierFSM_nil] at hri
        cases hri
      exact emits_accept fuel .Identifier iPart iLast token lineNum st (Or.inl hiapp)
        ⟨3, hri, by decide⟩
        (fun hl => ih iLast lineNum _ hl
          (tail_length_le (hiapp ▸ List.Perm.refl _) hine hlen))
    simp only [hid, if_false]
    -- Number
    have hnapp := seperateNumToken_append token
    rcases hn : seperateNumToken token with ⟨nPart, nLast⟩
    rw [hn] at hnapp
    dsimp only at hnapp ⊢
    obtain ⟨rn, hrn⟩ := numberFSM_total nPart
    simp only [hrn]
    by_cases hnum : rn ≠ -1
    · simp only [hnum, if_true, ne_eq, not_false_eq_true]
      have hnne : nPart ≠ [] := by
        rintro rfl
        rw [numberFSM_nil] at hrn
        exact hnum (Option.some.inj hrn).symm
      exact emits_accept fuel .Number nPart nLast token lineNum st (Or.inl hnapp)
        ⟨rn, hrn, hnum⟩
        (fun hl => ih nLast lineNum _ hl
          (tail_length_le (hnapp ▸ List.Perm.refl _) hnne hlen))
    simp only [hnum, if_false]
    -- Punctuation
    have hpapp := seperatePunctuationToken_append token
    rcases hp : seperatePunctuationToken token with ⟨pPart, pLast⟩
    rw [hp] at hpapp
    dsimp only at hpapp ⊢
    obtain ⟨rp, hrp⟩ : ∃ rp,
        (if pPart.length = 1 then punctuationFSM pPart else some (-1)) = some rp := by
      by_cases h1 : pPart.length = 1
      · obtain ⟨c, rfl⟩ := List.length_eq_one.mp h1
        exact ⟨if getPunctuationCol c ≤ 5 then 1 else -1, by simp [punctuationFSM_single]⟩
      · exact ⟨-1, by simp [h1]⟩
    simp only [hrp]
    by_cases hpun : pPart.length = 1 ∧ rp ≠ -1
    · simp only [hpun, if_true, ne_eq, not_false_eq_true, and_self]
      have hrp1 : punctuationFSM pPart = some rp := by simpa [hpun.1] using hrp
      have hpne : pPart ≠ [] := by
        rintro rfl
        simp at hpun
      exact emits_accept fuel .Punctuation pPart pLast token lineNum st (Or.inl hpapp)
        ⟨rp, hrp1, hpun.2⟩
        (fun hl => ih pLast lineNum _ hl
          (tail_length_le (hpapp ▸ List.Perm.refl _) hpne hlen))
    simp only [hpun, if_false]
    -- Operator
    have hoperm := separateOperatorToken_perm token
    rcases ho : separateOperatorToken token with ⟨oPart, oLast⟩
    rw [ho] at hoperm
    dsimp only at hoperm ⊢
    obtain ⟨ro, hro⟩ := operatorFSM_total oPart
    simp only [hro]
    by_cases hop : ro ≠ -1
    · simp only [hop, if_true, ne_eq, not_false_eq_true]
      have hone : oPart ≠ [] := by
        rintro rfl
        rw [operatorFSM_nil] at hro
        exact hop (Option.some.inj hro).symm
      exact emits_accept fuel .Operator oPart oLast token lineNum st
        (Or.inr ⟨rfl, hoperm⟩) ⟨ro, hro, hop⟩
        (fun hl => ih oLast lineNum _ hl (tail_length_le hoperm hone hlen))
    simp only [hop, if_false]
    -- Invalid token
    refine ⟨[.invalid token lineNum], by simp [applyRow], ?_, ?_, ?_⟩
    · intro t l n hmem
      simp at hmem
    · simp [ConsoleRow.lexeme]
    · intro _
      simp [ConsoleRow.lexeme]

/-! ## Invalid lexemes -/

/-- C4: for every candidate (a non-empty string) that no classifier accepts, `processToken`
increases `nInvalid` by exactly 1, records one error entry carrying the full candidate and
its line number, emits no valid token (the token file and the symbol table are unchanged),
and leaves `tokenNo` and the five valid-class counters unchanged. -/
theorem processToken_invalid (token : List Char) (lineNum : Nat) (st : Lexical)
    (hne : token ≠ []) (hrej : noClassifierAccepts token) :
    ∃ st', processToken token lineNum st = some st'
      ∧ st'.nInvalid = st.nInvalid + 1
      ∧ st'.errorFile = st.errorFile ++ [⟨token, lineNum⟩]
      ∧ st'.console = st.console ++ [.invalid token lineNum]
      ∧ st'.tokenFile = st.tokenFile
      ∧ st'.symbolTableFile = st.symbolTableFile
      ∧ st'.tokenNo = st.tokenNo
      ∧ st'.nKeywords = st.nKeywords
      ∧ st'.nIdentifiers = st.nIdentifiers
      ∧ st'.nNumbers = st.nNumbers
      ∧ st'.nPunctuations = st.nPunctuations
      ∧ st'.nOperators = st.nOperators := by
  refine ⟨emitInvalid token lineNum st, ?_, rfl, rfl, rfl, rfl, rfl, rfl, rfl, rfl, rfl, rfl,
    rfl⟩
  obtain ⟨hk, hi, hn, hp, ho⟩ := hrej
  obtain ⟨n, hlen⟩ : ∃ n, token.length = n + 1 :=
    ⟨token.length - 1, by have := List.length_pos.mpr hne; omega⟩
  rw [processToken, hlen, processTokenFuel]
  simp only [hne, if_false]
  -- Keywords
  obtain ⟨kPart, kLast, hks, -⟩ := seperateKeywordToken_some token hne
  have hkw : isKeyword kPart = false := hk (kPart, kLast) hks
  simp only [hks, hkw, if_false, Bool.false_eq_true]
  -- Identifier
  rcases hsi : seperateIdentifierToken token with ⟨iPart, iLast⟩
  rw [hsi] at hi
  dsimp only at hi ⊢
  obtain ⟨ri, hri, -⟩ := identifierFSM_total iPart
  have hid : ¬ ri = 3 := fun h => hi ⟨ri, hri, by rw [h]; decide⟩
  simp only [hri, hid, if_false]
  -- Number
  rcases hsn : seperateNumToken token with ⟨nPart, nLast⟩
  rw [hsn] at hn
  dsimp only at hn ⊢
  obtain ⟨rn, hrn⟩ := numberFSM_total nPart
  have hnum : ¬ rn ≠ -1 := fun h => hn ⟨rn, hrn, h⟩
  simp only [hrn, hnum, if_false]
  -- Punctuation
  rcases hsp : seperatePunctuationToken token with ⟨pPart, pLast⟩
  rw [hsp] at hp
  dsimp only at hp ⊢
  obtain ⟨rp, hrp⟩ : ∃ rp,
      (if pPart.length = 1 then punctuationFSM pPart else some (-1)) = some rp := by
    by_cases h1 : pPart.length = 1
    · obtain ⟨c, rfl⟩ := List.length_eq_one.mp h1
      exact ⟨if getPunctuationCol c ≤ 5 then 1 else -1, by simp [punctuationFSM_single]⟩
    · exact ⟨-1, by simp [h1]⟩
  have hpun : ¬ (pPart.length = 1 ∧ rp ≠ -1) := by
    rintro ⟨h1, h2⟩
    exact hp ⟨h1, rp, by simpa [h1] using hrp, h2⟩
  simp only [hrp, hpun, if_false]
  -- Operator
  rcases hso : separateOperatorToken token with ⟨oPart, oLast⟩
  rw [hso] at ho
  dsimp only at ho ⊢
  obtain ⟨ro, hro⟩ := operatorFSM_total oPart
  have hop : ¬ ro ≠ -1 := fun h => ho ⟨ro, hro, h⟩
  simp only [hro, hop, if_false]

/-- C4 (witness): the candidate `@@` is accepted by no classifier. -/
theorem processToken_invalid_witness :
    "@@".toList ≠ [] ∧ noClassifierAccepts "@@".toList
    ∧ ∃ st', processToken "@@".toList 7 {} = some st'
      ∧ st'.nInvalid = (0 : Nat) + 1
      ∧ st'.errorFile = [] ++ [⟨"@@".toList, 7⟩]
      ∧ st'.console = [] ++ [.invalid "@@".toList 7]
      ∧ st'.tokenFile = []
      ∧ st'.symbolTableFile = []
      ∧ st'.tokenNo = 0
      ∧ st'.nKeywords = 0
      ∧ st'.nIdentifiers = 0
      ∧ st'.nNumbers = 0
      ∧ st'.nPunctuations = 0
      ∧ st'.nOperators = 0 :=
  ⟨by decide, by decide, processToken_invalid "@@".toList 7 {} (by decide) (by decide)⟩

/-! ## Source order, class rules and token numbers -/

theorem console_foldl_applyRow (rows : List ConsoleRow) :
    ∀ st : Lexical, (rows.foldl applyRow st).console = st.console ++ rows := by
  induction rows with
  | nil => intro st; simp
  | cons row rows ih =>
    intro st
    rw [List.foldl_cons, ih]
    cases row <;> simp [applyRow, emitValid, emitInvalid]

theorem tokenFile_foldl_applyRow (rows : List ConsoleRow) :
    ∀ st : Lexical, ∃ added : List TokenRow,
      (rows.foldl applyRow st).tokenFile = st.tokenFile ++ added
      ∧ ∀ lexeme type, TokenRow.tok lexeme type ∈ added →
          ∃ n, ConsoleRow.valid type lexeme n ∈ rows := by
  induction rows with
  | nil => intro st; exact ⟨[], by simp, by simp⟩
  | cons row rows ih =>
    intro st
    obtain ⟨added, hfile, hadded⟩ := ih (applyRow st row)
    cases row with
    | valid type lexeme lineNum =>
      refine ⟨.tok lexeme type :: added,
        by rw [List.foldl_cons, hfile]; simp [applyRow, emitValid], ?_⟩
      intro l t hmem
      rcases List.mem_cons.mp hmem with h | h
      · simp only [TokenRow.tok.injEq] at h
        obtain ⟨rfl, rfl⟩ := h
        exact ⟨lineNum, List.mem_cons_self _ _⟩
      · obtain ⟨n, hn⟩ := hadded l t h
        exact ⟨n, List.mem_cons_of_mem _ hn⟩
    | invalid token lineNum =>
      refine ⟨added, by rw [List.foldl_cons, hfile]; simp [applyRow, emitInvalid], ?_⟩
      intro l t hmem
      obtain ⟨n, hn⟩ := hadded l t hmem
      exact ⟨n, List.mem_cons_of_mem _ hn⟩

/-- The call `processToken(token, lineNum)` on a non-empty string returns, and `Emits`
describes it. -/
theorem processToken_emits (token : List Char) (lineNum : Nat) (st : Lexical)
    (hne : token ≠ []) : Emits token st (processToken token lineNum st) :=
  processTokenFuel_emits token.length token lineNum st hne (Nat.le_refl _)

theorem processToken_nil (lineNum : Nat) (st : Lexical) :
    processToken [] lineNum st = some (emitNoTokens st) := by
  simp [processToken, processTokenFuel]

theorem consistent_emitValid (type : TokenClass) (lexeme : List Char) (lineNum : Nat)
    (st : Lexical) (h : Consistent st) : Consistent (emitValid type lexeme lineNum st) := by
  obtain ⟨h1, h2, h3, h4⟩ := h
  refine ⟨?_, ?_, ?_, ?_⟩
  · simp [emitValid, List.filterMap_append, h1, SymbolRow.index, List.range_succ]
  · simp [emitValid, List.filterMap_append, h2, SymbolRow.entry, ConsoleRow.entry]
  · simp [emitValid, List.filterMap_append, h3, ConsoleRow.error]
  · cases type <;> simp [emitValid, h4] <;> omega

theorem consistent_emitInvalid (token : List Char) (lineNum : Nat) (st : Lexical)
    (h : Consistent st) : Consistent (emitInvalid token lineNum st) := by
  obtain ⟨h1, h2, h3, h4⟩ := h
  refine ⟨?_, ?_, ?_, ?_⟩
  · simpa [emitInvalid] using h1
  · simp [emitInvalid, List.filterMap_append, h2, ConsoleRow.entry]
  · simp [emitInvalid, List.filterMap_append, h3, ConsoleRow.error]
  · simpa [emitInvalid] using h4

theorem consistent_emitNoTokens (st : Lexical) (h : Consistent st) :
    Consistent (emitNoTokens st) := by
  obtain ⟨h1, h2, h3, h4⟩ := h
  refine ⟨?_, ?_, ?_, ?_⟩
  · simp [emitNoTokens, List.filterMap_append, h1, SymbolRow.index]
  · simp [emitNoTokens, List.filterMap_append, h2, SymbolRow.entry]
  · simpa [emitNoTokens] using h3
  · simpa [emitNoTokens] using h4

theorem consistent_foldl_applyRow (rows : List ConsoleRow) :
    ∀ st : Lexical, Consistent st → Consistent (rows.foldl applyRow st) := by
  induction rows with
  | nil => intro st h; simpa using h
  | cons row rows ih =>
    intro st h
    rw [List.foldl_cons]
    apply ih
    cases row with
    | valid type lexeme lineNum => exact consistent_emitValid type lexeme lineNum st h
    | invalid token lineNum => exact consistent_emitInvalid token lineNum st h

theorem consistent_processToken (token : List Char) (lineNum : Nat) (st : Lexical)
    (h : Consistent st) :
    ∃ st', processToken token lineNum st = some st' ∧ Consistent st' := by
  by_cases hne : token = []
  · subst hne
    exact ⟨_, processToken_nil lineNum st, consistent_emitNoTokens st h⟩
  · obtain ⟨rows, hres, -⟩ := processToken_emits token lineNum st hne
    exact ⟨_, hres, consistent_foldl_applyRow rows st h⟩

theorem consistent_processCalls (calls : List (List Char × Nat)) :
    ∀ st : Lexical, Consistent st →
      ∃ st', processCalls calls st = some st' ∧ Consistent st' := by
  induction calls with
  | nil => intro st h; exact ⟨st, rfl, h⟩
  | cons call calls ih =>
    intro st h
    obtain ⟨token, lineNum⟩ := call
    obtain ⟨st1, h1, hc1⟩ := consistent_processToken token lineNum st h
    obtain ⟨st2, h2, hc2⟩ := ih st1 hc1
    exact ⟨st2, by simp [processCalls, h1, h2], hc2⟩

/-- C5 (counterexample): on the candidate `_+` the operator splitter returns the head `+`
and puts the leading `_` into the tail, so `processToken` emits `+` (Operator) and then `_`
(invalid): the emitted lexemes concatenate to `+_`, not to the candidate. -/
theorem processToken_operator_before_leading_run :
    ∃ st', processToken "_+".toList 1 {} = some st'
      ∧ st'.console = [.valid .Operator "+".toList 1, .invalid "_".toList 1]
      ∧ (st'.console.map ConsoleRow.lexeme).flatten ≠ "_+".toList :=
  ⟨_, rfl, rfl, by decide⟩

/-- C5 (amended): for every non-empty candidate, `processToken` returns, and the lexemes it
emits for the candidate (valid tokens and invalid entries, in emission order) concatenate to
a rearrangement of the characters of the candidate; they concatenate to exactly the
candidate whenever none of the emitted tokens has class Operator. -/
theorem processToken_lexemes_perm (token : List Char) (lineNum : Nat) (st : Lexical)
    (hne : token ≠ []) :
    ∃ st' rows, processToken token lineNum st = some st'
      ∧ st'.console = st.console ++ rows
      ∧ ((rows.map ConsoleRow.lexeme).flatten).Perm token
      ∧ ((∀ lexeme n, ConsoleRow.valid .Operator lexeme n ∉ rows) →
          (rows.map ConsoleRow.lexeme).flatten = token) := by
  obtain ⟨rows, hres, -, hperm, heq⟩ := processToken_emits token lineNum st hne
  exact ⟨_, rows, hres, console_foldl_applyRow rows st, hperm, heq⟩

/-- C5 (witness): the amended statement at the candidate `3.14e-2x`. -/
theorem processToken_lexemes_perm_witness :
    "3.14e-2x".toList ≠ []
    ∧ ∃ st' rows, processToken "3.14e-2x".toList 1 {} = some st'
      ∧ st'.console = [] ++ rows
      ∧ ((rows.map ConsoleRow.lexeme).flatten).Perm "3.14e-2x".toList
      ∧ ((∀ lexeme n, ConsoleRow.valid .Operator lexeme n ∉ rows) →
          (rows.map ConsoleRow.lexeme).flatten = "3.14e-2x".toList) :=
  ⟨by decide, processToken_lexemes_perm "3.14e-2x".toList 1 {} (by decide)⟩

/-- C6: for every candidate, `processToken` returns, and every token it adds to the token
file with class Identifier, Number, Punctuation or Operator has a lexeme accepted by
`identifierFSM`, `numberFSM`, `punctuationFSM` or `operatorFSM` respectively, and every
token it adds with class Keyword has a lexeme that is a member of the keyword set and is
rejected by `identifierFSM`. -/
theorem processToken_class_rules (token : List Char) (lineNum : Nat) (st : Lexical) :
    ∃ st' added, processToken token lineNum st = some st'
      ∧ st'.tokenFile = st.tokenFile ++ added
      ∧ ∀ lexeme type, TokenRow.tok lexeme type ∈ added →
          (type = .Identifier → accepts (identifierFSM lexeme))
          ∧ (type = .Number → accepts (numberFSM lexeme))
          ∧ (type = .Punctuation → accepts (punctuationFSM lexeme))
          ∧ (type = .Operator → accepts (operatorFSM lexeme))
          ∧ (type = .Keyword → lexeme ∈ keywords ∧ identifierFSM lexeme = some (-1)) := by
  by_cases hne : token = []
  · subst hne
    refine ⟨_, [.noTokens], processToken_nil lineNum st, rfl, ?_⟩
    intro lexeme type hmem
    simp at hmem
  · obtain ⟨rows, hres, hrules, -⟩ := processToken_emits token lineNum st hne
    obtain ⟨added, hfile, hadded⟩ := tokenFile_foldl_applyRow rows st
    refine ⟨_, added, hres, hfile, ?_⟩
    intro lexeme type hmem
    obtain ⟨n, hn⟩ := hadded lexeme type hmem
    have hrule := hrules type lexeme n hn
    refine ⟨?_, ?_, ?_, ?_, ?_⟩ <;> rintro rfl <;> exact hrule

/-- C7: over any sequence of `processToken` calls starting from a fresh scanner, the run
returns and, in the state it reaches, the token numbers written to the symbol table are
`0, 1, 2, ...` in emission order (one per valid token, up to `tokenNo - 1`), the rows that
carry a token number are exactly the valid tokens in emission order, the invalid lexemes are
exactly the entries of the error file (so none is assigned a number), and
`tokenNo = nKeywords + nIdentifiers + nNumbers + nPunctuations + nOperators`.  As the
sequence is arbitrary, this holds after every call of a run. -/
theorem processCalls_token_numbers (calls : List (List Char × Nat)) :
    ∃ st, processCalls calls {} = some st
      ∧ st.symbolTableFile.filterMap SymbolRow.index = List.range st.tokenNo
      ∧ st.symbolTableFile.filterMap SymbolRow.entry = st.console.filterMap ConsoleRow.entry
      ∧ st.errorFile = st.console.filterMap ConsoleRow.error
      ∧ st.tokenNo
          = st.nKeywords + st.nIdentifiers + st.nNumbers + st.nPunctuations + st.nOperators := by
  obtain ⟨st, hres, hcons⟩ :=
    consistent_processCalls calls {} ⟨rfl, rfl, rfl, rfl⟩
  exact ⟨st, hres, hcons⟩

/-! ## C34: the language of the identifier automaton -/

/-- One iteration of the loop of `runFSM` that moves to a state other than `-1`. -/
theorem runFSM_step (table : List (List Int)) (numColumns : Int) (getCol : Char → Int)
    (validStates : List Int) (c : Char) (rest : List Char) (state col next : Int)
    (hcol : getCol c = col) (hrange : ¬ (col ≥ numColumns ∨ col < 0))
    (hread : tableAt table state col = some next) (hnext : next ≠ -1) :
    runFSM (c :: rest) state table numColumns getCol validStates
      = runFSM rest next table numColumns getCol validStates := by
  rw [runFSM]
  simp only [hcol, hrange, if_false, hread, hnext]

/-- One iteration of the loop of `runFSM` that reads `-1`. -/
theorem runFSM_dead (table : List (List Int)) (numColumns : Int) (getCol : Char → Int)
    (validStates : List Int) (c : Char) (rest : List Char) (state col : Int)
    (hcol : getCol c = col) (hread : tableAt table state col = some (-1)) :
    runFSM (c :: rest) state table numColumns getCol validStates = some (-1) := by
  rw [runFSM]
  by_cases hrange : col ≥ numColumns ∨ col < 0
  · simp only [hcol, hrange, if_true]
  · simp only [hcol, hrange, if_false, hread, if_true]

theorem isalpha_underscore : isalpha '_' = false := by decide

theorem isdigit_underscore : isdigit '_' = false := by decide

/-- From S3 the identifier automaton accepts the strings of letters, digits and `_`. -/
theorem identifierRun_three (s : List Char) :
    runFSM s 3 identifierTable 4 getIdentifierCol [3]
      = some (if ∀ c ∈ s, isalpha c = true ∨ isdigit c = true ∨ c = '_' then 3 else -1) := by
  induction s with
  | nil => rfl
  | cons c rest ih =>
    by_cases ha : isalpha c = true
    · rw [runFSM_step _ _ _ _ c rest 3 0 3 (by simp [getIdentifierCol, ha]) (by decide)
        (by decide) (by decide), ih]
      simp [ha]
    by_cases hd : isdigit c = true
    · rw [runFSM_step _ _ _ _ c rest 3 1 3 (by simp [getIdentifierCol, ha, hd]) (by decide)
        (by decide) (by decide), ih]
      simp [hd]
    by_cases hu : c = '_'
    · rw [runFSM_step _ _ _ _ c rest 3 2 3 (by rw [hu]; decide)
        (by decide) (by decide) (by decide), ih]
      simp [hu]
    · rw [runFSM_dead _ _ _ _ c rest 3 3 (by simp [getIdentifierCol, ha, hd, hu])
        (by decide)]
      simp [ha, hd, hu]

/-- From S2 the identifier automaton accepts the strings of letters, digits and `_` that
contain a `_`. -/
theorem identifierRun_two (s : List Char) :
    runFSM s 2 identifierTable 4 getIdentifierCol [3]
      = some (if (∀ c ∈ s, isalpha c = true ∨ isdigit c = true ∨ c = '_') ∧ '_' ∈ s
          then 3 else -1) := by
  induction s with
  | nil => rfl
  | cons c rest ih =>
    by_cases ha : isalpha c = true
    · have hne : c ≠ '_' := by
        rintro rfl
        simp [isalpha_underscore] at ha
      rw [runFSM_step _ _ _ _ c rest 2 0 2 (by simp [getIdentifierCol, ha]) (by decide)
        (by decide) (by decide), ih]
      simp [ha, hne.symm]
    by_cases hd : isdigit c = true
    · have hne : c ≠ '_' := by
        rintro rfl
        simp [isdigit_underscore] at hd
      rw [runFSM_step _ _ _ _ c rest 2 1 2 (by simp [getIdentifierCol, ha, hd]) (by decide)
        (by decide) (by decide), ih]
      simp [hd, hne.symm]
    by_cases hu : c = '_'
    · rw [runFSM_step _ _ _ _ c rest 2 2 3 (by rw [hu]; decide)
        (by decide) (by decide) (by decide), identifierRun_three]
      simp [hu]
    · rw [runFSM_dead _ _ _ _ c rest 2 3 (by simp [getIdentifierCol, ha, hd, hu])
        (by decide)]
      simp [ha, hd, hu]

/-- From S1 the identifier automaton accepts the non-empty strings of letters, digits and
`_`. -/
theorem identifierRun_one (s : List Char) :
    runFSM s 1 identifierTable 4 getIdentifierCol [3]
      = some (if (∀ c ∈ s, isalpha c = true ∨ isdigit c = true ∨ c = '_') ∧ s ≠ []
          then 3 else -1) := by
  cases s with
  | nil => rfl
  | cons c rest =>
    by_cases ha : isalpha c = true
    · rw [runFSM_step _ _ _ _ c rest 1 0 3 (by simp [getIdentifierCol, ha]) (by decide)
        (by decide) (by decide), identifierRun_three]
      simp [ha]
    by_cases hd : isdigit c = true
    · rw [runFSM_step _ _ _ _ c rest 1 1 3 (by simp [getIdentifierCol, ha, hd]) (by decide)
        (by decide) (by decide), identifierRun_three]
      simp [hd]
    by_cases hu : c = '_'
    · rw [runFSM_step _ _ _ _ c rest 1 2 3 (by rw [hu]; decide)
        (by decide) (by decide) (by decide), identifierRun_three]
      simp [hu]
    · rw [runFSM_dead _ _ _ _ c rest 1 3 (by simp [getIdentifierCol, ha, hd, hu])
        (by decide)]
      simp [ha, hd, hu]

/-- The value of `identifierFSM` on every string. -/
theorem identifierFSM_eq (s : List Char) :
    identifierFSM s = some (if identifierShape s then 3 else -1) := by
  unfold identifierFSM
  cases s with
  | nil => rfl
  | cons c rest =>
    by_cases ha : isalpha c = true
    · have hne : c ≠ '_' := by
        rintro rfl
        simp [isalpha_underscore] at ha
      rw [runFSM_step _ _ _ _ c rest 0 0 2 (by simp [getIdentifierCol, ha]) (by decide)
        (by decide) (by decide), identifierRun_two]
      congr 1
      apply if_congr _ rfl rfl
      simp only [identifierShape, List.length_cons, List.forall_mem_cons, List.head?_cons,
        Option.mem_def, Option.some.injEq, forall_eq', ha, true_or, true_and]
      simp only [List.mem_cons, hne.symm, false_or]
      constructor
      · rintro ⟨hall, hmem⟩
        exact ⟨by have := List.length_pos_of_mem hmem; omega, hall, hmem⟩
      · rintro ⟨-, hall, hmem⟩
        exact ⟨hall, hmem⟩
    by_cases hd : isdigit c = true
    · have hne : c ≠ '_' := by
        rintro rfl
        simp [isdigit_underscore] at hd
      rw [runFSM_dead _ _ _ _ c rest 0 1 (by simp [getIdentifierCol, ha, hd]) (by decide)]
      simp [identifierShape, ha, hne]
    by_cases hu : c = '_'
    · rw [runFSM_step _ _ _ _ c rest 0 2 1 (by rw [hu]; decide)
        (by decide) (by decide) (by decide), identifierRun_one]
      congr 1
      apply if_congr _ rfl rfl
      simp only [identifierShape, List.length_cons, List.forall_mem_cons, List.head?_cons,
        Option.mem_def, Option.some.injEq, forall_eq', hu, or_true, true_and]
      simp only [List.mem_cons, true_or, and_true]
      constructor
      · rintro ⟨hall, hne⟩
        exact ⟨by have := List.length_pos.mpr hne; omega, hall⟩
      · rintro ⟨hlen, hall⟩
        refine ⟨hall, ?_⟩
        rintro rfl
        simp at hlen
    · rw [runFSM_dead _ _ _ _ c rest 0 3 (by simp [getIdentifierCol, ha, hd, hu])
        (by decide)]
      simp [identifierShape, ha, hd, hu]

/-- C34: `identifierFSM` accepts a string `s` (it returns 3) if and only if `s` has length
at least 2, consists only of ASCII letters, digits and `_`, starts with a letter or `_`, and
contains at least one `_`; on every other string it returns `-1`.  In particular every
string made of letters and digits only, such as `x` or `foo1`, is rejected. -/
theorem identifierFSM_accepts_iff (s : List Char) :
    (identifierFSM s = some 3 ↔ identifierShape s)
    ∧ (accepts (identifierFSM s) ↔ identifierShape s)
    ∧ (¬ identifierShape s ↔ identifierFSM s = some (-1))
    ∧ ((∀ c ∈ s, isalpha c = true ∨ isdigit c = true) → identifierFSM s = some (-1))
    ∧ identifierFSM "x".toList = some (-1)
    ∧ identifierFSM "foo1".toList = some (-1) := by
  have h := identifierFSM_eq s
  refine ⟨?_, ?_, ?_, ?_, by decide, by decide⟩
  · by_cases hs : identifierShape s <;> simp [h, hs]
  · by_cases hs : identifierShape s
    · simp only [hs, iff_true]
      exact ⟨3, by simp [h, hs], by decide⟩
    · simp only [hs, iff_false]
      rintro ⟨r, hr, hne⟩
      rw [h] at hr
      simp only [hs, if_false, Option.some.injEq] at hr
      exact hne hr.symm
  · by_cases hs : identifierShape s <;> simp [h, hs]
  · intro hall
    rw [h]
    have hs : ¬ identifierShape s := by
      rintro ⟨-, -, -, hmem⟩
      rcases hall _ hmem with h1 | h1
      · simp [isalpha_underscore] at h1
      · simp [isdigit_underscore] at h1
    simp [hs]

/-! ## C36: the language of the operator automaton -/

theorem accepts_some_iff (r : Int) : accepts (some r) ↔ r ≠ -1 := by
  constructor
  · rintro ⟨s, hs, hne⟩
    rw [Option.some.inj hs]
    exact hne
  · intro h
    exact ⟨r, rfl, h⟩

theorem not_accepts_dead : ¬ accepts (some (-1)) := by
  simp [accepts_some_iff]

/-- A character is one of the twelve operator characters, or `getOperatorCol` maps it to
the column `Other`. -/
theorem getOperatorCol_class (c : Char) :
    c ∈ ['!', '<', '>', '=', ':', '*', '+', '/', '-', '&', '|', '%']
      ∨ getOperatorCol c = 12 := by
  by_cases h : c ∈ ['!', '<', '>', '=', ':', '*', '+', '/', '-', '&', '|', '%']
  · exact Or.inl h
  · right
    simp only [List.mem_cons, List.mem_singleton, List.not_mem_nil, or_false, not_or] at h
    obtain ⟨h0, h1, h2, h3, h4, h5, h6, h7, h8, h9, h10, h11⟩ := h
    simp [getOperatorCol, h0, h1, h2, h3, h4, h5, h6, h7, h8, h9, h10, h11]

/-- A run of the operator automaton over a string with a character of the column `Other`
returns `-1`. -/
theorem operatorRun_other (ch : Char) (hch : getOperatorCol ch = 12) :
    ∀ (s : List Char) (q : Int), ch ∈ s →
      q ∈ [(0 : Int), 1, 2, 3, 4, 5, 6, 7, 8, 9, 10, 11, 12, 13] →
      runFSM s q operatorTable 13 getOperatorCol [13, 6, 7, 8, 9, 12, 5] = some (-1) := by
  intro s
  induction s with
  | nil => intro q hmem; simp at hmem
  | cons c rest ih =>
    intro q hmem hq
    by_cases hc : getOperatorCol c = 12
    · exact runFSM_dead _ _ _ _ c rest q 12 hc
        ((by decide : ∀ q ∈ [(0 : Int), 1, 2, 3, 4, 5, 6, 7, 8, 9, 10, 11, 12, 13],
          tableAt operatorTable q 12 = some (-1)) q hq)
    · have hrest : ch ∈ rest := by
        rcases List.mem_cons.mp hmem with h | h
        · exact absurd (h ▸ hch) hc
        · exact h
      have hstep := (by decide : ∀ q ∈ [(0 : Int), 1, 2, 3, 4, 5, 6, 7, 8, 9, 10, 11, 12, 13],
        ∀ col ∈ [(0 : Int), 1, 2, 3, 4, 5, 6, 7, 8, 9, 10, 11, 12],
          ¬ (col ≥ 13 ∨ col < 0)
          ∧ ∃ next, tableAt operatorTable q col = some next
            ∧ (next = -1
              ∨ next ∈ [(0 : Int), 1, 2, 3, 4, 5, 6, 7, 8, 9, 10, 11, 12, 13]))
        q hq (getOperatorCol c) (getOperatorCol_mem c)
      obtain ⟨hrange, next, hread, hnext⟩ := hstep
      by_cases hdead : next = -1
      · subst hdead
        exact runFSM_dead _ _ _ _ c rest q _ rfl hread
      · rw [runFSM_step _ _ _ _ c rest q _ next rfl hrange hread hdead]
        exact ih next hrest (hnext.resolve_left hdead)

/-- From S13 the operator automaton accepts the empty string only. -/
theorem operatorRun_thirteen (s : List Char) :
    runFSM s 13 operatorTable 13 getOperatorCol [13, 6, 7, 8, 9, 12, 5]
      = some (if s = [] then 13 else -1) := by
  cases s with
  | nil => rfl
  | cons c rest =>
    rw [runFSM_dead _ _ _ _ c rest 13 _ rfl
      ((by decide : ∀ col ∈ [(0 : Int), 1, 2, 3, 4, 5, 6, 7, 8, 9, 10, 11, 12],
        tableAt operatorTable 13 col = some (-1)) _ (getOperatorCol_mem c))]
    simp

/-- The strings `:`* `x` with `x` one of `<`, `>`, `=`, `+`, read from their first
character. -/
theorem colons_then_closer_cons (c : Char) (rest : List Char) :
    (∃ n x, x ∈ ['<', '>', '=', '+'] ∧ c :: rest = List.replicate n ':' ++ [x])
      ↔ (c ∈ ['<', '>', '=', '+'] ∧ rest = [])
        ∨ (c = ':' ∧ ∃ n x, x ∈ ['<', '>', '=', '+'] ∧ rest = List.replicate n ':' ++ [x]) := by
  constructor
  · rintro ⟨n, x, hx, heq⟩
    cases n with
    | zero =>
      simp only [List.replicate_zero, List.nil_append, List.cons.injEq] at heq
      exact Or.inl ⟨heq.1 ▸ hx, heq.2⟩
    | succ n =>
      simp only [List.replicate_succ, List.cons_append, List.cons.injEq] at heq
      exact Or.inr ⟨heq.1, n, x, hx, heq.2⟩
  · rintro (⟨hc, rfl⟩ | ⟨rfl, n, x, hx, rfl⟩)
    · exact ⟨0, c, hc, rfl⟩
    · exact ⟨n + 1, x, hx, rfl⟩

/-- From S4 (after `=`) the operator automaton accepts the strings `:`* `x` with `x` one of
`<`, `>`, `=`, `+`. -/
theorem operatorRun_four (s : List Char) :
    accepts (runFSM s 4 operatorTable 13 getOperatorCol [13, 6, 7, 8, 9, 12, 5])
      ↔ ∃ n x, x ∈ ['<', '>', '=', '+'] ∧ s = List.replicate n ':' ++ [x] := by
  induction s with
  | nil =>
    constructor
    · intro h
      exact absurd h (by decide)
    · rintro ⟨n, x, -, heq⟩
      simp at heq
  | cons c rest ih =>
    rw [colons_then_closer_cons]
    rcases getOperatorCol_class c with hc | hc
    · simp only [List.mem_cons, List.mem_singleton, List.not_mem_nil, or_false] at hc
      rcases hc with rfl | rfl | rfl | rfl | rfl | rfl | rfl | rfl | rfl | rfl | rfl | rfl
      · rw [runFSM_dead _ _ _ _ _ rest 4 0 (by decide) (by decide)]
        simp [not_accepts_dead]
      · rw [runFSM_step _ _ _ _ _ rest 4 1 13 (by decide) (by decide) (by decide)
          (by decide), operatorRun_thirteen]
        by_cases hr : rest = [] <;> simp [hr, accepts_some_iff]
      · rw [runFSM_step _ _ _ _ _ rest 4 2 13 (by decide) (by decide) (by decide)
          (by decide), operatorRun_thirteen]
        by_cases hr : rest = [] <;> simp [hr, accepts_some_iff]
      · rw [runFSM_step _ _ _ _ _ rest 4 3 13 (by decide) (by decide) (by decide)
          (by decide), operatorRun_thirteen]
        by_cases hr : rest = [] <;> simp [hr, accepts_some_iff]
      · rw [runFSM_step _ _ _ _ _ rest 4 4 4 (by decide) (by decide) (by decide)
          (by decide), ih]
        simp
      · rw [runFSM_dead _ _ _ _ _ rest 4 5 (by decide) (by decide)]
        simp [not_accepts_dead]
      · rw [runFSM_step _ _ _ _ _ rest 4 6 13 (by decide) (by decide) (by decide)
          (by decide), operatorRun_thirteen]
        by_cases hr : rest = [] <;> simp [hr, accepts_some_iff]
      · rw [runFSM_dead _ _ _ _ _ rest 4 7 (by decide) (by decide)]
        simp [not_accepts_dead]
      · rw [runFSM_dead _ _ _ _ _ rest 4 8 (by decide) (by decide)]
        simp [not_accepts_dead]
      · rw [runFSM_dead _ _ _ _ _ rest 4 9 (by decide) (by decide)]
        simp [not_accepts_dead]
      · rw [runFSM_dead _ _ _ _ _ rest 4 10 (by decide) (by decide)]
        simp [not_accepts_dead]
      · rw [runFSM_dead _ _ _ _ _ rest 4 11 (by decide) (by decide)]
        simp [not_accepts_dead]
    · rw [runFSM_dead _ _ _ _ c rest 4 12 hc (by decide)]
      have h1 : c ∉ ['<', '>', '=', '+'] := by
        intro h
        have := (by decide : ∀ x ∈ ['<', '>', '=', '+'], getOperatorCol x ≠ 12) c h
        exact this hc
      have h2 : c ≠ ':' := by
        rintro rfl
        exact absurd hc (by decide)
      simp only [h1, h2, false_and, or_self, iff_false]
      exact not_accepts_dead

/-- The strings of `operatorShape` are made of the twelve operator characters. -/
theorem operatorShape_chars (s : List Char) (h : operatorShape s) :
    ∀ ch ∈ s, getOperatorCol ch ≠ 12 := by
  rcases h with h | ⟨n, x, hx, rfl⟩
  · exact (by decide : ∀ w ∈ [":".toList, "*".toList, "+".toList, "/".toList, "-".toList,
      "%".toList, "!=".toList, "<<".toList, "<>".toList, ">>".toList, ":=".toList,
      "::".toList, "++".toList, "--".toList, "&&".toList, "||".toList, "%%".toList],
      ∀ ch ∈ w, getOperatorCol ch ≠ 12) s h
  · intro ch hch
    simp only [List.mem_cons, List.mem_append, List.mem_replicate, List.mem_singleton,
      List.not_mem_nil, or_false] at hch
    rcases hch with rfl | ⟨-, rfl⟩ | rfl
    · decide
    · decide
    · exact (by decide : ∀ x ∈ ['<', '>', '=', '+'], getOperatorCol x ≠ 12) ch hx

/-- A string that starts with another character than `=` has the shape of an operator
exactly when it is in the list. -/
theorem operatorShape_of_ne (c : Char) (rest : List Char) (hc : c ≠ '=') :
    operatorShape (c :: rest)
      ↔ c :: rest ∈ [":".toList, "*".toList, "+".toList, "/".toList, "-".toList,
        "%".toList, "!=".toList, "<<".toList, "<>".toList, ">>".toList, ":=".toList,
        "::".toList, "++".toList, "--".toList, "&&".toList, "||".toList, "%%".toList] := by
  constructor
  · rintro (h | ⟨n, x, -, heq⟩)
    · exact h
    · exact absurd (List.cons.inj heq).1 hc
  · exact Or.inl

/-- C36: `operatorFSM` accepts a string `s` if and only if `s` is one of `:`, `*`, `+`,
`/`, `-`, `%`, `!=`, `<<`, `<>`, `>>`, `:=`, `::`, `++`, `--`, `&&`, `||`, `%%`, or `s` is
`=` followed by zero or more `:` followed by exactly one of `<`, `>`, `=`, `+`; on every
other string it returns `-1`. -/
theorem operatorFSM_accepts_iff (s : List Char) :
    (accepts (operatorFSM s) ↔ operatorShape s)
    ∧ (¬ operatorShape s ↔ operatorFSM s = some (-1)) := by
  have hmain : accepts (operatorFSM s) ↔ operatorShape s := by
    by_cases hother : ∃ ch ∈ s, getOperatorCol ch = 12
    · obtain ⟨ch, hmem, hch⟩ := hother
      have hrun : operatorFSM s = some (-1) :=
        operatorRun_other ch hch s 0 hmem (by decide)
      rw [hrun]
      constructor
      · intro h
        exact absurd h not_accepts_dead
      · intro h
        exact absurd hch (operatorShape_chars s h ch hmem)
    · have hchars : ∀ ch ∈ s,
          ch ∈ ['!', '<', '>', '=', ':', '*', '+', '/', '-', '&', '|', '%'] := by
        intro ch hmem
        rcases getOperatorCol_class ch with h | h
        · exact h
        · exact absurd ⟨ch, hmem, h⟩ hother
      cases s with
      | nil =>
        constructor
        · intro h
          exact absurd h (by decide)
        · rintro (h | ⟨n, x, -, heq⟩)
          · exact absurd h (by decide)
          · exact absurd heq (by simp)
      | cons c rest =>
        by_cases hc : c = '='
        · subst hc
          have hrun : operatorFSM ('=' :: rest)
              = runFSM rest 4 operatorTable 13 getOperatorCol [13, 6, 7, 8, 9, 12, 5] :=
            runFSM_step _ _ _ _ _ rest 0 3 4 (by decide) (by decide) (by decide) (by decide)
          rw [hrun, operatorRun_four]
          constructor
          · rintro ⟨n, x, hx, rfl⟩
            exact Or.inr ⟨n, x, hx, rfl⟩
          · rintro (h | ⟨n, x, hx, heq⟩)
            · exact absurd h (by simp)
            · exact ⟨n, x, hx, (List.cons.inj heq).2⟩
        · rw [operatorShape_of_ne c rest hc]
          have hcmem := hchars c (List.mem_cons_self _ _)
          rcases rest with _ | ⟨d, _ | ⟨e, rest⟩⟩
          · exact (by decide : ∀ c ∈ ['!', '<', '>', '=', ':', '*', '+', '/', '-', '&', '|',
              '%'], c ≠ '=' → (accepts (operatorFSM [c])
                ↔ [c] ∈ [":".toList, "*".toList, "+".toList, "/".toList, "-".toList,
                  "%".toList, "!=".toList, "<<".toList, "<>".toList, ">>".toList,
                  ":=".toList, "::".toList, "++".toList, "--".toList, "&&".toList,
                  "||".toList, "%%".toList])) c hcmem hc
          · have hdmem := hchars d (by simp)
            exact (by decide : ∀ c ∈ ['!', '<', '>', '=', ':', '*', '+', '/', '-', '&', '|',
              '%'], ∀ d ∈ ['!', '<', '>', '=', ':', '*', '+', '/', '-', '&', '|', '%'],
              c ≠ '=' → (accepts (operatorFSM [c, d])
                ↔ [c, d] ∈ [":".toList, "*".toList, "+".toList, "/".toList, "-".toList,
                  "%".toList, "!=".toList, "<<".toList, "<>".toList, ">>".toList,
                  ":=".toList, "::".toList, "++".toList, "--".toList, "&&".toList,
                  "||".toList, "%%".toList])) c hcmem d hdmem hc
          · have hdmem := hchars d (by simp)
            have hstep := (by decide : ∀ c ∈ ['!', '<', '>', '=', ':', '*', '+', '/', '-',
              '&', '|', '%'], ∀ d ∈ ['!', '<', '>', '=', ':', '*', '+', '/', '-', '&', '|',
              '%'], c ≠ '=' →
                ∃ q, tableAt operatorTable 0 (getOperatorCol c) = some q ∧ q ≠ -1
                  ∧ ¬ (getOperatorCol c ≥ 13 ∨ getOperatorCol c < 0)
                  ∧ (tableAt operatorTable q (getOperatorCol d) = some (-1)
                    ∨ (tableAt operatorTable q (getOperatorCol d) = some 13
                      ∧ ¬ (getOperatorCol d ≥ 13 ∨ getOperatorCol d < 0))))
              c hcmem d hdmem hc
            obtain ⟨q, hq, hqne, hrange, hnext⟩ := hstep
            have hrun : operatorFSM (c :: d :: e :: rest) = some (-1) := by
              unfold operatorFSM
              rw [runFSM_step _ _ _ _ c _ 0 _ q rfl hrange hq hqne]
              rcases hnext with hdead | ⟨hacc, hrange2⟩
              · exact runFSM_dead _ _ _ _ d _ q _ rfl hdead
              · rw [runFSM_step _ _ _ _ d _ q _ 13 rfl hrange2 hacc (by decide),
                  operatorRun_thirteen]
                simp
            rw [hrun]
            constructor
            · intro h
              exact absurd h not_accepts_dead
            · intro h
              have hlen := (by decide : ∀ w ∈ [":".toList, "*".toList, "+".toList,
                "/".toList, "-".toList, "%".toList, "!=".toList, "<<".toList, "<>".toList,
                ">>".toList, ":=".toList, "::".toList, "++".toList, "--".toList,
                "&&".toList, "||".toList, "%%".toList], w.length ≤ 2) _ h
              simp at hlen
  refine ⟨hmain, ?_⟩
  obtain ⟨r, hr⟩ := operatorFSM_total s
  rw [← hmain, hr, accepts_some_iff]
  simp

/-! ## C35: the language of the number automaton -/

theorem isdigit_iff (c : Char) :
    isdigit c = true ↔ c ∈ ['0', '1', '2', '3', '4', '5', '6', '7', '8', '9'] := by
  constructor
  · intro h
    simp only [isdigit, Bool.and_eq_true, decide_eq_true_eq] at h
    obtain ⟨h1, h2⟩ := h
    have hc : c = Char.ofNat c.toNat := (Char.ofNat_toNat c).symm
    generalize c.toNat = n at h1 h2 hc
    subst hc
    interval_cases n <;> decide
  · exact (by decide : ∀ c ∈ ['0', '1', '2', '3', '4', '5', '6', '7', '8', '9'],
      isdigit c = true) c

theorem mem_charRegex (a : Char) (x : List Char) :
    x ∈ (RegularExpression.char a).matches' ↔ x = [a] :=
  Iff.rfl

theorem mem_digitRegex (x : List Char) :
    x ∈ digitRegex.matches' ↔ ∃ c, isdigit c = true ∧ x = [c] := by
  simp only [digitRegex, RegularExpression.matches'_add, Language.mem_add, mem_charRegex,
    isdigit_iff, List.mem_cons, List.mem_singleton, List.not_mem_nil, or_false]
  constructor
  · intro h
    rcases h with ((((((((h | h) | h) | h) | h) | h) | h) | h) | h) | h <;>
      exact ⟨_, by simp, h⟩
  · rintro ⟨c, hc, rfl⟩
    rcases hc with rfl | rfl | rfl | rfl | rfl | rfl | rfl | rfl | rfl | rfl <;> simp

theorem flatten_map_singleton (x : List Char) : (x.map fun c => [c]).flatten = x := by
  induction x with
  | nil => rfl
  | cons c rest ih =>
    rw [List.map_cons, List.flatten_cons, ih]
    rfl

theorem mem_digitStar (x : List Char) :
    x ∈ digitRegex.star.matches' ↔ ∀ c ∈ x, isdigit c = true := by
  rw [RegularExpression.matches'_star, Language.mem_kstar]
  constructor
  · rintro ⟨L, rfl, hL⟩ c hc
    rw [List.mem_flatten] at hc
    obtain ⟨y, hy, hcy⟩ := hc
    obtain ⟨d, hd, rfl⟩ := (mem_digitRegex y).mp (hL y hy)
    rw [List.mem_singleton] at hcy
    exact hcy ▸ hd
  · intro h
    refine ⟨x.map fun c => [c], (flatten_map_singleton x).symm, ?_⟩
    intro y hy
    rw [List.mem_map] at hy
    obtain ⟨c, hc, rfl⟩ := hy
    exact (mem_digitRegex [c]).mpr ⟨c, h c hc, rfl⟩

theorem mem_digitsRegex (x : List Char) :
    x ∈ digitsRegex.matches' ↔ x ≠ [] ∧ ∀ c ∈ x, isdigit c = true := by
  rw [digitsRegex, RegularExpression.matches'_mul, Language.mem_mul]
  constructor
  · rintro ⟨a, ha, b, hb, rfl⟩
    obtain ⟨c, hc, rfl⟩ := (mem_digitRegex a).mp ha
    refine ⟨by simp, ?_⟩
    intro d hd
    rcases List.mem_append.mp hd with h | h
    · rw [List.mem_singleton] at h
      exact h ▸ hc
    · exact (mem_digitStar b).mp hb d h
  · rintro ⟨hne, hall⟩
    cases x with
    | nil => exact absurd rfl hne
    | cons c rest =>
      exact ⟨[c], (mem_digitRegex [c]).mpr ⟨c, hall c (List.mem_cons_self _ _), rfl⟩, rest,
        (mem_digitStar rest).mpr fun d hd => hall d (List.mem_cons_of_mem _ hd), rfl⟩

theorem mem_optionalSignRegex (x : List Char) :
    x ∈ optionalSignRegex.matches' ↔ x = [] ∨ x = ['+'] ∨ x = ['-'] := by
  simp only [optionalSignRegex, RegularExpression.matches'_add,
    RegularExpression.matches'_epsilon, Language.mem_add, Language.mem_one, mem_charRegex]

theorem mem_exponentRegex (x : List Char) :
    x ∈ exponentRegex.matches'
      ↔ ∃ c sign digits, (c = 'e' ∨ c = 'E') ∧ sign ∈ optionalSignRegex.matches'
          ∧ digits ∈ digitsRegex.matches' ∧ x = c :: (sign ++ digits) := by
  simp only [exponentRegex, RegularExpression.matches'_mul, RegularExpression.matches'_add,
    Language.mem_mul, Language.mem_add, mem_charRegex]
  constructor
  · rintro ⟨a, ha, b, ⟨sign, hsign, digits, hdigits, rfl⟩, rfl⟩
    rcases ha with ha | ha
    · exact ⟨ 'e', sign, digits, Or.inl rfl, hsign, hdigits, by rw [ha]; rfl⟩
    · exact ⟨ 'E', sign, digits, Or.inr rfl, hsign, hdigits, by rw [ha]; rfl⟩
  · rintro ⟨c, sign, digits, hc, hsign, hdigits, rfl⟩
    refine ⟨[c], ?_, sign ++ digits, ⟨sign, hsign, digits, hdigits, rfl⟩, rfl⟩
    rcases hc with rfl | rfl
    · exact Or.inl rfl
    · exact Or.inr rfl

theorem cons_mem_digitStar (c : Char) (r : List Char) (hc : isdigit c = true)
    (hr : r ∈ digitRegex.star.matches') : c :: r ∈ digitRegex.star.matches' := by
  rw [mem_digitStar] at hr ⊢
  intro d hd
  rcases List.mem_cons.mp hd with h | h
  · exact h ▸ hc
  · exact hr d h

theorem nil_mem_digitStar : [] ∈ digitRegex.star.matches' :=
  (mem_digitStar []).mpr (by simp)

theorem cons_mem_digitsRegex (c : Char) (r : List Char) (hc : isdigit c = true)
    (hr : r ∈ digitRegex.star.matches') : c :: r ∈ digitsRegex.matches' := by
  rw [mem_digitsRegex]
  exact ⟨by simp, (mem_digitStar _).mp (cons_mem_digitStar c r hc hr)⟩

theorem digitStar_of_digitsRegex (r : List Char) (hr : r ∈ digitsRegex.matches') :
    r ∈ digitRegex.star.matches' :=
  (mem_digitStar r).mpr ((mem_digitsRegex r).mp hr).2

theorem singleton_mem_digitRegex (c : Char) (hc : isdigit c = true) :
    [c] ∈ digitRegex.matches' :=
  (mem_digitRegex [c]).mpr ⟨c, hc, rfl⟩

theorem sign_mem_optionalSignRegex (c : Char) (hc : c = '+' ∨ c = '-') :
    [c] ∈ optionalSignRegex.matches' := by
  rw [mem_optionalSignRegex]
  rcases hc with rfl | rfl
  · exact Or.inr (Or.inl rfl)
  · exact Or.inr (Or.inr rfl)

theorem nil_mem_optionalSignRegex : [] ∈ optionalSignRegex.matches' :=
  (mem_optionalSignRegex []).mpr (Or.inl rfl)

/-- The exponent, read from its marker `e` or `E`. -/
theorem cons_mem_exponentRegex (c : Char) (r : List Char) (hc : c = 'e' ∨ c = 'E')
    (hr : r ∈ (optionalSignRegex * digitsRegex).matches') :
    c :: r ∈ (1 + exponentRegex).matches' := by
  rw [RegularExpression.matches'_mul, Language.mem_mul] at hr
  obtain ⟨sign, hsign, digits, hdigits, rfl⟩ := hr
  rw [RegularExpression.matches'_add, Language.mem_add]
  exact Or.inr ((mem_exponentRegex _).mpr ⟨c, sign, digits, hc, hsign, hdigits, rfl⟩)

theorem nil_mem_optionalExponent : [] ∈ (1 + exponentRegex).matches' := by
  rw [RegularExpression.matches'_add, Language.mem_add]
  exact Or.inl rfl

/-- A digit in front of a fraction with its exponent. -/
theorem cons_mem_fraction (c : Char) (r : List Char) (hc : isdigit c = true)
    (hr : r ∈ (digitRegex.star * (1 + exponentRegex)).matches') :
    c :: r ∈ (digitRegex.star * (1 + exponentRegex)).matches' := by
  rw [RegularExpression.matches'_mul, Language.mem_mul] at hr ⊢
  obtain ⟨a, ha, b, hb, rfl⟩ := hr
  exact ⟨c :: a, cons_mem_digitStar c a hc ha, b, hb, rfl⟩

/-- A digit in front of the rest of the integer part. -/
theorem cons_mem_integer (c : Char) (r : List Char) (hc : isdigit c = true)
    (hr : r ∈ (digitRegex.star * ((1 + exponentRegex)
      + .char '.' * (digitRegex.star * (1 + exponentRegex)))).matches') :
    c :: r ∈ (digitRegex.star * ((1 + exponentRegex)
      + .char '.' * (digitRegex.star * (1 + exponentRegex)))).matches' := by
  rw [RegularExpression.matches'_mul, Language.mem_mul] at hr ⊢
  obtain ⟨a, ha, b, hb, rfl⟩ := hr
  exact ⟨c :: a, cons_mem_digitStar c a hc ha, b, hb, rfl⟩

/-- The first digit of a number that starts with its integer part. -/
theorem cons_mem_mantissa_digit (c : Char) (r : List Char) (hc : isdigit c = true)
    (hr : r ∈ (digitRegex.star * ((1 + exponentRegex)
      + .char '.' * (digitRegex.star * (1 + exponentRegex)))).matches') :
    c :: r ∈ (mantissaRegex * (1 + exponentRegex)).matches' := by
  rw [RegularExpression.matches'_mul, Language.mem_mul] at hr
  obtain ⟨a, ha, b, hb, rfl⟩ := hr
  rw [RegularExpression.matches'_add, Language.mem_add] at hb
  rw [RegularExpression.matches'_mul, Language.mem_mul]
  rcases hb with hb | hb
  · refine ⟨c :: a, ?_, b, hb, rfl⟩
    rw [mantissaRegex, RegularExpression.matches'_add, RegularExpression.matches'_add,
      Language.mem_add, Language.mem_add]
    exact Or.inl (Or.inl (cons_mem_digitsRegex c a hc ha))
  · rw [RegularExpression.matches'_mul, Language.mem_mul] at hb
    obtain ⟨dot, hdot, rest, hrest, rfl⟩ := hb
    rw [RegularExpression.matches'_mul, Language.mem_mul] at hrest
    obtain ⟨d, hd, e, he, rfl⟩ := hrest
    refine ⟨(c :: a) ++ (dot ++ d), ?_, e, he, by simp⟩
    rw [mantissaRegex, RegularExpression.matches'_add, RegularExpression.matches'_add,
      Language.mem_add, Language.mem_add]
    refine Or.inl (Or.inr ?_)
    rw [RegularExpression.matches'_mul]
    refine Language.append_mem_mul (cons_mem_digitsRegex c a hc ha) ?_
    rw [RegularExpression.matches'_mul]
    exact Language.append_mem_mul hdot hd

/-- The leading `.` of a number without integer part. -/
theorem cons_mem_mantissa_dot (r : List Char)
    (hr : r ∈ (digitRegex * (digitRegex.star * (1 + exponentRegex))).matches') :
    '.' :: r ∈ (mantissaRegex * (1 + exponentRegex)).matches' := by
  rw [RegularExpression.matches'_mul, Language.mem_mul] at hr
  obtain ⟨a, ha, b, hb, rfl⟩ := hr
  rw [RegularExpression.matches'_mul, Language.mem_mul] at hb
  obtain ⟨d, hd, e, he, rfl⟩ := hb
  obtain ⟨c, hc, rfl⟩ := (mem_digitRegex a).mp ha
  rw [RegularExpression.matches'_mul, Language.mem_mul]
  refine ⟨ '.' :: c :: d, ?_, e, he, by simp⟩
  rw [mantissaRegex, RegularExpression.matches'_add, RegularExpression.matches'_add,
    Language.mem_add, Language.mem_add]
  refine Or.inr ?_
  rw [RegularExpression.matches'_mul]
  exact Language.append_mem_mul (a := ['.']) ((mem_charRegex '.' _).mpr rfl)
    (cons_mem_digitsRegex c d hc hd)

theorem nil_append_mem_mul {l m : Language Char} {x : List Char} (hl : [] ∈ l)
    (hx : x ∈ m) : x ∈ l * m :=
  Language.append_mem_mul hl hx

theorem getNumberCol_class (c : Char) :
    (isdigit c = true ∧ getNumberCol c = 0)
    ∨ ((c = '+' ∨ c = '-') ∧ getNumberCol c = 1)
    ∨ (c = '.' ∧ getNumberCol c = 2)
    ∨ ((c = 'e' ∨ c = 'E') ∧ getNumberCol c = 3)
    ∨ getNumberCol c = 4 := by
  unfold getNumberCol
  by_cases h0 : isdigit c = true
  · exact Or.inl ⟨h0, by simp [h0]⟩
  by_cases h1 : c = '+' ∨ c = '-'
  · exact Or.inr (Or.inl ⟨h1, by simp [h0, h1]⟩)
  by_cases h2 : c = '.'
  · exact Or.inr (Or.inr (Or.inl ⟨h2, by subst h2; decide⟩))
  by_cases h3 : c = 'e' ∨ c = 'E'
  · exact Or.inr (Or.inr (Or.inr (Or.inl ⟨h3, by simp [h0, h1, h2, h3]⟩)))
  · exact Or.inr (Or.inr (Or.inr (Or.inr (by simp [h0, h1, h2, h3]))))

/-- Every string on which the number automaton reaches an accepting state from a state
belongs to the language of that state. -/
theorem numberRun_sound (s : List Char) :
    (accepts (runFSM s 0 numberTable 6 getNumberCol [2, 4, 7]) → s ∈ numberRegex.matches')
    ∧ (accepts (runFSM s 1 numberTable 6 getNumberCol [2, 4, 7]) →
        s ∈ (mantissaRegex * (1 + exponentRegex)).matches')
    ∧ (accepts (runFSM s 2 numberTable 6 getNumberCol [2, 4, 7]) →
        s ∈ (digitRegex.star * ((1 + exponentRegex)
          + .char '.' * (digitRegex.star * (1 + exponentRegex)))).matches')
    ∧ (accepts (runFSM s 3 numberTable 6 getNumberCol [2, 4, 7]) →
        s ∈ (digitRegex * (digitRegex.star * (1 + exponentRegex))).matches')
    ∧ (accepts (runFSM s 4 numberTable 6 getNumberCol [2, 4, 7]) →
        s ∈ (digitRegex.star * (1 + exponentRegex)).matches')
    ∧ (accepts (runFSM s 5 numberTable 6 getNumberCol [2, 4, 7]) →
        s ∈ (optionalSignRegex * digitsRegex).matches')
    ∧ (accepts (runFSM s 6 numberTable 6 getNumberCol [2, 4, 7]) →
        s ∈ digitsRegex.matches')
    ∧ (accepts (runFSM s 7 numberTable 6 getNumberCol [2, 4, 7]) →
        s ∈ digitRegex.star.matches') := by
  induction s with
  | nil =>
    refine ⟨?_, ?_, ?_, ?_, ?_, ?_, ?_, ?_⟩
    · intro h; exact absurd h (by decide)
    · intro h; exact absurd h (by decide)
    · intro _
      rw [RegularExpression.matches'_mul]
      refine nil_append_mem_mul nil_mem_digitStar ?_
      rw [RegularExpression.matches'_add, Language.mem_add]
      exact Or.inl nil_mem_optionalExponent
    · intro h; exact absurd h (by decide)
    · intro _
      rw [RegularExpression.matches'_mul]
      exact nil_append_mem_mul nil_mem_digitStar nil_mem_optionalExponent
    · intro h; exact absurd h (by decide)
    · intro h; exact absurd h (by decide)
    · intro _; exact nil_mem_digitStar
  | cons c rest ih =>
    obtain ⟨ih0, ih1, ih2, ih3, ih4, ih5, ih6, ih7⟩ := ih
    refine ⟨?_, ?_, ?_, ?_, ?_, ?_, ?_, ?_⟩
    -- S0
    · intro h
      rw [numberRegex, RegularExpression.matches'_mul]
      rcases getNumberCol_class c with ⟨hc, hk⟩ | ⟨hc, hk⟩ | ⟨hc, hk⟩ | ⟨-, hk⟩ | hk
      · rw [runFSM_step _ _ _ _ c rest 0 _ 2 hk (by decide) (by decide) (by decide)] at h
        exact nil_append_mem_mul nil_mem_optionalSignRegex
          (cons_mem_mantissa_digit c rest hc (ih2 h))
      · rw [runFSM_step _ _ _ _ c rest 0 _ 1 hk (by decide) (by decide) (by decide)] at h
        exact Language.append_mem_mul (sign_mem_optionalSignRegex c hc) (ih1 h)
      · rw [runFSM_step _ _ _ _ c rest 0 _ 3 hk (by decide) (by decide) (by decide)] at h
        subst hc
        exact nil_append_mem_mul nil_mem_optionalSignRegex (cons_mem_mantissa_dot rest (ih3 h))
      · rw [runFSM_dead _ _ _ _ c rest 0 _ hk (by decide)] at h
        exact absurd h not_accepts_dead
      · rw [runFSM_dead _ _ _ _ c rest 0 _ hk (by decide)] at h
        exact absurd h not_accepts_dead
    -- S1
    · intro h
      rcases getNumberCol_class c with ⟨hc, hk⟩ | ⟨-, hk⟩ | ⟨hc, hk⟩ | ⟨-, hk⟩ | hk
      · rw [runFSM_step _ _ _ _ c rest 1 _ 2 hk (by decide) (by decide) (by decide)] at h
        exact cons_mem_mantissa_digit c rest hc (ih2 h)
      · rw [runFSM_dead _ _ _ _ c rest 1 _ hk (by decide)] at h
        exact absurd h not_accepts_dead
      · rw [runFSM_step _ _ _ _ c rest 1 _ 3 hk (by decide) (by decide) (by decide)] at h
        subst hc
        exact cons_mem_mantissa_dot rest (ih3 h)
      · rw [runFSM_dead _ _ _ _ c rest 1 _ hk (by decide)] at h
        exact absurd h not_accepts_dead
      · rw [runFSM_dead _ _ _ _ c rest 1 _ hk (by decide)] at h
        exact absurd h not_accepts_dead
    -- S2
    · intro h
      rcases getNumberCol_class c with ⟨hc, hk⟩ | ⟨-, hk⟩ | ⟨hc, hk⟩ | ⟨hc, hk⟩ | hk
      · rw [runFSM_step _ _ _ _ c rest 2 _ 2 hk (by decide) (by decide) (by decide)] at h
        exact cons_mem_integer c rest hc (ih2 h)
      · rw [runFSM_dead _ _ _ _ c rest 2 _ hk (by decide)] at h
        exact absurd h not_accepts_dead
      · rw [runFSM_step _ _ _ _ c rest 2 _ 4 hk (by decide) (by decide) (by decide)] at h
        subst hc
        rw [RegularExpression.matches'_mul]
        refine nil_append_mem_mul nil_mem_digitStar ?_
        rw [RegularExpression.matches'_add, Language.mem_add]
        refine Or.inr ?_
        rw [RegularExpression.matches'_mul]
        exact Language.append_mem_mul (a := ['.']) ((mem_charRegex '.' _).mpr rfl) (ih4 h)
      · rw [runFSM_step _ _ _ _ c rest 2 _ 5 hk (by decide) (by decide) (by decide)] at h
        rw [RegularExpression.matches'_mul]
        refine nil_append_mem_mul nil_mem_digitStar ?_
        rw [RegularExpression.matches'_add, Language.mem_add]
        exact Or.inl (cons_mem_exponentRegex c rest hc (ih5 h))
      · rw [runFSM_dead _ _ _ _ c rest 2 _ hk (by decide)] at h
        exact absurd h not_accepts_dead
    -- S3
    · intro h
      rcases getNumberCol_class c with ⟨hc, hk⟩ | ⟨-, hk⟩ | ⟨-, hk⟩ | ⟨-, hk⟩ | hk
      · rw [runFSM_step _ _ _ _ c rest 3 _ 4 hk (by decide) (by decide) (by decide)] at h
        rw [RegularExpression.matches'_mul]
        exact Language.append_mem_mul (singleton_mem_digitRegex c hc) (ih4 h)
      all_goals
        rw [runFSM_dead _ _ _ _ c rest 3 _ hk (by decide)] at h
        exact absurd h not_accepts_dead
    -- S4
    · intro h
      rcases getNumberCol_class c with ⟨hc, hk⟩ | ⟨-, hk⟩ | ⟨-, hk⟩ | ⟨hc, hk⟩ | hk
      · rw [runFSM_step _ _ _ _ c rest 4 _ 4 hk (by decide) (by decide) (by decide)] at h
        exact cons_mem_fraction c rest hc (ih4 h)
      · rw [runFSM_dead _ _ _ _ c rest 4 _ hk (by decide)] at h
        exact absurd h not_accepts_dead
      · rw [runFSM_dead _ _ _ _ c rest 4 _ hk (by decide)] at h
        exact absurd h not_accepts_dead
      · rw [runFSM_step _ _ _ _ c rest 4 _ 5 hk (by decide) (by decide) (by decide)] at h
        rw [RegularExpression.matches'_mul]
        exact nil_append_mem_mul nil_mem_digitStar (cons_mem_exponentRegex c rest hc (ih5 h))
      · rw [runFSM_dead _ _ _ _ c rest 4 _ hk (by decide)] at h
        exact absurd h not_accepts_dead
    -- S5
    · intro h
      rw [RegularExpression.matches'_mul]
      rcases getNumberCol_class c with ⟨hc, hk⟩ | ⟨hc, hk⟩ | ⟨-, hk⟩ | ⟨-, hk⟩ | hk
      · rw [runFSM_step _ _ _ _ c rest 5 _ 7 hk (by decide) (by decide) (by decide)] at h
        exact nil_append_mem_mul nil_mem_optionalSignRegex
          (cons_mem_digitsRegex c rest hc (ih7 h))
      · rw [runFSM_step _ _ _ _ c rest 5 _ 6 hk (by decide) (by decide) (by decide)] at h
        exact Language.append_mem_mul (sign_mem_optionalSignRegex c hc) (ih6 h)
      all_goals
        rw [runFSM_dead _ _ _ _ c rest 5 _ hk (by decide)] at h
        exact absurd h not_accepts_dead
    -- S6
    · intro h
      rcases getNumberCol_class c with ⟨hc, hk⟩ | ⟨-, hk⟩ | ⟨-, hk⟩ | ⟨-, hk⟩ | hk
      · rw [runFSM_step _ _ _ _ c rest 6 _ 7 hk (by decide) (by decide) (by decide)] at h
        exact cons_mem_digitsRegex c rest hc (ih7 h)
      all_goals
        rw [runFSM_dead _ _ _ _ c rest 6 _ hk (by decide)] at h
        exact absurd h not_accepts_dead
    -- S7
    · intro h
      rcases getNumberCol_class c with ⟨hc, hk⟩ | ⟨-, hk⟩ | ⟨-, hk⟩ | ⟨-, hk⟩ | hk
      · rw [runFSM_step _ _ _ _ c rest 7 _ 7 hk (by decide) (by decide) (by decide)] at h
        exact cons_mem_digitStar c rest hc (ih7 h)
      all_goals
        rw [runFSM_dead _ _ _ _ c rest 7 _ hk (by decide)] at h
        exact absurd h not_accepts_dead

theorem getNumberCol_digit (c : Char) (hc : isdigit c = true) : getNumberCol c = 0 := by
  simp [getNumberCol, hc]

/-- The number automaton stays in each of S2, S4 and S7 while it reads digits. -/
theorem numberRun_digits (q : Int) (hq : q ∈ [(2 : Int), 4, 7]) :
    ∀ (d r : List Char), (∀ c ∈ d, isdigit c = true) →
      runFSM (d ++ r) q numberTable 6 getNumberCol [2, 4, 7]
        = runFSM r q numberTable 6 getNumberCol [2, 4, 7] := by
  intro d
  induction d with
  | nil => intro r _; rfl
  | cons c rest ih =>
    intro r hall
    have hc := getNumberCol_digit c (hall c (List.mem_cons_self _ _))
    have hrest := ih r fun x hx => hall x (List.mem_cons_of_mem _ hx)
    simp only [List.mem_cons, List.mem_singleton, List.not_mem_nil, or_false] at hq
    rcases hq with rfl | rfl | rfl
    · rw [List.cons_append,
        runFSM_step _ _ _ _ c _ 2 _ 2 hc (by decide) (by decide) (by decide), hrest]
    · rw [List.cons_append,
        runFSM_step _ _ _ _ c _ 4 _ 4 hc (by decide) (by decide) (by decide), hrest]
    · rw [List.cons_append,
        runFSM_step _ _ _ _ c _ 7 _ 7 hc (by decide) (by decide) (by decide), hrest]

/-- From S5 the number automaton accepts an optional sign followed by digits. -/
theorem numberRun_exponent_body (r : List Char)
    (hr : r ∈ (optionalSignRegex * digitsRegex).matches') :
    accepts (runFSM r 5 numberTable 6 getNumberCol [2, 4, 7]) := by
  rw [RegularExpression.matches'_mul, Language.mem_mul] at hr
  obtain ⟨sign, hsign, digits, hdigits, rfl⟩ := hr
  obtain ⟨hne, hall⟩ := (mem_digitsRegex digits).mp hdigits
  cases digits with
  | nil => exact absurd rfl hne
  | cons d ds =>
    have hd := getNumberCol_digit d (hall d (List.mem_cons_self _ _))
    have hds : runFSM ds 7 numberTable 6 getNumberCol [2, 4, 7] = some 7 := by
      have h := numberRun_digits 7 (by decide) ds [] fun x hx =>
        hall x (List.mem_cons_of_mem _ hx)
      rw [List.append_nil] at h
      rw [h]
      rfl
    rcases (mem_optionalSignRegex sign).mp hsign with rfl | rfl | rfl
    · rw [List.nil_append,
        runFSM_step _ _ _ _ d _ 5 _ 7 hd (by decide) (by decide) (by decide), hds]
      decide
    · rw [List.singleton_append,
        runFSM_step _ _ _ _ '+' _ 5 1 6 (by decide) (by decide) (by decide) (by decide),
        runFSM_step _ _ _ _ d _ 6 _ 7 hd (by decide) (by decide) (by decide), hds]
      decide
    · rw [List.singleton_append,
        runFSM_step _ _ _ _ '-' _ 5 1 6 (by decide) (by decide) (by decide) (by decide),
        runFSM_step _ _ _ _ d _ 6 _ 7 hd (by decide) (by decide) (by decide), hds]
      decide

/-- From S2 and from S4 the number automaton accepts an optional exponent. -/
theorem numberRun_optionalExponent (q : Int) (hq : q ∈ [(2 : Int), 4]) (e : List Char)
    (he : e ∈ (1 + exponentRegex).matches') :
    accepts (runFSM e q numberTable 6 getNumberCol [2, 4, 7]) := by
  simp only [List.mem_cons, List.mem_singleton, List.not_mem_nil, or_false] at hq
  rw [RegularExpression.matches'_add, Language.mem_add] at he
  rcases he with he | he
  · rw [RegularExpression.matches'_epsilon, Language.mem_one] at he
    subst he
    rcases hq with rfl | rfl <;> decide
  · obtain ⟨c, sign, digits, hc, hsign, hdigits, rfl⟩ := (mem_exponentRegex e).mp he
    have hbody := numberRun_exponent_body (sign ++ digits)
      (by rw [RegularExpression.matches'_mul]; exact Language.append_mem_mul hsign hdigits)
    have hk : getNumberCol c = 3 := by
      rcases hc with rfl | rfl <;> decide
    rcases hq with rfl | rfl
    · rw [runFSM_step _ _ _ _ c _ 2 _ 5 hk (by decide) (by decide) (by decide)]
      exact hbody
    · rw [runFSM_step _ _ _ _ c _ 4 _ 5 hk (by decide) (by decide) (by decide)]
      exact hbody

/-- From S0 and from S1 the number automaton reads a mantissa and arrives in S2 or S4. -/
theorem numberRun_mantissa (q : Int) (hq : q ∈ [(0 : Int), 1]) (m e : List Char)
    (hm : m ∈ mantissaRegex.matches') :
    ∃ q2 ∈ [(2 : Int), 4],
      runFSM (m ++ e) q numberTable 6 getNumberCol [2, 4, 7]
        = runFSM e q2 numberTable 6 getNumberCol [2, 4, 7] := by
  have hfirst : ∀ (c : Char) (r : List Char), isdigit c = true →
      runFSM (c :: r) q numberTable 6 getNumberCol [2, 4, 7]
        = runFSM r 2 numberTable 6 getNumberCol [2, 4, 7] := by
    intro c r hc
    have hk := getNumberCol_digit c hc
    simp only [List.mem_cons, List.mem_singleton, List.not_mem_nil, or_false] at hq
    rcases hq with rfl | rfl
    · exact runFSM_step _ _ _ _ c _ 0 _ 2 hk (by decide) (by decide) (by decide)
    · exact runFSM_step _ _ _ _ c _ 1 _ 2 hk (by decide) (by decide) (by decide)
  have hdot : ∀ r : List Char,
      runFSM ('.' :: r) q numberTable 6 getNumberCol [2, 4, 7]
        = runFSM r 3 numberTable 6 getNumberCol [2, 4, 7] := by
    intro r
    simp only [List.mem_cons, List.mem_singleton, List.not_mem_nil, or_false] at hq
    rcases hq with rfl | rfl
    · exact runFSM_step _ _ _ _ '.' _ 0 2 3 (by decide) (by decide) (by decide) (by decide)
    · exact runFSM_step _ _ _ _ '.' _ 1 2 3 (by decide) (by decide) (by decide) (by decide)
  rw [mantissaRegex, RegularExpression.matches'_add, RegularExpression.matches'_add,
    Language.mem_add, Language.mem_add] at hm
  rcases hm with (hm | hm) | hm
  · obtain ⟨hne, hall⟩ := (mem_digitsRegex m).mp hm
    cases m with
    | nil => exact absurd rfl hne
    | cons c ds =>
      refine ⟨2, by decide, ?_⟩
      rw [List.cons_append, hfirst c _ (hall c (List.mem_cons_self _ _)),
        numberRun_digits 2 (by decide) ds e fun x hx => hall x (List.mem_cons_of_mem _ hx)]
  · rw [RegularExpression.matches'_mul, Language.mem_mul] at hm
    obtain ⟨a, ha, b, hb, rfl⟩ := hm
    rw [RegularExpression.matches'_mul, Language.mem_mul] at hb
    obtain ⟨dot, hdotmem, d, hd, rfl⟩ := hb
    rw [mem_charRegex] at hdotmem
    subst hdotmem
    obtain ⟨hne, hall⟩ := (mem_digitsRegex a).mp ha
    cases a with
    | nil => exact absurd rfl hne
    | cons c ds =>
      refine ⟨4, by decide, ?_⟩
      rw [List.append_assoc, List.append_assoc, List.cons_append,
        hfirst c _ (hall c (List.mem_cons_self _ _)),
        numberRun_digits 2 (by decide) ds _ fun x hx => hall x (List.mem_cons_of_mem _ hx),
        List.singleton_append,
        runFSM_step _ _ _ _ '.' _ 2 2 4 (by decide) (by decide) (by decide) (by decide),
        numberRun_digits 4 (by decide) d e ((mem_digitStar d).mp hd)]
  · rw [RegularExpression.matches'_mul, Language.mem_mul] at hm
    obtain ⟨dot, hdotmem, d, hd, rfl⟩ := hm
    rw [mem_charRegex] at hdotmem
    subst hdotmem
    obtain ⟨hne, hall⟩ := (mem_digitsRegex d).mp hd
    cases d with
    | nil => exact absurd rfl hne
    | cons c ds =>
      refine ⟨4, by decide, ?_⟩
      rw [List.append_assoc, List.singleton_append, hdot, List.cons_append,
        runFSM_step _ _ _ _ c _ 3 _ 4 (getNumberCol_digit c (hall c (List.mem_cons_self _ _)))
          (by decide) (by decide) (by decide),
        numberRun_digits 4 (by decide) ds e fun x hx => hall x (List.mem_cons_of_mem _ hx)]

/-- The number automaton accepts every string that matches the regular expression. -/
theorem numberRun_complete (s : List Char) (hs : s ∈ numberRegex.matches') :
    accepts (numberFSM s) := by
  rw [numberRegex, RegularExpression.matches'_mul, Language.mem_mul] at hs
  obtain ⟨sign, hsign, body, hbody, rfl⟩ := hs
  rw [RegularExpression.matches'_mul, Language.mem_mul] at hbody
  obtain ⟨m, hm, e, he, rfl⟩ := hbody
  unfold numberFSM
  rcases (mem_optionalSignRegex sign).mp hsign with rfl | rfl | rfl
  · obtain ⟨q2, hq2, hrun⟩ := numberRun_mantissa 0 (by decide) m e hm
    rw [List.nil_append, hrun]
    exact numberRun_optionalExponent q2 hq2 e he
  · obtain ⟨q2, hq2, hrun⟩ := numberRun_mantissa 1 (by decide) m e hm
    rw [List.singleton_append,
      runFSM_step _ _ _ _ '+' _ 0 1 1 (by decide) (by decide) (by decide) (by decide), hrun]
    exact numberRun_optionalExponent q2 hq2 e he
  · obtain ⟨q2, hq2, hrun⟩ := numberRun_mantissa 1 (by decide) m e hm
    rw [List.singleton_append,
      runFSM_step _ _ _ _ '-' _ 0 1 1 (by decide) (by decide) (by decide) (by decide), hrun]
    exact numberRun_optionalExponent q2 hq2 e he

/-- Every string of the plain form matches the regular expression of the numbers. -/
theorem plainNumberRegex_le (s : List Char) (hs : s ∈ plainNumberRegex.matches') :
    s ∈ numberRegex.matches' := by
  rw [plainNumberRegex, RegularExpression.matches'_mul, Language.mem_mul] at hs
  obtain ⟨sign, hsign, body, hbody, rfl⟩ := hs
  rw [RegularExpression.matches'_mul, Language.mem_mul] at hbody
  obtain ⟨ds, hds, tail, htail, rfl⟩ := hbody
  rw [RegularExpression.matches'_mul, Language.mem_mul] at htail
  obtain ⟨f, hf, e, he, rfl⟩ := htail
  rw [numberRegex, RegularExpression.matches'_mul]
  refine Language.append_mem_mul hsign ?_
  rw [← List.append_assoc, RegularExpression.matches'_mul]
  refine Language.append_mem_mul ?_ he
  rw [mantissaRegex, RegularExpression.matches'_add, RegularExpression.matches'_add,
    Language.mem_add, Language.mem_add]
  rw [RegularExpression.matches'_add, Language.mem_add] at hf
  rcases hf with hf | hf
  · rw [RegularExpression.matches'_epsilon, Language.mem_one] at hf
    subst hf
    rw [List.append_nil]
    exact Or.inl (Or.inl hds)
  · rw [RegularExpression.matches'_mul, Language.mem_mul] at hf
    obtain ⟨dot, hdot, d, hd, rfl⟩ := hf
    refine Or.inl (Or.inr ?_)
    rw [RegularExpression.matches'_mul]
    refine Language.append_mem_mul hds ?_
    rw [RegularExpression.matches'_mul]
    exact Language.append_mem_mul hdot (digitStar_of_digitsRegex d hd)

/-- Every string that matches the regular expression of the numbers has a digit. -/
theorem numberRegex_has_digit (s : List Char) (hs : s ∈ numberRegex.matches') :
    ∃ c ∈ s, isdigit c = true := by
  rw [numberRegex, RegularExpression.matches'_mul, Language.mem_mul] at hs
  obtain ⟨sign, -, body, hbody, rfl⟩ := hs
  rw [RegularExpression.matches'_mul, Language.mem_mul] at hbody
  obtain ⟨m, hm, e, -, rfl⟩ := hbody
  have hdigits : ∀ d : List Char, d ∈ digitsRegex.matches' → ∃ c ∈ d, isdigit c = true := by
    intro d hd
    obtain ⟨hne, hall⟩ := (mem_digitsRegex d).mp hd
    cases d with
    | nil => exact absurd rfl hne
    | cons c ds => exact ⟨c, List.mem_cons_self _ _, hall c (List.mem_cons_self _ _)⟩
  have hmant : ∃ c ∈ m, isdigit c = true := by
    rw [mantissaRegex, RegularExpression.matches'_add, RegularExpression.matches'_add,
      Language.mem_add, Language.mem_add] at hm
    rcases hm with (hm | hm) | hm
    · exact hdigits m hm
    · rw [RegularExpression.matches'_mul, Language.mem_mul] at hm
      obtain ⟨a, ha, b, -, rfl⟩ := hm
      obtain ⟨c, hc, hd⟩ := hdigits a ha
      exact ⟨c, List.mem_append_left _ hc, hd⟩
    · rw [RegularExpression.matches'_mul, Language.mem_mul] at hm
      obtain ⟨a, -, b, hb, rfl⟩ := hm
      obtain ⟨c, hc, hd⟩ := hdigits b hb
      exact ⟨c, List.mem_append_right _ hc, hd⟩
  obtain ⟨c, hc, hd⟩ := hmant
  exact ⟨c, List.mem_append_right _ (List.mem_append_left _ hc), hd⟩

/-- C35: `numberFSM` accepts a string `s` if and only if `s` matches
`[+-]? ( D+ | D+ '.' D* | '.' D+ ) ( [eE] [+-]? D+ )?` with `D` an ASCII digit, and it
returns `-1` on every other string.  Consequently every string of the form optional sign,
digits, optional `.` digits, optional exponent is accepted, and every accepted string
contains at least one digit. -/
theorem numberFSM_accepts_iff (s : List Char) :
    (accepts (numberFSM s) ↔ s ∈ numberRegex.matches')
    ∧ (s ∉ numberRegex.matches' ↔ numberFSM s = some (-1))
    ∧ (s ∈ plainNumberRegex.matches' → accepts (numberFSM s))
    ∧ (accepts (numberFSM s) → ∃ c ∈ s, isdigit c = true) := by
  have hmain : accepts (numberFSM s) ↔ s ∈ numberRegex.matches' :=
    ⟨(numberRun_sound s).1, numberRun_complete s⟩
  refine ⟨hmain, ?_, ?_, ?_⟩
  · obtain ⟨r, hr⟩ := numberFSM_total s
    rw [← hmain, hr, accepts_some_iff]
    simp
  · intro h
    exact numberRun_complete s (plainNumberRegex_le s h)
  · intro h
    exact numberRegex_has_digit s (hmain.mp h)

/-! ## C37, C38: termination and conservation of the characters -/

theorem tail_length_lt {tokenPart lastChar token : List Char}
    (hperm : (tokenPart ++ lastChar).Perm token) (hne : tokenPart ≠ []) :
    lastChar.length < token.length := by
  have h1 := hperm.length_eq
  have h2 := List.length_pos.mpr hne
  simp only [List.length_append] at h1
  omega

theorem ne_nil_of_accepts {run : List Char → Option Int} (hnil : run [] = some (-1))
    {tokenPart : List Char} (h : accepts (run tokenPart)) : tokenPart ≠ [] := by
  rintro rfl
  rw [hnil] at h
  exact not_accepts_dead h

/-- C37: `processToken` terminates on every candidate: with fuel for the length of the
candidate the recursion returns.  Whenever a classifier of the cascade accepts, the accepted
head is non-empty and the tail, the argument of the recursive call, is strictly shorter than
the candidate. -/
theorem processToken_terminates (token : List Char) (lineNum : Nat) (st : Lexical) :
    (∀ fuel, token.length ≤ fuel →
      ∃ st', processTokenFuel fuel token lineNum st = some st')
    ∧ (∀ split ∈ seperateKeywordToken token, isKeyword split.1 = true →
        split.1 ≠ [] ∧ split.2.length < token.length)
    ∧ (identifierFSM (seperateIdentifierToken token).1 = some 3 →
        (seperateIdentifierToken token).1 ≠ []
        ∧ (seperateIdentifierToken token).2.length < token.length)
    ∧ (accepts (numberFSM (seperateNumToken token).1) →
        (seperateNumToken token).1 ≠ []
        ∧ (seperateNumToken token).2.length < token.length)
    ∧ ((seperatePunctuationToken token).1.length = 1
        ∧ accepts (punctuationFSM (seperatePunctuationToken token).1) →
        (seperatePunctuationToken token).1 ≠ []
        ∧ (seperatePunctuationToken token).2.length < token.length)
    ∧ (accepts (operatorFSM (separateOperatorToken token).1) →
        (separateOperatorToken token).1 ≠ []
        ∧ (separateOperatorToken token).2.length < token.length) := by
  refine ⟨?_, ?_, ?_, ?_, ?_, ?_⟩
  · intro fuel hfuel
    by_cases hne : token = []
    · subst hne
      exact ⟨emitNoTokens st, by cases fuel <;> simp [processTokenFuel]⟩
    · obtain ⟨rows, hres, -⟩ := processTokenFuel_emits fuel token lineNum st hne hfuel
      exact ⟨_, hres⟩
  · intro split hsplit hkw
    by_cases hne : token = []
    · subst hne
      simp [seperateKeywordToken] at hsplit
    · obtain ⟨kPart, kLast, hk, happ⟩ := seperateKeywordToken_some token hne
      rw [hk] at hsplit
      cases hsplit
      have hmem : kPart ∈ keywords := by simpa [isKeyword] using hkw
      have hne2 := (keywords_rejected kPart hmem).1
      exact ⟨hne2, tail_length_lt (List.Perm.of_eq happ) hne2⟩
  · intro h
    have hne : (seperateIdentifierToken token).1 ≠ [] := by
      intro h0
      rw [h0, identifierFSM_nil] at h
      exact absurd h (by decide)
    exact ⟨hne, tail_length_lt (List.Perm.of_eq (seperateIdentifierToken_append token)) hne⟩
  · intro h
    have hne := ne_nil_of_accepts numberFSM_nil h
    exact ⟨hne, tail_length_lt (List.Perm.of_eq (seperateNumToken_append token)) hne⟩
  · rintro ⟨h1, -⟩
    have hne : (seperatePunctuationToken token).1 ≠ [] := by
      intro h0
      rw [h0] at h1
      simp at h1
    exact ⟨hne,
      tail_length_lt (List.Perm.of_eq (seperatePunctuationToken_append token)) hne⟩
  · intro h
    have hne := ne_nil_of_accepts operatorFSM_nil h
    exact ⟨hne, tail_length_lt (separateOperatorToken_perm token) hne⟩

/-- C38: the lexemes that `processToken` emits for a candidate, valid and invalid together,
have total length equal to the length of the candidate and contain exactly the characters
of the candidate as a multiset: every character occurs in them as many times as in the
candidate. -/
theorem processToken_conserves_characters (token : List Char) (lineNum : Nat)
    (st : Lexical) :
    ∃ st' rows, processToken token lineNum st = some st'
      ∧ st'.console = st.console ++ rows
      ∧ (rows.map fun row => row.lexeme.length).sum = token.length
      ∧ (∀ c, ((rows.map ConsoleRow.lexeme).flatten).count c = token.count c)
      ∧ Multiset.ofList ((rows.map ConsoleRow.lexeme).flatten) = Multiset.ofList token := by
  by_cases hne : token = []
  · subst hne
    exact ⟨emitNoTokens st, [], processToken_nil lineNum st, by simp [emitNoTokens], rfl,
      fun _ => rfl, rfl⟩
  · obtain ⟨rows, hres, -, hperm, -⟩ := processToken_emits token lineNum st hne
    refine ⟨_, rows, hres, console_foldl_applyRow rows st, ?_, fun c => hperm.count_eq c,
      Quotient.sound hperm⟩
    have hlen := hperm.length_eq
    rw [List.length_flatten, List.map_map] at hlen
    exact hlen

/-! ## C39: the table reads of `processToken` -/

/-- The traced body returns what `processToken` returns. -/
theorem processTokenTraced_fst (fuel : Nat) :
    ∀ (token : List Char) (lineNum : Nat) (st : Lexical),
      (processTokenTraced fuel token lineNum st).1
        = processTokenFuel fuel token lineNum st := by
  induction fuel with
  | zero =>
    intro token lineNum st
    rw [processTokenTraced, processTokenFuel]
    by_cases h : token = [] <;> simp [h]
  | succ fuel ih =>
    intro token lineNum st
    rw [processTokenTraced, processTokenFuel]
    by_cases h : token = []
    · simp [h]
    simp only [h, if_false]
    cases seperateKeywordToken token with
    | none => rfl
    | some kw =>
      obtain ⟨kPart, kLast⟩ := kw
      dsimp only
      by_cases hkw : isKeyword kPart = true
      · simp only [hkw, if_true]
        by_cases hl : kLast = [] <;> simp [hl, ih]
      simp only [hkw, if_false, Bool.false_eq_true]
      cases identifierFSM (seperateIdentifierToken token).1 with
      | none => rfl
      | some ri =>
        dsimp only
        by_cases hid : ri = 3
        · simp only [hid, if_true, withRuns]
          by_cases hl : (seperateIdentifierToken token).2 = [] <;> simp [hl, ih]
        simp only [hid, if_false]
        cases numberFSM (seperateNumToken token).1 with
        | none => rfl
        | some rn =>
          dsimp only
          by_cases hnum : rn ≠ -1
          · simp only [hnum, if_true, ne_eq, not_false_eq_true, withRuns]
            by_cases hl : (seperateNumToken token).2 = [] <;> simp [hl, ih]
          simp only [hnum, if_false]
          cases (if (seperatePunctuationToken token).1.length = 1 then
              punctuationFSM (seperatePunctuationToken token).1 else some (-1)) with
          | none => rfl
          | some rp =>
            dsimp only
            by_cases hpun : (seperatePunctuationToken token).1.length = 1 ∧ rp ≠ -1
            · simp only [hpun, if_true, ne_eq, not_false_eq_true, and_self, withRuns]
              by_cases hl : (seperatePunctuationToken token).2 = [] <;> simp [hl, ih]
            simp only [hpun, if_false]
            cases operatorFSM (separateOperatorToken token).1 with
            | none => rfl
            | some ro =>
              dsimp only
              by_cases hop : ro ≠ -1
              · simp only [hop, if_true, ne_eq, not_false_eq_true, withRuns]
                by_cases hl : (separateOperatorToken token).2 = [] <;> simp [hl, ih]
              simp only [hop, if_false]

/-- A property of the runs of the three automata that run on every head, and of the
punctuation automaton on one-character strings, holds for every run that `processToken`
makes. -/
theorem processTokenTraced_runs (P : Automaton × List Char → Prop)
    (hid : ∀ s, P (Automaton.identifier, s)) (hnum : ∀ s, P (Automaton.number, s))
    (hop : ∀ s, P (Automaton.operator, s))
    (hpun : ∀ s : List Char, s.length = 1 → P (Automaton.punctuation, s)) (fuel : Nat) :
    ∀ (token : List Char) (lineNum : Nat) (st : Lexical),
      ∀ run ∈ (processTokenTraced fuel token lineNum st).2, P run := by
  induction fuel with
  | zero =>
    intro token lineNum st run hrun
    rw [processTokenTraced] at hrun
    by_cases h : token = [] <;> simp [h] at hrun
  | succ fuel ih =>
    intro token lineNum st run hrun
    have htail : ∀ (runs : List (Automaton × List Char)) (lastChar : List Char)
        (st1 : Lexical), (∀ r ∈ runs, P r) →
        run ∈ (withRuns runs (if lastChar ≠ [] then processTokenTraced fuel lastChar lineNum st1
          else (some st1, []))).2 → P run := by
      intro runs lastChar st1 hruns hmem
      simp only [withRuns, List.mem_append] at hmem
      rcases hmem with hmem | hmem
      · exact hruns run hmem
      · by_cases hl : lastChar = []
        · simp [hl] at hmem
        · simp only [hl, ne_eq, not_false_eq_true, if_true] at hmem
          exact ih lastChar lineNum st1 run hmem
    rw [processTokenTraced] at hrun
    by_cases h : token = []
    · simp [h] at hrun
    simp only [h, if_false] at hrun
    cases hk : seperateKeywordToken token with
    | none => simp [hk] at hrun
    | some kw =>
      obtain ⟨kPart, kLast⟩ := kw
      simp only [hk] at hrun
      by_cases hkw : isKeyword kPart = true
      · simp only [hkw, if_true] at hrun
        exact htail [] kLast _ (by simp) (by simpa [withRuns] using hrun)
      simp only [hkw, if_false, Bool.false_eq_true] at hrun
      have h1 : ∀ r ∈ [(Automaton.identifier, (seperateIdentifierToken token).1)], P r := by
        intro r hr
        rw [List.mem_singleton] at hr
        exact hr ▸ hid _
      cases hi : identifierFSM (seperateIdentifierToken token).1 with
      | none =>
        simp only [hi] at hrun
        exact h1 run hrun
      | some ri =>
        simp only [hi] at hrun
        by_cases hid3 : ri = 3
        · simp only [hid3, if_true] at hrun
          exact htail _ _ _ h1 hrun
        simp only [hid3, if_false] at hrun
        have h2 : ∀ r ∈ [(Automaton.identifier, (seperateIdentifierToken token).1)]
            ++ [(Automaton.number, (seperateNumToken token).1)], P r := by
          intro r hr
          rcases List.mem_append.mp hr with hr | hr
          · exact h1 r hr
          · rw [List.mem_singleton] at hr
            exact hr ▸ hnum _
        cases hn : numberFSM (seperateNumToken token).1 with
        | none =>
          simp only [hn] at hrun
          exact h2 run hrun
        | some rn =>
          simp only [hn] at hrun
          by_cases hnum1 : rn ≠ -1
          · simp only [hnum1, if_true, ne_eq, not_false_eq_true] at hrun
            exact htail _ _ _ h2 hrun
          simp only [hnum1, if_false] at hrun
          have h3 : ∀ r ∈ (if (seperatePunctuationToken token).1.length = 1 then
              [(Automaton.identifier, (seperateIdentifierToken token).1)]
                ++ [(Automaton.number, (seperateNumToken token).1)]
                ++ [(Automaton.punctuation, (seperatePunctuationToken token).1)]
              else [(Automaton.identifier, (seperateIdentifierToken token).1)]
                ++ [(Automaton.number, (seperateNumToken token).1)]), P r := by
            intro r hr
            by_cases hlen : (seperatePunctuationToken token).1.length = 1
            · simp only [hlen, if_true] at hr
              rcases List.mem_append.mp hr with hr | hr
              · exact h2 r hr
              · rw [List.mem_singleton] at hr
                exact hr ▸ hpun _ hlen
            · simp only [hlen, if_false] at hr
              exact h2 r hr
          cases hp : (if (seperatePunctuationToken token).1.length = 1 then
              punctuationFSM (seperatePunctuationToken token).1 else some (-1)) with
          | none =>
            simp only [hp] at hrun
            exact h3 run hrun
          | some rp =>
            simp only [hp] at hrun
            by_cases hpun1 : (seperatePunctuationToken token).1.length = 1 ∧ rp ≠ -1
            · simp only [hpun1, if_true, ne_eq, not_false_eq_true, and_self] at hrun
              exact htail _ _ _ (by simpa [hpun1.1] using h3) hrun
            simp only [hpun1, if_false] at hrun
            have h4 : ∀ r ∈ (if (seperatePunctuationToken token).1.length = 1 then
                [(Automaton.identifier, (seperateIdentifierToken token).1)]
                  ++ [(Automaton.number, (seperateNumToken token).1)]
                  ++ [(Automaton.punctuation, (seperatePunctuationToken token).1)]
                else [(Automaton.identifier, (seperateIdentifierToken token).1)]
                  ++ [(Automaton.number, (seperateNumToken token).1)])
                ++ [(Automaton.operator, (separateOperatorToken token).1)], P r := by
              intro r hr
              rcases List.mem_append.mp hr with hr | hr
              · exact h3 r hr
              · rw [List.mem_singleton] at hr
                exact hr ▸ hop _
            cases ho : operatorFSM (separateOperatorToken token).1 with
            | none =>
              simp only [ho] at hrun
              exact h4 run hrun
            | some ro =>
              simp only [ho] at hrun
              by_cases hop1 : ro ≠ -1
              · simp only [hop1, if_true, ne_eq, not_false_eq_true] at hrun
                exact htail _ _ _ h4 hrun
              simp only [hop1, if_false] at hrun
              exact h4 run hrun

/-- The model's undefined result of `runFSM` stands for a read outside the table: a run
is undefined exactly when one of its reads is. -/
theorem runFSM_eq_none_iff (table : List (List Int)) (numColumns : Int)
    (getCol : Char → Int) (validStates : List Int) :
    ∀ (token : List Char) (state : Int),
      runFSM token state table numColumns getCol validStates = none
        ↔ ∃ read ∈ runFSMReads token state table numColumns getCol,
            tableAt table read.1 read.2 = none := by
  intro token
  induction token with
  | nil =>
    intro state
    simp [runFSM, runFSMReads]
  | cons c rest ih =>
    intro state
    rw [runFSM, runFSMReads]
    by_cases hc : getCol c ≥ numColumns ∨ getCol c < 0
    · simp [hc]
    · simp only [hc, if_false]
      cases hread : tableAt table state (getCol c) with
      | none => simp [hread]
      | some next =>
        by_cases hnext : next = -1
        · simp [hnext, hread]
        · simp [hnext, hread, ih next]

/-- A run started in a set of states that the table maps into itself (or to `-1`) reads
only rows of these states, in the columns of `getCol`. -/
theorem runFSMReads_closed (table : List (List Int)) (numColumns : Int)
    (getCol : Char → Int) (states cols : List Int)
    (hcol : ∀ c, getCol c ∈ cols)
    (hstep : ∀ s ∈ states, ∀ col ∈ cols,
      (match tableAt table s col with
        | some next => decide (next = -1 ∨ next ∈ states)
        | none => false) = true) :
    ∀ (token : List Char) (s : Int), s ∈ states →
      ∀ read ∈ runFSMReads token s table numColumns getCol,
        read.1 ∈ states ∧ read.2 ∈ cols := by
  intro token
  induction token with
  | nil =>
    intro s _ read hread
    simp [runFSMReads] at hread
  | cons c rest ih =>
    intro s hs read hread
    rw [runFSMReads] at hread
    by_cases hc : getCol c ≥ numColumns ∨ getCol c < 0
    · simp [hc] at hread
    · simp only [hc, if_false, List.mem_cons] at hread
      rcases hread with rfl | hread
      · exact ⟨hs, hcol c⟩
      · have h := hstep s hs (getCol c) (hcol c)
        cases hnext : tableAt table s (getCol c) with
        | none => simp [hnext] at hread
        | some next =>
          simp only [hnext, decide_eq_true_eq] at h hread
          by_cases hm : next = -1
          · simp [hm] at hread
          · simp only [hm, if_false] at hread
            exact ih next (h.resolve_left hm) read hread

/-- The tables of the model have the declared bounds: a read is defined exactly when its
row and its column are inside them. -/
theorem tableAt_isSome_iff (automaton : Automaton) (state col : Int) :
    (tableAt automaton.table state col).isSome
      ↔ 0 ≤ state ∧ state < automaton.bounds.1 ∧ 0 ≤ col ∧ col < automaton.bounds.2 := by
  have hrows : ∀ a : Automaton, (a.table.length : Int) = a.bounds.1
      ∧ ∀ row ∈ a.table, (row.length : Int) = a.bounds.2 := by
    intro a
    cases a <;> decide
  obtain ⟨hlen, hrow⟩ := hrows automaton
  unfold tableAt
  by_cases h0 : 0 ≤ state ∧ 0 ≤ col
  · simp only [h0, and_self, if_true]
    cases hget : automaton.table.get? state.toNat with
    | none =>
      have h1 := List.get?_eq_none.mp hget
      simp only [Option.isSome_none, Bool.false_eq_true, false_iff, not_and, not_lt]
      intro _ h2
      omega
    | some row =>
      obtain ⟨h1, -⟩ := List.get?_eq_some.mp hget
      have h2 := hrow row (List.get?_mem hget)
      simp only
      constructor
      · intro h3
        obtain ⟨v, hv⟩ := Option.isSome_iff_exists.mp h3
        obtain ⟨h4, -⟩ := List.get?_eq_some.mp hv
        refine ⟨trivial, ?_, trivial, ?_⟩ <;> omega
      · intro h3
        have h4 : col.toNat < row.length := by omega
        rw [List.get?_eq_get h4]
        rfl
  · simp only [h0, if_false, Option.isSome_none, Bool.false_eq_true, false_iff]
    intro h1
    exact h0 ⟨h1.1, h1.2.2.1⟩

/-- The reads of the identifier, number and operator automata on every string, and of the
punctuation automaton on a one-character string, are inside the tables. -/
theorem automaton_reads_in_bounds (automaton : Automaton) (s : List Char)
    (h : automaton = Automaton.punctuation → s.length = 1) :
    ∀ read ∈ automaton.reads s,
      0 ≤ read.1 ∧ read.1 < automaton.bounds.1 ∧ 0 ≤ read.2 ∧ read.2 < automaton.bounds.2 := by
  intro read hread
  cases automaton with
  | identifier =>
    have hmem := runFSMReads_closed identifierTable 4 getIdentifierCol [0, 1, 2, 3]
      [0, 1, 2, 3] getIdentifierCol_mem (by decide) s 0 (by simp) read hread
    exact (by decide : ∀ a ∈ [(0 : Int), 1, 2, 3], ∀ b ∈ [(0 : Int), 1, 2, 3],
      0 ≤ a ∧ a < 5 ∧ 0 ≤ b ∧ b < 4) read.1 hmem.1 read.2 hmem.2
  | number =>
    have hmem := runFSMReads_closed numberTable 6 getNumberCol [0, 1, 2, 3, 4, 5, 6, 7]
      [0, 1, 2, 3, 4] getNumberCol_mem (by decide) s 0 (by simp) read hread
    exact (by decide : ∀ a ∈ [(0 : Int), 1, 2, 3, 4, 5, 6, 7], ∀ b ∈ [(0 : Int), 1, 2, 3, 4],
      0 ≤ a ∧ a < 8 ∧ 0 ≤ b ∧ b < 5) read.1 hmem.1 read.2 hmem.2
  | operator =>
    have hmem := runFSMReads_closed operatorTable 13 getOperatorCol
      [0, 1, 2, 3, 4, 5, 6, 7, 8, 9, 10, 11, 12, 13]
      [0, 1, 2, 3, 4, 5, 6, 7, 8, 9, 10, 11, 12] getOperatorCol_mem (by decide) s 0
      (by simp) read hread
    exact (by decide : ∀ a ∈ [(0 : Int), 1, 2, 3, 4, 5, 6, 7, 8, 9, 10, 11, 12, 13],
      ∀ b ∈ [(0 : Int), 1, 2, 3, 4, 5, 6, 7, 8, 9, 10, 11, 12],
      0 ≤ a ∧ a < 14 ∧ 0 ≤ b ∧ b < 13) read.1 hmem.1 read.2 hmem.2
  | punctuation =>
    obtain ⟨c, rfl⟩ := List.length_eq_one.mp (h rfl)
    have hcol := getPunctuationCol_cases c
    have hcols := (by decide : ∀ b ∈ [(0 : Int), 1, 2, 3, 4, 5, 6],
      ¬ (b ≥ 7 ∨ b < 0) ∧ 0 ≤ b ∧ b < 7) _ hcol
    simp only [Automaton.reads, runFSMReads, hcols.1, if_false, List.mem_cons] at hread
    rcases hread with rfl | hread
    · exact ⟨le_refl _, by show (0 : Int) < 2; decide, hcols.2.1, hcols.2.2⟩
    · cases hnext : tableAt punctuationTable 0 (getPunctuationCol c) with
      | none => simp [hnext] at hread
      | some next =>
        by_cases hm : next = -1 <;> simp [hnext, hm] at hread

/-- C39: with the calls of the automata recorded, `processToken` returns on every candidate,
and every transition-table lookup `table[state][col]` of every run of `identifierFSM`,
`numberFSM`, `punctuationFSM` and `operatorFSM` that it makes, in the call and in its
recursive calls, has `state` and `col` inside the declared bounds of the table, so no run
is undefined; `punctuationFSM`, whose table stores the out-of-range state `-2`, is only
run on strings of one character.  The tables of the model have the declared bounds. -/
theorem processToken_reads_in_bounds (token : List Char) (lineNum : Nat) (st : Lexical) :
    (processTokenTraced token.length token lineNum st).1 = processToken token lineNum st
    ∧ (∃ st', processToken token lineNum st = some st')
    ∧ (∀ run ∈ (processTokenTraced token.length token lineNum st).2,
        (run.1 = Automaton.punctuation → run.2.length = 1)
        ∧ (∀ read ∈ run.1.reads run.2,
            0 ≤ read.1 ∧ read.1 < run.1.bounds.1 ∧ 0 ≤ read.2 ∧ read.2 < run.1.bounds.2)
        ∧ (run.1.run run.2).isSome)
    ∧ (∀ (automaton : Automaton) (state col : Int),
        (tableAt automaton.table state col).isSome
          ↔ 0 ≤ state ∧ state < automaton.bounds.1 ∧ 0 ≤ col ∧ col < automaton.bounds.2)
    ∧ tableAt punctuationTable 1 0 = some (-2) := by
  have hrun : ∀ (automaton : Automaton) (s : List Char),
      (automaton = Automaton.punctuation → s.length = 1) →
      (automaton = Automaton.punctuation → s.length = 1)
      ∧ (∀ read ∈ automaton.reads s,
          0 ≤ read.1 ∧ read.1 < automaton.bounds.1 ∧ 0 ≤ read.2
            ∧ read.2 < automaton.bounds.2)
      ∧ (automaton.run s).isSome := by
    intro automaton s h
    have hreads := automaton_reads_in_bounds automaton s h
    refine ⟨h, hreads, ?_⟩
    rw [← Option.ne_none_iff_isSome]
    intro hnone
    have hbad : ∃ read ∈ automaton.reads s,
        tableAt automaton.table read.1 read.2 = none := by
      cases automaton
      · exact (runFSM_eq_none_iff identifierTable 4 getIdentifierCol [3] s 0).mp hnone
      · exact (runFSM_eq_none_iff numberTable 6 getNumberCol [2, 4, 7] s 0).mp hnone
      · exact (runFSM_eq_none_iff punctuationTable 7 getPunctuationCol [1] s 0).mp hnone
      · exact (runFSM_eq_none_iff operatorTable 13 getOperatorCol [13, 6, 7, 8, 9, 12, 5] s
          0).mp hnone
    obtain ⟨read, hmem, hread⟩ := hbad
    have hsome := (tableAt_isSome_iff automaton read.1 read.2).mpr (hreads read hmem)
    rw [hread] at hsome
    exact absurd hsome (by simp)
  refine ⟨processTokenTraced_fst token.length token lineNum st, ?_, ?_, tableAt_isSome_iff,
    by decide⟩
  · by_cases hne : token = []
    · subst hne
      exact ⟨_, processToken_nil lineNum st⟩
    · obtain ⟨rows, hres, -⟩ := processToken_emits token lineNum st hne
      exact ⟨_, hres⟩
  · exact processTokenTraced_runs
      (fun run => (run.1 = Automaton.punctuation → run.2.length = 1)
        ∧ (∀ read ∈ run.1.reads run.2,
            0 ≤ read.1 ∧ read.1 < run.1.bounds.1 ∧ 0 ≤ read.2 ∧ read.2 < run.1.bounds.2)
        ∧ (run.1.run run.2).isSome)
      (fun s => hrun Automaton.identifier s (fun h => absurd h (by decide)))
      (fun s => hrun Automaton.number s (fun h => absurd h (by decide)))
      (fun s => hrun Automaton.operator s (fun h => absurd h (by decide)))
      (fun s hs => hrun Automaton.punctuation s (fun _ => hs))
      token.length token lineNum st

/-! ## C9: the language of the punctuation automaton -/

/-- One iteration of the loop of `runFSMInObject` that moves to a state other than `-1`. -/
theorem runFSMInObject_step (offset columns : Nat) (numColumns : Int) (getCol : Char → Int)
    (validStates : List Int) (c : Char) (rest : List Char) (state col next : Int)
    (hcol : getCol c = col) (hrange : ¬ (col ≥ numColumns ∨ col < 0))
    (hread : objectAt offset columns state col = some next) (hnext : next ≠ -1) :
    runFSMInObject (c :: rest) state offset columns numColumns getCol validStates
      = runFSMInObject rest next offset columns numColumns getCol validStates := by
  rw [runFSMInObject]
  simp only [hcol, hrange, if_false, hread, hnext]

/-- One iteration of the loop of `runFSMInObject` that reads `-1`. -/
theorem runFSMInObject_dead (offset columns : Nat) (numColumns : Int) (getCol : Char → Int)
    (validStates : List Int) (c : Char) (rest : List Char) (state col : Int)
    (hcol : getCol c = col) (hread : objectAt offset columns state col = some (-1)) :
    runFSMInObject (c :: rest) state offset columns numColumns getCol validStates
      = some (-1) := by
  rw [runFSMInObject]
  by_cases hrange : col ≥ numColumns ∨ col < 0
  · simp only [hcol, hrange, if_true]
  · simp only [hcol, hrange, if_false, hread, if_true]

/-- Inside its own rows a table read of the object is the read of the table. -/
theorem objectAt_punctuationTable :
    ∀ state ∈ [(0 : Int), 1], ∀ col ∈ [(0 : Int), 1, 2, 3, 4, 5, 6],
      objectAt 60 7 state col = tableAt punctuationTable state col := by
  decide

/-- Whenever the run of `punctuationFSM` makes no read outside its table, the run inside
the object is the same run. -/
theorem punctuationRun_in_object :
    ∀ (token : List Char) (state r : Int),
      runFSM token state punctuationTable 7 getPunctuationCol [1] = some r →
      runFSMInObject token state 60 7 7 getPunctuationCol [1] = some r := by
  intro token
  induction token with
  | nil =>
    intro state r h
    rw [runFSM] at h
    rw [runFSMInObject]
    exact h
  | cons c rest ih =>
    intro state r h
    rw [runFSM] at h
    rw [runFSMInObject]
    by_cases hrange : getPunctuationCol c ≥ 7 ∨ getPunctuationCol c < 0
    · simp only [hrange, if_true] at h ⊢
      exact h
    · simp only [hrange, if_false] at h ⊢
      cases hread : tableAt punctuationTable state (getPunctuationCol c) with
      | none => simp [hread] at h
      | some next =>
        have hsome : (tableAt Automaton.punctuation.table state
            (getPunctuationCol c)).isSome := by
          show (tableAt punctuationTable state (getPunctuationCol c)).isSome
          rw [hread]
          rfl
        have hbounds := (tableAt_isSome_iff Automaton.punctuation state
          (getPunctuationCol c)).mp hsome
        have hstate : state ∈ [(0 : Int), 1] := by
          have h1 : state < 2 := hbounds.2.1
          have h0 := hbounds.1
          have : state = 0 ∨ state = 1 := by omega
          simpa using this
        rw [objectAt_punctuationTable state hstate _ (getPunctuationCol_cases c), hread]
        simp only [hread] at h
        by_cases hnext : next = -1
        · simp only [hnext, if_true] at h ⊢
          exact h
        · simp only [hnext, if_false] at h ⊢
          exact ih next r h

/-- After a read outside its rows the run of the punctuation automaton moves among the
values -2, 6, 7 and 13, none of which is the accepting state, until it reads `-1`. -/
theorem punctuationRun_strayed :
    ∀ (token : List Char) (state : Int), state ∈ [(-2 : Int), 6, 7, 13] →
      runFSMInObject token state 60 7 7 getPunctuationCol [1] = some (-1) := by
  intro token
  induction token with
  | nil =>
    intro state hstate
    exact (by decide : ∀ state ∈ [(-2 : Int), 6, 7, 13],
      runFSMInObject [] state 60 7 7 getPunctuationCol [1] = some (-1)) state hstate
  | cons c rest ih =>
    intro state hstate
    have hstep := (by decide : ∀ state ∈ [(-2 : Int), 6, 7, 13],
      ∀ col ∈ [(0 : Int), 1, 2, 3, 4, 5, 6],
        ¬ (col ≥ 7 ∨ col < 0)
        ∧ ∃ next, objectAt 60 7 state col = some next
          ∧ (next = -1 ∨ next ∈ [(-2 : Int), 6, 7, 13]))
      state hstate (getPunctuationCol c) (getPunctuationCol_cases c)
    obtain ⟨hrange, next, hread, hnext⟩ := hstep
    by_cases hdead : next = -1
    · subst hdead
      exact runFSMInObject_dead _ _ _ _ _ c rest state _ rfl hread
    · rw [runFSMInObject_step _ _ _ _ _ c rest state _ next rfl hrange hread hdead]
      exact ih next (hnext.resolve_left hdead)

/-- The value of `punctuationFSM`, read inside the object, on every string. -/
theorem punctuationFSMInObject_eq (token : List Char) :
    punctuationFSMInObject token
      = some (if token.length = 1 ∧ ∀ c ∈ token, getPunctuationCol c ≤ 5 then 1 else -1) := by
  unfold punctuationFSMInObject
  cases token with
  | nil => rfl
  | cons c rest =>
    have hcol := getPunctuationCol_cases c
    by_cases hc : getPunctuationCol c ≤ 5
    · have hfirst := (by decide : ∀ col ∈ [(0 : Int), 1, 2, 3, 4, 5, 6], col ≤ 5 →
        ¬ (col ≥ 7 ∨ col < 0) ∧ objectAt 60 7 0 col = some 1) _ hcol hc
      rw [runFSMInObject_step _ _ _ _ _ c rest 0 _ 1 rfl hfirst.1 hfirst.2 (by decide)]
      cases rest with
      | nil => simp [runFSMInObject, hc]
      | cons d rest2 =>
        have hsecond := (by decide : ∀ col ∈ [(0 : Int), 1, 2, 3, 4, 5, 6],
          ¬ (col ≥ 7 ∨ col < 0) ∧ objectAt 60 7 1 col = some (-2)) _
          (getPunctuationCol_cases d)
        rw [runFSMInObject_step _ _ _ _ _ d rest2 1 _ (-2) rfl hsecond.1 hsecond.2
          (by decide), punctuationRun_strayed rest2 (-2) (by decide)]
        simp
    · have hsix : getPunctuationCol c = 6 := by
        simp only [List.mem_cons, List.mem_singleton, List.not_mem_nil, or_false] at hcol
        omega
      rw [runFSMInObject_dead _ _ _ _ _ c rest 0 6 hsix (by decide)]
      simp [hc]

theorem getPunctuationCol_le_five (c : Char) :
    getPunctuationCol c ≤ 5 ↔ c ∈ ['[', '\x7b', '<', '>', '\x7d', ']'] := by
  constructor
  · intro h
    by_contra hmem
    simp only [List.mem_cons, List.mem_singleton, List.not_mem_nil, or_false, not_or] at hmem
    obtain ⟨h0, h1, h2, h3, h4, h5⟩ := hmem
    simp [getPunctuationCol, h0, h1, h2, h3, h4, h5] at h
  · exact (by decide : ∀ c ∈ ['[', '\x7b', '<', '>', '\x7d', ']'],
      getPunctuationCol c ≤ 5) c

/-- C9: `punctuationFSM` accepts a string if and only if the string is exactly one character
long and that character is one of the six opening and closing brackets; every other string,
so every string with a following character, is rejected with `-1`.  On a string of at most
two characters all reads are inside `punctuationTable`.  From the third character on the
run reads the row `-2` that the table stores as its marker; that read is outside the
array, and in the object it lands in `numberTable` and later in `operatorTable`, where the
run only meets the values 6, 7, 13 and `-1`, none of them the accepting state. -/
theorem punctuationFSM_accepts_iff (token : List Char) :
    (accepts (punctuationFSMInObject token)
      ↔ ∃ c, token = [c] ∧ c ∈ ['[', '\x7b', '<', '>', '\x7d', ']'])
    ∧ ((¬ ∃ c, token = [c] ∧ c ∈ ['[', '\x7b', '<', '>', '\x7d', ']'])
      ↔ punctuationFSMInObject token = some (-1))
    ∧ (accepts (punctuationFSMInObject token) ↔ punctuationFSMInObject token = some 1)
    ∧ (token.length ≤ 2 → punctuationFSM token = punctuationFSMInObject token)
    ∧ (∀ r, punctuationFSM token = some r → punctuationFSMInObject token = some r)
    ∧ objectAt 60 7 (-2) 0 = tableAt numberTable 5 1 := by
  have hshape : (token.length = 1 ∧ ∀ c ∈ token, getPunctuationCol c ≤ 5)
      ↔ ∃ c, token = [c] ∧ c ∈ ['[', '\x7b', '<', '>', '\x7d', ']'] := by
    constructor
    · rintro ⟨hlen, hall⟩
      obtain ⟨c, rfl⟩ := List.length_eq_one.mp hlen
      exact ⟨c, rfl, (getPunctuationCol_le_five c).mp (hall c (List.mem_singleton.mpr rfl))⟩
    · rintro ⟨c, rfl, hc⟩
      refine ⟨rfl, ?_⟩
      intro d hd
      rw [List.mem_singleton] at hd
      rw [hd]
      exact (getPunctuationCol_le_five c).mpr hc
  have heq := punctuationFSMInObject_eq token
  have hlink : ∀ r, punctuationFSM token = some r → punctuationFSMInObject token = some r :=
    fun r h => punctuationRun_in_object token 0 r h
  refine ⟨?_, ?_, ?_, ?_, hlink, by decide⟩
  · rw [← hshape, heq, accepts_some_iff]
    by_cases h : token.length = 1 ∧ ∀ c ∈ token, getPunctuationCol c ≤ 5 <;> simp [h]
  · rw [← hshape, heq]
    by_cases h : token.length = 1 ∧ ∀ c ∈ token, getPunctuationCol c ≤ 5 <;> simp [h]
  · rw [heq, accepts_some_iff]
    by_cases h : token.length = 1 ∧ ∀ c ∈ token, getPunctuationCol c ≤ 5 <;> simp [h]
  · intro hlen
    have hsome : ∃ r, punctuationFSM token = some r := by
      rcases token with _ | ⟨c, _ | ⟨d, _ | ⟨e, rest⟩⟩⟩
      · exact ⟨_, rfl⟩
      · exact ⟨_, punctuationFSM_single c⟩
      · have hfirst := getPunctuationCol_cases c
        have hsecond := getPunctuationCol_cases d
        by_cases hc : getPunctuationCol c ≤ 5
        · have h1 := (by decide : ∀ col ∈ [(0 : Int), 1, 2, 3, 4, 5, 6], col ≤ 5 →
            ¬ (col ≥ 7 ∨ col < 0) ∧ tableAt punctuationTable 0 col = some 1) _ hfirst hc
          have h2 := (by decide : ∀ col ∈ [(0 : Int), 1, 2, 3, 4, 5, 6],
            ¬ (col ≥ 7 ∨ col < 0) ∧ tableAt punctuationTable 1 col = some (-2)) _ hsecond
          refine ⟨-1, ?_⟩
          unfold punctuationFSM
          rw [runFSM_step _ _ _ _ c _ 0 _ 1 rfl h1.1 h1.2 (by decide),
            runFSM_step _ _ _ _ d _ 1 _ (-2) rfl h2.1 h2.2 (by decide)]
          rfl
        · have hsix : getPunctuationCol c = 6 := by
            simp only [List.mem_cons, List.mem_singleton, List.not_mem_nil, or_false]
              at hfirst
            omega
          exact ⟨-1, runFSM_dead _ _ _ _ c _ 0 6 hsix (by decide)⟩
      · simp at hlen
    obtain ⟨r, hr⟩ := hsome
    rw [hr, hlink r hr]

end Lexical

namespace Synthetic

/-! ## Concrete grammars -/

/-- C12 (evaluation at the failing input): on the grammar `A -> A a | b` the function
`removeLeftRecursion` leaves `A` with `b A'` and gives `A'` the alternatives ` a A'` and `^`:
the empty production is written `^`, which is not the symbol `EPSILON` (`ε`) that
`buildParseTable` and `parseInput` treat as the empty production. -/
theorem removeLeftRecursion_writes_caret :
    loadGrammarFromFile "A ->A a|b".toList = [("A".toList, ["A a".toList, "b".toList])]
    ∧ removeLeftRecursion [("A".toList, ["A a".toList, "b".toList])]
        = [("A".toList, ["b A'".toList]), ("A'".toList, [" a A'".toList, "^".toList])]
    ∧ EPSILON ∉ mapGet (removeLeftRecursion [("A".toList, ["A a".toList, "b".toList])])
        "A'".toList
    ∧ "^".toList ≠ EPSILON := by
  decide

/-- C13 (evaluation at the failing input): loading the line `E -> E + T | T` keeps the blank
after `->` and around `|`, so both alternatives have the empty prefix; `analyzeGrammar`
left-factors them into `E -> E'`, `E' -> E + T | T`, finds no left recursion and returns
`true`.  The result is not `E -> T E'`, `E' -> + T E' | ε`. -/
theorem analyzeGrammar_expression_grammar :
    loadGrammarFromFile "E -> E + T | T".toList
      = [("E".toList, [" E + T ".toList, " T".toList])]
    ∧ hasLeftRecursion (loadGrammarFromFile "E -> E + T | T".toList) = false
    ∧ analyzeGrammar (loadGrammarFromFile "E -> E + T | T".toList)
      = ([("E".toList, [" E'".toList]), ("E'".toList, ["E + T".toList, "T".toList])],
          true) := by
  decide

/-- C14 (evaluation at the failing inputs): `hasLeftRecursion` tests whether the name of the
non-terminal is a string prefix of the alternative.  It returns `true` on `A -> Ab c`, whose
first symbol `Ab` is not `A`, and `false` on the grammar loaded from the line
`A -> A alpha | beta`, whose alternative ` A alpha ` starts with a blank. -/
theorem hasLeftRecursion_is_string_prefix_test :
    loadGrammarFromFile "A ->Ab c".toList = [("A".toList, ["Ab c".toList])]
    ∧ words "Ab c".toList = ["Ab".toList, "c".toList]
    ∧ hasLeftRecursion [("A".toList, ["Ab c".toList])] = true
    ∧ loadGrammarFromFile "A -> A alpha | beta".toList
      = [("A".toList, [" A alpha ".toList, " beta".toList])]
    ∧ hasLeftRecursion (loadGrammarFromFile "A -> A alpha | beta".toList) = false := by
  decide

/-- C15 (evaluation at the failing input): on `A -> a B | a C | b D | b E` the function
`removeLeftFactoring` names the fresh non-terminal of both groups `A'`, so the remainders of
the two groups are merged: `A -> a A' | b A'`, `A' -> B | C | D | E`. -/
theorem removeLeftFactoring_merges_groups :
    loadGrammarFromFile "A ->a B|a C|b D|b E".toList
      = [("A".toList, ["a B".toList, "a C".toList, "b D".toList, "b E".toList])]
    ∧ removeLeftFactoring
        [("A".toList, ["a B".toList, "a C".toList, "b D".toList, "b E".toList])]
      = [("A".toList, ["a A'".toList, "b A'".toList]),
         ("A'".toList, ["B".toList, "C".toList, "D".toList, "E".toList])] := by
  decide

/-- C17 (evaluation at the failing input): on the grammar loaded from the line
`A ->A x|A|c`, `analyzeGrammar` returns `true` although `hasLeftFactoring` holds on the
grammar it leaves behind: `leftFactoringFound` is computed before the left-recursion pass,
which adds ` A' A'` to `A' -> x | (empty)`, a second alternative with the empty prefix. -/
theorem analyzeGrammar_stale_factoring_flag :
    analyzeGrammar (loadGrammarFromFile "A ->A x|A|c".toList)
      = ([("A".toList, ["c A'".toList]),
          ("A'".toList, ["x".toList, [], " A' A'".toList, "^".toList])], true)
    ∧ hasLeftFactoring (analyzeGrammar (loadGrammarFromFile "A ->A x|A|c".toList)).1
      = true := by
  decide

/-- C18 (evaluation at the failing input): for `S -> A b`, `A -> ε` (a grammar that
`analyzeGrammar` accepts unchanged) `computeFirstAndFollow` gives `FIRST(A) = {ε}` and
`FIRST(S) = {ε}`: `computeFirst` takes `ε` for a terminal and only the string `NULL` for the
empty symbol, so `b` is not in `FIRST(S)` and `ε` is. -/
theorem computeFirst_epsilon_is_terminal :
    analyzeGrammar (loadGrammarFromFile "S -> A b\nA -> ε".toList)
      = (loadGrammarFromFile "S -> A b\nA -> ε".toList, true)
    ∧ ∃ firstSets followSets,
        computeFirstAndFollow (loadGrammarFromFile "S -> A b\nA -> ε".toList)
          = some (firstSets, followSets)
        ∧ mapGet firstSets "A".toList = [EPSILON]
        ∧ mapGet firstSets "S".toList = [EPSILON]
        ∧ "b".toList ∉ mapGet firstSets "S".toList :=
  ⟨by decide, _, _, rfl, by decide, by decide, by decide⟩

/-- C19 (evaluation at the failing input): for `S -> A B`, `A -> a`, `B -> b | ε` (a grammar
that `analyzeGrammar` accepts unchanged) `computeFirstAndFollow` gives
`FOLLOW(A) = {b, ε}`: `computeFollow` erases the string `NULL` from the FIRST set it copies,
not the symbol `ε`. -/
theorem computeFollow_keeps_epsilon :
    analyzeGrammar (loadGrammarFromFile "S -> A B\nA -> a\nB ->b|ε".toList)
      = (loadGrammarFromFile "S -> A B\nA -> a\nB ->b|ε".toList, true)
    ∧ ∃ firstSets followSets,
        computeFirstAndFollow (loadGrammarFromFile "S -> A B\nA -> a\nB ->b|ε".toList)
          = some (firstSets, followSets)
        ∧ mapGet firstSets "B".toList = ["b".toList, EPSILON]
        ∧ mapGet followSets "A".toList = ["b".toList, EPSILON]
        ∧ EPSILON ∈ mapGet followSets "A".toList :=
  ⟨by decide, _, _, rfl, by decide, by decide, by decide⟩

/-- C20 (evaluation at the failing input): for the grammar `A -> a`, `S -> A b`, whose
container iterates `A` first, `computeFollow` puts `$` into `FOLLOW(A)` (it takes
`grammar.begin()->first` for the start symbol) and `FOLLOW(S)` stays empty, whatever start
symbol the parser is run with. -/
theorem computeFollow_end_marker_goes_to_first_key :
    analyzeGrammar (loadGrammarFromFile "A -> a\nS -> A b".toList)
      = (loadGrammarFromFile "A -> a\nS -> A b".toList, true)
    ∧ ∃ firstSets followSets,
        computeFirstAndFollow (loadGrammarFromFile "A -> a\nS -> A b".toList)
          = some (firstSets, followSets)
        ∧ mapGet followSets "A".toList = ["$".toList, "b".toList]
        ∧ mapGet followSets "S".toList = []
        ∧ "$".toList ∉ mapGet followSets "S".toList :=
  ⟨by decide, _, _, rfl, by decide, by decide, by decide⟩

end Synthetic

namespace Synthetic

/-! ## Sets and maps -/

theorem mem_setInsert (s : StrSet) (x y : List Char) :
    y ∈ setInsert s x ↔ y ∈ s ∨ y = x := by
  unfold setInsert
  by_cases h : x ∈ s
  · simp only [h, if_true]
    constructor
    · exact Or.inl
    · rintro (h1 | rfl)
      · exact h1
      · exact h
  · simp [h]

theorem mem_foldl_setInsert (l : List (List Char)) :
    ∀ (s : StrSet) (y : List Char), y ∈ l.foldl setInsert s ↔ y ∈ s ∨ y ∈ l := by
  induction l with
  | nil => intro s y; simp
  | cons x l ih =>
    intro s y
    rw [List.foldl_cons, ih, mem_setInsert, List.mem_cons]
    tauto

/-! ## Splitting a right-hand side -/

theorem splitLoop_other (c : Char) (rest current : List Char) (result : StrSet)
    (hc : c ≠ '|') :
    splitLoop (c :: rest) current result = splitLoop rest (current ++ [c]) result := by
  cases rest <;> simp [splitLoop, hc]

theorem splitLoop_double (rest current : List Char) (result : StrSet) :
    splitLoop ('|' :: '|' :: rest) current result
      = splitLoop rest (current ++ ['|', '|']) result := by
  simp [splitLoop]

theorem splitLoop_single (rest current : List Char) (result : StrSet)
    (hrest : rest.head? ≠ some '|') :
    splitLoop ('|' :: rest) current result
      = splitLoop rest [] (if current ≠ [] then setInsert result current else result) := by
  cases rest with
  | nil => by_cases h : current = [] <;> simp [splitLoop, h]
  | cons d rest2 =>
    have hd : d ≠ '|' := by simpa using hrest
    by_cases h : current = [] <;> simp [splitLoop, h, hd]

theorem pairedPipes_other (c : Char) (rest : List Char) (hc : c ≠ '|') :
    pairedPipes (c :: rest) = pairedPipes rest := by
  cases rest <;> simp [pairedPipes, hc]

theorem pairedPipes_double (rest : List Char) :
    pairedPipes ('|' :: '|' :: rest) = pairedPipes rest := by
  simp [pairedPipes]

theorem pairedPipes_append (a b : List Char) (ha : pairedPipes a = true) :
    pairedPipes (a ++ b) = pairedPipes b := by
  generalize hn : a.length = n
  induction n using Nat.strong_induction_on generalizing a with
  | _ n ih =>
    match a, ha, hn with
    | [], _, _ => rfl
    | c :: rest, ha, hn =>
      by_cases hc : c = '|'
      · subst hc
        match rest, ha, hn with
        | [], ha, _ => simp [pairedPipes] at ha
        | d :: rest2, ha, hn =>
          have hd : d = '|' := by
            by_contra hd
            simp [pairedPipes, hd] at ha
          subst hd
          rw [pairedPipes_double] at ha
          rw [List.cons_append, List.cons_append, pairedPipes_double]
          exact ih rest2.length (by simp at hn; omega) rest2 ha rfl
      · rw [pairedPipes_other c rest hc] at ha
        rw [List.cons_append, pairedPipes_other c _ hc]
        exact ih rest.length (by simp at hn; omega) rest ha rfl

/-- Whatever the right-hand side, the alternatives that `splitLoop` adds are not empty and
contain no lone `|`. -/
theorem splitLoop_paired (rest : List Char) :
    ∀ (current : List Char) (result : StrSet), pairedPipes current = true →
      (∀ a ∈ result, a ≠ [] ∧ pairedPipes a = true) →
      ∀ a ∈ splitLoop rest current result, a ≠ [] ∧ pairedPipes a = true := by
  generalize hn : rest.length = n
  induction n using Nat.strong_induction_on generalizing rest with
  | _ n ih =>
    intro current result hcur hres
    have hins : ∀ a ∈ (if current ≠ [] then setInsert result current else result),
        a ≠ [] ∧ pairedPipes a = true := by
      intro a ha
      by_cases hne : current = []
      · simp only [hne, ne_eq, not_true_eq_false, if_false] at ha
        exact hres a ha
      · simp only [hne, ne_eq, not_false_eq_true, if_true] at ha
        rcases (mem_setInsert _ _ _).mp ha with h | rfl
        · exact hres a h
        · exact ⟨hne, hcur⟩
    match rest, hn with
    | [], _ =>
      rw [splitLoop]
      exact hins
    | c :: rest1, hn =>
      by_cases hc : c = '|'
      · subst hc
        by_cases hd : rest1.head? = some '|'
        · obtain ⟨rest2, rfl⟩ : ∃ rest2, rest1 = '|' :: rest2 := by
            cases rest1 with
            | nil => simp at hd
            | cons d rest2 => exact ⟨rest2, by simp at hd; rw [hd]⟩
          rw [splitLoop_double]
          exact ih rest2.length (by simp at hn; omega) rest2 rfl _ result
            (by rw [pairedPipes_append _ _ hcur]; decide) hres
        · rw [splitLoop_single _ _ _ hd]
          exact ih rest1.length (by simp at hn; omega) rest1 rfl [] _ rfl hins
      · rw [splitLoop_other c _ _ _ hc]
        exact ih rest1.length (by simp at hn; omega) rest1 rfl _ result
          (by rw [pairedPipes_append _ _ hcur, pairedPipes_other c [] hc]; rfl) hres

theorem piecesFrom_nil (before : Option Char) : piecesFrom before [] = [[]] := by
  simp [piecesFrom, markSingles]

theorem piecesFrom_ne_nil (before : Option Char) (s : List Char) :
    piecesFrom before s ≠ [] := by
  simp [piecesFrom, List.splitOnP_ne_nil]

theorem piecesFrom_single (before : Option Char) (rest : List Char)
    (hb : before ≠ some '|') (hrest : rest.head? ≠ some '|') :
    piecesFrom before ('|' :: rest) = [] :: piecesFrom (some '|') rest := by
  simp [piecesFrom, markSingles, List.splitOnP_cons, hb, hrest]

theorem map_modifyHead_cons (m : Char × Bool) (l : List (List (Char × Bool))) :
    (l.modifyHead (List.cons m)).map (fun piece => piece.map fun m => m.1)
      = (l.map fun piece => piece.map fun m => m.1).modifyHead (List.cons m.1) := by
  cases l <;> simp

theorem piecesFrom_other (before : Option Char) (c : Char) (rest : List Char)
    (h : ¬ (c = '|' ∧ before ≠ some '|' ∧ rest.head? ≠ some '|')) :
    piecesFrom before (c :: rest)
      = (piecesFrom (some c) rest).modifyHead (List.cons c) := by
  simp only [piecesFrom, markSingles, List.splitOnP_cons, h, decide_False, if_false,
    Bool.false_eq_true]
  exact map_modifyHead_cons _ _

theorem no_triple_tail {c : Char} {rest : List Char}
    (h : ¬ ['|', '|', '|'] <:+: c :: rest) : ¬ ['|', '|', '|'] <:+: rest :=
  fun h1 => h (List.infix_cons h1)

theorem no_triple_head {rest : List Char}
    (h : ¬ ['|', '|', '|'] <:+: '|' :: '|' :: rest) : rest.head? ≠ some '|' := by
  intro h1
  cases rest with
  | nil => simp at h1
  | cons d rest2 =>
    simp only [List.head?_cons, Option.some.injEq] at h1
    subst h1
    exact h (List.IsPrefix.isInfix ⟨rest2, rfl⟩)

/-- On a right-hand side without three consecutive pipes, `splitLoop` adds to `result` the
non-empty pieces between the single pipes of what remains, the first piece continuing
`current`. -/
theorem splitLoop_eq_pieces (rest : List Char) :
    ∀ (before : Option Char) (current : List Char) (result : StrSet),
      (before = some '|' → rest.head? ≠ some '|') → ¬ ['|', '|', '|'] <:+: rest →
      splitLoop rest current result
        = (((piecesFrom before rest).modifyHead fun piece => current ++ piece).filter
            fun piece => piece ≠ []).foldl setInsert result := by
  generalize hn : rest.length = n
  induction n using Nat.strong_induction_on generalizing rest with
  | _ n ih =>
    intro before current result hb h3
    match rest, hn with
    | [], _ =>
      rw [splitLoop, piecesFrom_nil]
      by_cases hne : current = [] <;> simp [hne]
    | c :: rest1, hn =>
      by_cases hc : c = '|'
      · subst hc
        have hbefore : before ≠ some '|' := fun hb1 => hb hb1 (by simp)
        by_cases hd : rest1.head? = some '|'
        · obtain ⟨rest2, rfl⟩ : ∃ rest2, rest1 = '|' :: rest2 := by
            cases rest1 with
            | nil => simp at hd
            | cons d rest2 => exact ⟨rest2, by simp at hd; rw [hd]⟩
          rw [splitLoop_double,
            ih rest2.length (by simp at hn; omega) rest2 rfl (some '|') _ result
              (fun _ => no_triple_head h3) (no_triple_tail (no_triple_tail h3)),
            piecesFrom_other before '|' _ (by simp),
            piecesFrom_other (some '|') '|' _ (by simp),
            List.modifyHead_modifyHead, List.modifyHead_modifyHead]
          congr 3
          funext piece
          simp
        · rw [splitLoop_single _ _ _ hd,
            ih rest1.length (by simp at hn; omega) rest1 rfl (some '|') [] _
              (fun _ => hd) (no_triple_tail h3),
            piecesFrom_single before rest1 hbefore hd]
          have hid : (fun piece : List Char => [] ++ piece) = id := by funext piece; simp
          rw [hid, List.modifyHead_id]
          by_cases hne : current = [] <;> simp [hne]
      · rw [splitLoop_other c _ _ _ hc,
          ih rest1.length (by simp at hn; omega) rest1 rfl (some c) _ result
            (fun h => absurd (Option.some.inj h) hc) (no_triple_tail h3),
          piecesFrom_other before c _ (by simp [hc]), List.modifyHead_modifyHead]
        congr 3
        funext piece
        simp

/-- The pieces of `piecesFrom`, put together with one `|` between two pieces, are the
string. -/
theorem intercalate_piecesFrom (s : List Char) :
    ∀ before : Option Char, List.intercalate ['|'] (piecesFrom before s) = s := by
  induction s with
  | nil => intro before; simp [piecesFrom_nil, List.intercalate]
  | cons c rest ih =>
    intro before
    have hrest := ih (some c)
    obtain ⟨piece, pieces, hp⟩ : ∃ piece pieces, piecesFrom (some c) rest = piece :: pieces :=
      List.exists_cons_of_ne_nil (piecesFrom_ne_nil _ _)
    by_cases h : c = '|' ∧ before ≠ some '|' ∧ rest.head? ≠ some '|'
    · obtain ⟨rfl, hb, hr⟩ := h
      rw [piecesFrom_single before rest hb hr, hp]
      rw [hp] at hrest
      simpa [List.intercalate, List.intersperse] using hrest
    · rw [piecesFrom_other before c rest h, hp]
      rw [hp] at hrest
      cases pieces with
      | nil => simpa [List.intercalate, List.intersperse] using hrest
      | cons piece2 pieces2 => simpa [List.intercalate, List.intersperse] using hrest

/-- C11: on a right-hand side whose pipes are single or doubled (no three consecutive
pipes), `splitProductions` returns exactly the non-empty pieces between the single pipes:
it splits at every single `|` and never at a doubled `||`.  The pieces, put together with one
`|` between two of them, are the right-hand side, so every `||` of the input is inside one
piece; and no returned alternative contains a lone `|`. -/
theorem splitProductions_single_pipes (production : List Char)
    (h : ¬ "|||".toList <:+: production) :
    (∀ alt, alt ∈ splitProductions production
        ↔ alt ≠ [] ∧ alt ∈ splitAtSinglePipes production)
    ∧ List.intercalate "|".toList (splitAtSinglePipes production) = production
    ∧ ∀ alt ∈ splitProductions production, pairedPipes alt = true := by
  refine ⟨?_, intercalate_piecesFrom production none, ?_⟩
  · intro alt
    have hloop := splitLoop_eq_pieces production none [] [] (by simp) h
    have hid : (fun piece : List Char => [] ++ piece) = id := by funext piece; simp
    rw [hid, List.modifyHead_id] at hloop
    rw [splitProductions, hloop, mem_foldl_setInsert, splitAtSinglePipes]
    simp only [List.not_mem_nil, false_or, id_eq, List.mem_filter, decide_eq_true_eq]
    tauto
  · intro alt halt
    exact (splitLoop_paired production [] [] rfl (by simp) alt halt).2

/-- C11 (witness): the right-hand side ` α | β || γ` of the doc comment has no three
consecutive pipes. -/
theorem splitProductions_single_pipes_witness :
    ¬ "|||".toList <:+: " α | β || γ".toList
    ∧ (∀ alt, alt ∈ splitProductions " α | β || γ".toList
        ↔ alt ≠ [] ∧ alt ∈ splitAtSinglePipes " α | β || γ".toList)
    ∧ List.intercalate "|".toList (splitAtSinglePipes " α | β || γ".toList)
        = " α | β || γ".toList
    ∧ ∀ alt ∈ splitProductions " α | β || γ".toList, pairedPipes alt = true :=
  ⟨by decide, splitProductions_single_pipes " α | β || γ".toList (by decide)⟩

/-- The two notions of C11 on the right-hand side of the doc comment. -/
theorem splitProductions_example :
    splitProductions " α | β || γ".toList = [" α ".toList, " β || γ".toList]
    ∧ splitAtSinglePipes " α | β || γ".toList = [" α ".toList, " β || γ".toList] := by
  decide

/-- C11 (counterexample): on `a|||b` no pipe is single, yet `splitProductions` splits: it
pairs the pipes from the left, keeps the first two as `||` and takes the third one, which
stands next to a pipe, for a separator.  The alternatives are `a||` and `b`, and the `||`
made of the second and the third pipe is in none of them. -/
theorem splitProductions_pairs_pipes_from_the_left :
    splitProductions "a|||b".toList = ["a||".toList, "b".toList]
    ∧ splitAtSinglePipes "a|||b".toList = ["a|||b".toList]
    ∧ ¬ (∀ alt, alt ∈ splitProductions "a|||b".toList
          ↔ alt ≠ [] ∧ alt ∈ splitAtSinglePipes "a|||b".toList)
    ∧ "||b".toList <:+: "a|||b".toList
    ∧ ∀ alt ∈ splitProductions "a|||b".toList, ¬ "||b".toList <:+: alt := by
  refine ⟨by decide, by decide, fun h => ?_, by decide, by decide⟩
  exact absurd ((h "b".toList).mp (by decide)).2 (by decide)

/-! ## Reading and writing a map -/

theorem mapGet_nil (key : List Char) : mapGet [] key = [] := rfl

theorem mapGet_cons (k : List Char) (v : StrSet) (m : StrMap) (key : List Char) :
    mapGet ((k, v) :: m) key = if key = k then v else mapGet m key := by
  by_cases h : key = k
  · subst h
    simp [mapGet, List.lookup]
  · have hb : (key == k) = false := by simpa using h
    simp [mapGet, List.lookup, hb, h]

theorem mapGet_of_not_mem (m : StrMap) (key : List Char)
    (h : key ∉ m.map Prod.fst) : mapGet m key = [] := by
  induction m with
  | nil => rfl
  | cons e m ih =>
    obtain ⟨k, v⟩ := e
    simp only [List.map_cons, List.mem_cons, not_or] at h
    rw [mapGet_cons, if_neg h.1, ih h.2]

theorem mapGet_mapSet_same (m : StrMap) (key : List Char) (value : StrSet) :
    mapGet (mapSet m key value) key = value := by
  induction m with
  | nil => simp [mapSet, mapGet_cons]
  | cons e m ih =>
    obtain ⟨k, v⟩ := e
    by_cases h : k = key
    · simp [mapSet, h, mapGet_cons]
    · have h2 : ¬ key = k := fun h1 => h h1.symm
      simp [mapSet, h, mapGet_cons, h2, ih]

theorem mapGet_mapSet_other (m : StrMap) (key other : List Char) (value : StrSet)
    (hne : other ≠ key) : mapGet (mapSet m key value) other = mapGet m other := by
  induction m with
  | nil => simp [mapSet, mapGet_cons, hne, mapGet_nil]
  | cons e m ih =>
    obtain ⟨k, v⟩ := e
    by_cases h : k = key
    · subst h
      simp [mapSet, mapGet_cons, hne]
    · simp [mapSet, h, mapGet_cons, ih]

theorem mapGet_mapAdd_same (m : StrMap) (key x : List Char) :
    mapGet (mapAdd m key x) key = setInsert (mapGet m key) x :=
  mapGet_mapSet_same _ _ _

theorem mapGet_mapAdd_other (m : StrMap) (key other x : List Char) (hne : other ≠ key) :
    mapGet (mapAdd m key x) other = mapGet m other :=
  mapGet_mapSet_other _ _ _ _ hne

theorem keys_mapSet (m : StrMap) (key : List Char) (value : StrSet) :
    (mapSet m key value).map Prod.fst
      = if key ∈ m.map Prod.fst then m.map Prod.fst else m.map Prod.fst ++ [key] := by
  induction m with
  | nil => simp [mapSet]
  | cons e m ih =>
    obtain ⟨k, v⟩ := e
    by_cases h : k = key
    · subst h
      simp [mapSet]
    · have h2 : ¬ key = k := fun h1 => h h1.symm
      simp only [mapSet, h, if_false, List.map_cons, ih, List.mem_cons, h2, false_or]
      split <;> simp

theorem mem_mapSet (m : StrMap) (key : List Char) (value : StrSet)
    (hnd : (m.map Prod.fst).Nodup) (e : List Char × StrSet) :
    e ∈ mapSet m key value ↔ (e ∈ m ∧ e.1 ≠ key) ∨ e = (key, value) := by
  induction m with
  | nil => simp [mapSet]
  | cons e1 m ih =>
    obtain ⟨k, v⟩ := e1
    simp only [List.map_cons, List.nodup_cons] at hnd
    by_cases h : k = key
    · subst h
      simp only [mapSet, if_true, List.mem_cons]
      constructor
      · rintro (rfl | h1)
        · exact Or.inr rfl
        · refine Or.inl ⟨Or.inr h1, ?_⟩
          rintro rfl
          exact hnd.1 (List.mem_map_of_mem Prod.fst h1)
      · rintro (⟨h1 | h1, h2⟩ | rfl)
        · subst h1
          exact absurd rfl h2
        · exact Or.inr h1
        · exact Or.inl rfl
    · simp only [mapSet, h, if_false, List.mem_cons, ih hnd.2]
      constructor
      · rintro (rfl | ⟨h1, h2⟩ | rfl)
        · exact Or.inl ⟨Or.inl rfl, h⟩
        · exact Or.inl ⟨Or.inr h1, h2⟩
        · exact Or.inr rfl
      · rintro (⟨rfl | h1, h2⟩ | rfl)
        · exact Or.inl rfl
        · exact Or.inr (Or.inl ⟨h1, h2⟩)
        · exact Or.inr (Or.inr rfl)

theorem mapGet_of_mem (m : StrMap) (hnd : (m.map Prod.fst).Nodup) (key : List Char)
    (value : StrSet) (h : (key, value) ∈ m) : mapGet m key = value := by
  induction m with
  | nil => simp at h
  | cons e1 m ih =>
    obtain ⟨k, v⟩ := e1
    simp only [List.map_cons, List.nodup_cons] at hnd
    rw [mapGet_cons]
    rcases List.mem_cons.mp h with h1 | h1
    · simp only [Prod.mk.injEq] at h1
      simp [h1.1, h1.2]
    · have hne : key ≠ k := by
        rintro rfl
        exact hnd.1 (List.mem_map_of_mem Prod.fst h1)
      rw [if_neg hne]
      exact ih hnd.2 h1

theorem nodup_setInsert (s : StrSet) (x : List Char) (h : s.Nodup) :
    (setInsert s x).Nodup := by
  unfold setInsert
  by_cases hx : x ∈ s
  · simpa [hx] using h
  · simp only [hx, if_false]
    exact List.Nodup.append h (List.nodup_singleton x) (by simpa using hx)

/-! ## Left factoring -/

theorem take_findIdx_eq_takeWhile (q : Char → Bool) (s : List Char) :
    (match s.findIdx? q with
      | none => s
      | some pos => s.take pos) = s.takeWhile fun c => !q c := by
  induction s with
  | nil => simp
  | cons c rest ih =>
    rw [List.findIdx?_cons]
    by_cases hc : q c = true
    · simp [hc]
    · simp only [hc, if_false, Bool.false_eq_true, zero_add, List.findIdx?_succ]
      rw [List.takeWhile_cons]
      simp only [hc, Bool.not_false, if_true, Bool.false_eq_true]
      rw [← ih]
      cases rest.findIdx? q <;> simp

theorem prefixOf_eq_firstSymbol (prod : List Char) : prefixOf prod = firstSymbol prod := by
  have h := take_findIdx_eq_takeWhile (fun c => decide (c = ' ')) prod
  unfold prefixOf findChar firstSymbol
  rw [h]
  congr 1
  funext c
  simp

theorem firstSymbol_no_blank (alt : List Char) : ' ' ∉ firstSymbol alt := by
  intro h
  have := List.mem_takeWhile_imp h
  simp at this

theorem firstSymbol_append_blank (x rest : List Char) (hx : ' ' ∉ x) :
    firstSymbol (x ++ " ".toList ++ rest) = x := by
  induction x with
  | nil => simp [firstSymbol]
  | cons c x ih =>
    simp only [List.mem_cons, not_or] at hx
    have hc : c ≠ ' ' := fun h => hx.1 h.symm
    have := ih hx.2
    simp only [firstSymbol, List.cons_append, List.takeWhile_cons, hc, ne_eq,
      not_false_eq_true, decide_True, if_true, List.cons.injEq, true_and] at this ⊢
    exact this

/-- One step of the loop that builds `prefixMap`. -/
theorem groupStep_inv (pm : StrMap) (processed : List (List Char)) (prod : List Char)
    (hnd : (pm.map Prod.fst).Nodup)
    (hgrp : ∀ e ∈ pm, e.2 ≠ [] ∧ e.2.Nodup
      ∧ ∀ p, p ∈ e.2 ↔ p ∈ processed ∧ prefixOf p = e.1)
    (hkey : ∀ p ∈ processed, prefixOf p ∈ pm.map Prod.fst) :
    ((mapAdd pm (prefixOf prod) prod).map Prod.fst).Nodup
    ∧ (∀ e ∈ mapAdd pm (prefixOf prod) prod, e.2 ≠ [] ∧ e.2.Nodup
        ∧ ∀ p, p ∈ e.2 ↔ (p ∈ processed ∨ p = prod) ∧ prefixOf p = e.1)
    ∧ ∀ p, p ∈ processed ∨ p = prod →
        prefixOf p ∈ (mapAdd pm (prefixOf prod) prod).map Prod.fst := by
  have hkeys := keys_mapSet pm (prefixOf prod) (setInsert (mapGet pm (prefixOf prod)) prod)
  have hold : ∀ p, p ∈ mapGet pm (prefixOf prod)
      ↔ p ∈ processed ∧ prefixOf p = prefixOf prod := by
    intro p
    by_cases hin : prefixOf prod ∈ pm.map Prod.fst
    · obtain ⟨e, he, hek⟩ := List.mem_map.mp hin
      obtain ⟨k, grp⟩ := e
      simp only at hek
      subst hek
      rw [mapGet_of_mem pm hnd _ grp he]
      exact (hgrp _ he).2.2 p
    · rw [mapGet_of_not_mem pm _ hin]
      simp only [List.not_mem_nil, false_iff, not_and]
      intro hp hpre
      exact hin (hpre ▸ hkey p hp)
  have holdnd : (mapGet pm (prefixOf prod)).Nodup := by
    by_cases hin : prefixOf prod ∈ pm.map Prod.fst
    · obtain ⟨e, he, hek⟩ := List.mem_map.mp hin
      obtain ⟨k, grp⟩ := e
      simp only at hek
      subst hek
      rw [mapGet_of_mem pm hnd _ grp he]
      exact (hgrp _ he).2.1
    · rw [mapGet_of_not_mem pm _ hin]
      exact List.nodup_nil
  refine ⟨?_, ?_, ?_⟩
  · unfold mapAdd
    rw [hkeys]
    by_cases hin : prefixOf prod ∈ pm.map Prod.fst
    · simpa [hin] using hnd
    · simp only [hin, if_false]
      exact List.Nodup.append hnd (List.nodup_singleton _) (by simpa using hin)
  · intro e he
    rcases (mem_mapSet pm _ _ hnd e).mp he with ⟨hmem, hne⟩ | rfl
    · obtain ⟨h1, h2, h3⟩ := hgrp e hmem
      refine ⟨h1, h2, fun p => ?_⟩
      rw [h3 p]
      constructor
      · rintro ⟨hp, hpre⟩
        exact ⟨Or.inl hp, hpre⟩
      · rintro ⟨hp | rfl, hpre⟩
        · exact ⟨hp, hpre⟩
        · exact absurd hpre.symm hne
    · refine ⟨?_, nodup_setInsert _ _ holdnd, fun p => ?_⟩
      · intro hempty
        have : prod ∈ setInsert (mapGet pm (prefixOf prod)) prod :=
          (mem_setInsert _ _ _).mpr (Or.inr rfl)
        simp only at hempty
        rw [hempty] at this
        simp at this
      · simp only
        rw [mem_setInsert, hold p]
        constructor
        · rintro (⟨hp, hpre⟩ | rfl)
          · exact ⟨Or.inl hp, hpre⟩
          · exact ⟨Or.inr rfl, rfl⟩
        · rintro ⟨hp | rfl, hpre⟩
          · exact Or.inl ⟨hp, hpre⟩
          · exact Or.inr rfl
  · intro p hp
    unfold mapAdd
    rw [hkeys]
    rcases hp with hp | rfl
    · have := hkey p hp
      split
      · exact this
      · exact List.mem_append_left _ this
    · split
      · assumption
      · simp

/-- The map `prefixMap`: its keys are distinct and every group is the non-empty set of the
productions with the prefix that is its key. -/
theorem groupByPrefix_inv (l : List (List Char)) :
    ∀ (pm : StrMap) (processed : List (List Char)),
      (pm.map Prod.fst).Nodup →
      (∀ e ∈ pm, e.2 ≠ [] ∧ e.2.Nodup ∧ ∀ p, p ∈ e.2 ↔ p ∈ processed ∧ prefixOf p = e.1) →
      (∀ p ∈ processed, prefixOf p ∈ pm.map Prod.fst) →
      ((l.foldl (fun pm prod => mapAdd pm (prefixOf prod) prod) pm).map Prod.fst).Nodup
      ∧ (∀ e ∈ l.foldl (fun pm prod => mapAdd pm (prefixOf prod) prod) pm,
          e.2 ≠ [] ∧ e.2.Nodup
          ∧ ∀ p, p ∈ e.2 ↔ (p ∈ processed ∨ p ∈ l) ∧ prefixOf p = e.1)
      ∧ ∀ p, p ∈ processed ∨ p ∈ l →
          prefixOf p
            ∈ (l.foldl (fun pm prod => mapAdd pm (prefixOf prod) prod) pm).map Prod.fst := by
  induction l with
  | nil =>
    intro pm processed hnd hgrp hkey
    refine ⟨hnd, ?_, ?_⟩
    · intro e he
      simpa using hgrp e he
    · intro p hp
      simpa using hkey p (by simpa using hp)
  | cons prod l ih =>
    intro pm processed hnd hgrp hkey
    obtain ⟨h1, h2, h3⟩ := groupStep_inv pm processed prod hnd hgrp hkey
    obtain ⟨i1, i2, i3⟩ := ih (mapAdd pm (prefixOf prod) prod) (processed ++ [prod]) h1
      (by
        intro e he
        obtain ⟨a, b, c⟩ := h2 e he
        exact ⟨a, b, fun p => by rw [c p]; simp⟩)
      (by
        intro p hp
        exact h3 p (by simpa using hp))
    refine ⟨i1, ?_, ?_⟩
    · intro e he
      obtain ⟨a, b, c⟩ := i2 e he
      refine ⟨a, b, fun p => ?_⟩
      rw [c p]
      simp only [List.mem_append, List.mem_singleton, List.mem_cons]
      tauto
    · intro p hp
      apply i3 p
      simp only [List.mem_append, List.mem_singleton, List.mem_cons] at hp ⊢
      tauto

theorem ne_primed (nonTerminal : List Char) : nonTerminal ≠ nonTerminal ++ "'".toList := by
  intro h
  have := congrArg List.length h
  simp at this

theorem primed_injective {a b : List Char} (h : a ++ "'".toList = b ++ "'".toList) :
    a = b :=
  List.append_cancel_right h

/-- The inner loop of `removeLeftFactoring` that gives the remainders of a group to the
fresh non-terminal. -/
theorem addRemainders_get (fresh : List Char) (f : List Char → List Char)
    (group : List (List Char)) :
    ∀ grammar : StrMap,
      (∀ r, r ∈ mapGet (group.foldl (fun grammar g => mapAdd grammar fresh (f g)) grammar)
            fresh
          ↔ r ∈ mapGet grammar fresh ∨ ∃ p ∈ group, r = f p)
      ∧ ∀ k, k ≠ fresh →
          mapGet (group.foldl (fun grammar g => mapAdd grammar fresh (f g)) grammar) k
            = mapGet grammar k := by
  induction group with
  | nil => intro grammar; simp
  | cons p group ih =>
    intro grammar
    obtain ⟨h1, h2⟩ := ih (mapAdd grammar fresh (f p))
    refine ⟨fun r => ?_, fun k hk => ?_⟩
    · rw [List.foldl_cons, h1 r, mapGet_mapAdd_same, mem_setInsert]
      simp only [List.mem_cons, exists_eq_or_imp]
      tauto
    · rw [List.foldl_cons, h2 k hk, mapGet_mapAdd_other _ _ _ _ hk]

/-- The body of the loop over `prefixMap`, for one group. -/
theorem factorGroup_get (nonTerminal : List Char) (grammar : StrMap)
    (e : List Char × StrSet) :
    (∀ a, a ∈ mapGet (factorGroup nonTerminal grammar e) nonTerminal
        ↔ a ∈ mapGet grammar nonTerminal
          ∨ (e.2.length > 1 ∧ a = e.1 ++ " ".toList ++ (nonTerminal ++ "'".toList))
          ∨ (¬ e.2.length > 1 ∧ e.2.head? = some a))
    ∧ (∀ r, r ∈ mapGet (factorGroup nonTerminal grammar e) (nonTerminal ++ "'".toList)
        ↔ r ∈ mapGet grammar (nonTerminal ++ "'".toList)
          ∨ (e.2.length > 1 ∧ ∃ p ∈ e.2, r = trim (p.drop e.1.length)))
    ∧ ∀ k, k ≠ nonTerminal → k ≠ nonTerminal ++ "'".toList →
        mapGet (factorGroup nonTerminal grammar e) k = mapGet grammar k := by
  obtain ⟨x, group⟩ := e
  have hne := ne_primed nonTerminal
  by_cases hlen : group.length > 1
  · obtain ⟨h1, h2⟩ := addRemainders_get (nonTerminal ++ "'".toList)
      (fun g => trim (g.drop x.length)) group
      (mapAdd grammar nonTerminal (x ++ " ".toList ++ (nonTerminal ++ "'".toList)))
    simp only [factorGroup, hlen, if_true]
    refine ⟨fun a => ?_, fun r => ?_, fun k hk1 hk2 => ?_⟩
    · rw [h2 nonTerminal hne, mapGet_mapAdd_same, mem_setInsert]
      tauto
    · rw [h1 r, mapGet_mapAdd_other _ _ _ _ hne.symm]
      tauto
    · rw [h2 k hk2, mapGet_mapAdd_other _ _ _ _ hk1]
  · simp only [factorGroup, hlen, if_false]
    cases group with
    | nil =>
      refine ⟨fun a => ?_, fun r => ?_, fun k _ _ => rfl⟩
      · simp
      · simp
    | cons first others =>
      have hh : ∀ a, (first :: others).head? = some a ↔ a = first := by
        intro a
        simp [eq_comm]
      refine ⟨fun a => ?_, fun r => ?_, fun k hk1 _ => ?_⟩
      · rw [mapGet_mapAdd_same, mem_setInsert, hh a]
        tauto
      · rw [mapGet_mapAdd_other _ _ _ _ hne.symm]
        tauto
      · rw [mapGet_mapAdd_other _ _ _ _ hk1]

/-- The loop over `prefixMap`. -/
theorem factorGroups_get (nonTerminal : List Char) (prefixMap : StrMap) :
    ∀ grammar : StrMap,
      (∀ a, a ∈ mapGet (prefixMap.foldl (factorGroup nonTerminal) grammar) nonTerminal
          ↔ a ∈ mapGet grammar nonTerminal
            ∨ ∃ e ∈ prefixMap,
                (e.2.length > 1 ∧ a = e.1 ++ " ".toList ++ (nonTerminal ++ "'".toList))
                ∨ (¬ e.2.length > 1 ∧ e.2.head? = some a))
      ∧ (∀ r, r ∈ mapGet (prefixMap.foldl (factorGroup nonTerminal) grammar)
              (nonTerminal ++ "'".toList)
          ↔ r ∈ mapGet grammar (nonTerminal ++ "'".toList)
            ∨ ∃ e ∈ prefixMap, e.2.length > 1 ∧ ∃ p ∈ e.2, r = trim (p.drop e.1.length))
      ∧ ∀ k, k ≠ nonTerminal → k ≠ nonTerminal ++ "'".toList →
          mapGet (prefixMap.foldl (factorGroup nonTerminal) grammar) k = mapGet grammar k := by
  induction prefixMap with
  | nil => intro grammar; simp
  | cons e prefixMap ih =>
    intro grammar
    obtain ⟨h1, h2, h3⟩ := ih (factorGroup nonTerminal grammar e)
    obtain ⟨f1, f2, f3⟩ := factorGroup_get nonTerminal grammar e
    refine ⟨fun a => ?_, fun r => ?_, fun k hk1 hk2 => ?_⟩
    · rw [List.foldl_cons, h1 a, f1 a]
      simp only [List.mem_cons, exists_eq_or_imp, or_assoc]
    · rw [List.foldl_cons, h2 r, f2 r]
      simp only [List.mem_cons, exists_eq_or_imp, or_assoc]
    · rw [List.foldl_cons, h3 k hk1 hk2, f3 k hk1 hk2]

/-- A step of `removeLeftFactoring` touches only its non-terminal and the primed one. -/
theorem removeLeftFactoringStep_other (grammar : StrMap) (nonTerminal k : List Char)
    (hk1 : k ≠ nonTerminal) (hk2 : k ≠ nonTerminal ++ "'".toList) :
    mapGet (removeLeftFactoringStep grammar nonTerminal) k = mapGet grammar k := by
  unfold removeLeftFactoringStep
  dsimp only
  split
  · rw [(factorGroups_get nonTerminal _ _).2.2 k hk1 hk2, mapGet_mapSet_other _ _ _ _ hk1]
  · rfl

/-- The facts about `prefixMap` that the step of `removeLeftFactoring` uses: every
alternative is in the group of its first symbol, the alternatives of a group of at least two
share their first symbol, those of a smaller group do not, and a shared first symbol makes
`prefixMap` smaller than the set of alternatives. -/
theorem groupByPrefix_facts (alts : StrSet) :
    (∀ p ∈ alts, ∃ e ∈ groupByPrefix alts, p ∈ e.2 ∧ e.1 = firstSymbol p)
    ∧ (∀ e ∈ groupByPrefix alts, e.2 ≠ []
        ∧ (∀ p ∈ e.2, p ∈ alts ∧ firstSymbol p = e.1)
        ∧ (e.2.length > 1 → ∀ p ∈ e.2, sharesFirstSymbol alts p)
        ∧ (¬ e.2.length > 1 → ∀ p ∈ e.2, e.2.head? = some p ∧ ¬ sharesFirstSymbol alts p))
    ∧ ((∃ p ∈ alts, sharesFirstSymbol alts p) →
        (groupByPrefix alts).length < alts.length) := by
  obtain ⟨hnd, hgrp, hkey⟩ := groupByPrefix_inv alts [] [] (by simp) (by simp) (by simp)
  simp only [List.not_mem_nil, false_or] at hgrp hkey
  change (List.map Prod.fst (groupByPrefix alts)).Nodup at hnd
  change ∀ e ∈ groupByPrefix alts, _ at hgrp
  change ∀ p, p ∈ alts → prefixOf p ∈ List.map Prod.fst (groupByPrefix alts) at hkey
  have hmem : ∀ p ∈ alts, ∃ e ∈ groupByPrefix alts, p ∈ e.2 ∧ e.1 = firstSymbol p := by
    intro p hp
    obtain ⟨e, he, hek⟩ := List.mem_map.mp (hkey p hp)
    exact ⟨e, he, ((hgrp e he).2.2 p).mpr ⟨hp, hek.symm⟩,
      by rw [hek, prefixOf_eq_firstSymbol]⟩
  refine ⟨hmem, ?_, ?_⟩
  · intro e he
    obtain ⟨hne, hnodup, hchar⟩ := hgrp e he
    refine ⟨hne, ?_, ?_, ?_⟩
    · intro p hp
      have := (hchar p).mp hp
      exact ⟨this.1, by rw [← prefixOf_eq_firstSymbol]; exact this.2⟩
    · intro hlen p hp
      obtain ⟨q, hq, hqp⟩ : ∃ q ∈ e.2, q ≠ p := by
        match h2 : e.2, hlen, hnodup, hp with
        | a :: b :: t, _, hnodup, hp =>
          have hab : a ≠ b := by
            intro hab
            subst hab
            simp at hnodup
          by_cases hpa : p = a
          · exact ⟨b, by simp, by rw [hpa]; exact hab.symm⟩
          · exact ⟨a, by simp, fun h => hpa h.symm⟩
      have h1 := (hchar q).mp hq
      have h2 := (hchar p).mp hp
      exact ⟨q, h1.1, hqp, by
        rw [← prefixOf_eq_firstSymbol, ← prefixOf_eq_firstSymbol, h1.2, h2.2]⟩
    · intro hlen p hp
      obtain ⟨a, ha⟩ : ∃ a, e.2 = [a] := by
        match h2 : e.2, hlen, hne with
        | [a], _, _ => exact ⟨a, rfl⟩
        | a :: b :: t, hlen, _ => simp at hlen
      rw [ha] at hp
      simp only [List.mem_singleton] at hp
      subst hp
      refine ⟨by rw [ha]; rfl, ?_⟩
      rintro ⟨q, hq, hqp, hfs⟩
      have hp2 := (hchar p).mp (by rw [ha]; simp)
      have : q ∈ e.2 := (hchar q).mpr ⟨hq, by
        rw [prefixOf_eq_firstSymbol, hfs, ← prefixOf_eq_firstSymbol]; exact hp2.2⟩
      rw [ha] at this
      exact hqp (by simpa using this)
  · rintro ⟨p, hp, q, hq, hqp, hfs⟩
    have hsub : (groupByPrefix alts).map Prod.fst ⊆ (alts.erase q).map prefixOf := by
      intro x hx
      obtain ⟨e, he, hek⟩ := List.mem_map.mp hx
      obtain ⟨hne, -, hchar⟩ := hgrp e he
      obtain ⟨p1, hp1⟩ := List.exists_mem_of_ne_nil _ hne
      have h1 := (hchar p1).mp hp1
      by_cases h : p1 = q
      · refine List.mem_map.mpr ⟨p, (List.mem_erase_of_ne hqp.symm).mpr hp, ?_⟩
        rw [← hek, ← h1.2, h, prefixOf_eq_firstSymbol, prefixOf_eq_firstSymbol, hfs]
      · exact List.mem_map.mpr ⟨p1, (List.mem_erase_of_ne h).mpr h1.1, by rw [h1.2, hek]⟩
    have hle := (List.subperm_of_subset hnd hsub).length_le
    have hpos := List.length_pos_of_mem hq
    simp only [List.length_map, List.length_erase_of_mem hq] at hle
    omega

/-- The step of `removeLeftFactoring` for a non-terminal whose primed name has no
alternatives yet. -/
theorem removeLeftFactoringStep_self (grammar : StrMap) (nonTerminal : List Char)
    (hfresh : mapGet grammar (nonTerminal ++ "'".toList) = []) :
    (∀ a, a ∈ mapGet (removeLeftFactoringStep grammar nonTerminal) nonTerminal
        ↔ (∃ p ∈ mapGet grammar nonTerminal,
              sharesFirstSymbol (mapGet grammar nonTerminal) p
              ∧ a = firstSymbol p ++ " ".toList ++ (nonTerminal ++ "'".toList))
          ∨ (a ∈ mapGet grammar nonTerminal
              ∧ ¬ sharesFirstSymbol (mapGet grammar nonTerminal) a))
    ∧ ∀ r, r ∈ mapGet (removeLeftFactoringStep grammar nonTerminal)
          (nonTerminal ++ "'".toList)
        ↔ ∃ p ∈ mapGet grammar nonTerminal,
            sharesFirstSymbol (mapGet grammar nonTerminal) p
            ∧ r = trim (p.drop (firstSymbol p).length) := by
  obtain ⟨hmem, hgrp, hcount⟩ := groupByPrefix_facts (mapGet grammar nonTerminal)
  have hne := ne_primed nonTerminal
  unfold removeLeftFactoringStep
  dsimp only
  by_cases htest : (groupByPrefix (mapGet grammar nonTerminal)).length
      < (mapGet grammar nonTerminal).length
  · simp only [htest, if_true]
    obtain ⟨f1, f2, -⟩ := factorGroups_get nonTerminal
      (groupByPrefix (mapGet grammar nonTerminal)) (mapSet grammar nonTerminal [])
    refine ⟨fun a => ?_, fun r => ?_⟩
    · rw [f1 a, mapGet_mapSet_same]
      simp only [List.not_mem_nil, false_or]
      constructor
      · rintro ⟨e, he, ⟨hlen, rfl⟩ | ⟨hlen, hhead⟩⟩
        · obtain ⟨h1, h2, h3, -⟩ := hgrp e he
          obtain ⟨p, hp⟩ := List.exists_mem_of_ne_nil _ h1
          exact Or.inl ⟨p, (h2 p hp).1, h3 hlen p hp, by rw [(h2 p hp).2]⟩
        · obtain ⟨-, h2, -, h4⟩ := hgrp e he
          have ha : a ∈ e.2 := List.mem_of_mem_head? hhead
          exact Or.inr ⟨(h2 a ha).1, (h4 hlen a ha).2⟩
      · rintro (⟨p, hp, hshare, rfl⟩ | ⟨ha, hshare⟩)
        · obtain ⟨e, he, hpe, hek⟩ := hmem p hp
          obtain ⟨-, -, -, h4⟩ := hgrp e he
          have hlen : e.2.length > 1 := by
            by_contra hlen
            exact (h4 hlen p hpe).2 hshare
          exact ⟨e, he, Or.inl ⟨hlen, by rw [hek]⟩⟩
        · obtain ⟨e, he, hae, -⟩ := hmem a ha
          obtain ⟨-, -, h3, h4⟩ := hgrp e he
          have hlen : ¬ e.2.length > 1 := fun hlen => hshare (h3 hlen a hae)
          exact ⟨e, he, Or.inr ⟨hlen, (h4 hlen a hae).1⟩⟩
    · rw [f2 r, mapGet_mapSet_other _ _ _ _ hne.symm, hfresh]
      simp only [List.not_mem_nil, false_or]
      constructor
      · rintro ⟨e, he, hlen, p, hp, rfl⟩
        obtain ⟨-, h2, h3, -⟩ := hgrp e he
        exact ⟨p, (h2 p hp).1, h3 hlen p hp, by rw [(h2 p hp).2]⟩
      · rintro ⟨p, hp, hshare, rfl⟩
        obtain ⟨e, he, hpe, hek⟩ := hmem p hp
        obtain ⟨-, -, -, h4⟩ := hgrp e he
        have hlen : e.2.length > 1 := by
          by_contra hlen
          exact (h4 hlen p hpe).2 hshare
        exact ⟨e, he, hlen, p, hpe, by rw [hek]⟩
  · simp only [htest, if_false]
    have hnone : ∀ p ∈ mapGet grammar nonTerminal,
        ¬ sharesFirstSymbol (mapGet grammar nonTerminal) p :=
      fun p hp hshare => htest (hcount ⟨p, hp, hshare⟩)
    refine ⟨fun a => ?_, fun r => ?_⟩
    · constructor
      · intro ha
        exact Or.inr ⟨ha, hnone a ha⟩
      · rintro (⟨p, hp, hshare, -⟩ | ⟨ha, -⟩)
        · exact absurd hshare (hnone p hp)
        · exact ha
    · rw [hfresh]
      simp only [List.not_mem_nil, false_iff, not_exists, not_and]
      intro p hp hshare
      exact absurd hshare (hnone p hp)

/-- A loop over the keys that returns with some fuel returns the same grammar with more. -/
theorem forEachRule_of_le (body : StrMap → List Char → StrMap) :
    ∀ (fuel index : Nat) (grammar result : StrMap),
      forEachRule body fuel index grammar = some result →
      ∀ more, forEachRule body (fuel + more) index grammar = some result := by
  intro fuel
  induction fuel with
  | zero =>
    intro index grammar result h more
    rw [forEachRule] at h
    by_cases hlt : index < grammar.length
    · simp [hlt] at h
    · simp only [hlt, if_false] at h
      have hnone : grammar.get? index = none := List.get?_eq_none.mpr (by omega)
      cases more with
      | zero => simpa [forEachRule, hlt] using h
      | succ more =>
        rw [Nat.zero_add, forEachRule, hnone]
        exact h
  | succ fuel ih =>
    intro index grammar result h more
    rw [Nat.add_right_comm, forEachRule]
    rw [forEachRule] at h
    cases hget : grammar.get? index with
    | none =>
      rw [hget] at h
      exact h
    | some rule =>
      rw [hget] at h
      exact ih _ _ _ h more

/-- The loop of `removeLeftFactoring` that returns within the fuel it is given returns the
value of the function. -/
theorem removeLeftFactoring_of_loop (grammar result : StrMap) (fuel : Nat)
    (hle : fuel ≤ loopBound grammar)
    (h : forEachRule removeLeftFactoringStep fuel 0 grammar = some result) :
    removeLeftFactoring grammar = result := by
  obtain ⟨more, hmore⟩ := Nat.exists_eq_add_of_le hle
  rw [removeLeftFactoring, hmore, forEachRule_of_le _ _ _ _ _ h more]
  rfl

/-- The loop of `removeLeftRecursion` that returns within the fuel it is given returns the
value of the function. -/
theorem removeLeftRecursion_of_loop (grammar result : StrMap) (fuel : Nat)
    (hle : fuel ≤ loopBound grammar)
    (h : forEachRule removeLeftRecursionStep fuel 0 grammar = some result) :
    removeLeftRecursion grammar = result := by
  obtain ⟨more, hmore⟩ := Nat.exists_eq_add_of_le hle
  rw [removeLeftRecursion, hmore, forEachRule_of_le _ _ _ _ _ h more]
  rfl

/-- A loop of `analyzeGrammar` that returns with some fuel returns the same state with
more. -/
theorem roundsLoop_of_le (round : StrMap × Bool → StrMap × Bool) :
    ∀ (fuel index : Nat) (state result : StrMap × Bool),
      roundsLoop round fuel index state = some result →
      ∀ more, roundsLoop round (fuel + more) index state = some result := by
  intro fuel
  induction fuel with
  | zero =>
    intro index state result h more
    rw [roundsLoop] at h
    by_cases hlt : index < state.1.length
    · simp [hlt] at h
    · simp only [hlt, if_false] at h
      cases more with
      | zero => simpa [roundsLoop, hlt] using h
      | succ more =>
        rw [Nat.zero_add, roundsLoop, if_neg hlt]
        exact h
  | succ fuel ih =>
    intro index state result h more
    rw [Nat.add_right_comm, roundsLoop]
    rw [roundsLoop] at h
    by_cases hlt : index < state.1.length
    · rw [if_pos hlt] at h ⊢
      exact ih _ _ _ h more
    · rw [if_neg hlt] at h ⊢
      exact h

/-- C16 (evaluation at the failing input): on the grammar `Y -> y`,
`A -> a b c | a b d | a e` the visit of the loop of `removeLeftFactoring` to `A` replaces
the three alternatives, which share the first symbol `a`, by `a A'` and gives `A'` the
remainders `b c`, `b d` and `e`.  The loop then goes on to the key `A'` that this visit has
inserted and factors it in the same call: `A'` is left with `b A''` and `e`, and the
remainders `b c` and `b d` of the group of `A` are no alternatives of `A'`.  The loop ends
after its fourth visit. -/
theorem removeLeftFactoring_revisits_primed_key :
    loadGrammarFromFile "Y ->y\nA ->a b c|a b d|a e".toList
      = [("Y".toList, ["y".toList]),
          ("A".toList, ["a b c".toList, "a b d".toList, "a e".toList])]
    ∧ removeLeftFactoringStep
        [("Y".toList, ["y".toList]),
          ("A".toList, ["a b c".toList, "a b d".toList, "a e".toList])] "A".toList
      = [("Y".toList, ["y".toList]), ("A".toList, ["a A'".toList]),
          ("A'".toList, ["b c".toList, "b d".toList, "e".toList])]
    ∧ removeLeftFactoring
        [("Y".toList, ["y".toList]),
          ("A".toList, ["a b c".toList, "a b d".toList, "a e".toList])]
      = [("Y".toList, ["y".toList]), ("A".toList, ["a A'".toList]),
          ("A'".toList, ["b A''".toList, "e".toList]),
          ("A''".toList, ["c".toList, "d".toList])]
    ∧ "b c".toList ∉ mapGet
        (removeLeftFactoring
          [("Y".toList, ["y".toList]),
            ("A".toList, ["a b c".toList, "a b d".toList, "a e".toList])]) "A'".toList
    ∧ (∀ more,
        forEachRule removeLeftFactoringStep (4 + more) 0
          [("Y".toList, ["y".toList]),
            ("A".toList, ["a b c".toList, "a b d".toList, "a e".toList])]
        = some
          [("Y".toList, ["y".toList]), ("A".toList, ["a A'".toList]),
            ("A'".toList, ["b A''".toList, "e".toList]),
            ("A''".toList, ["c".toList, "d".toList])]) := by
  refine ⟨by decide!, by decide!, by decide!, by decide!, ?_⟩
  exact forEachRule_of_le removeLeftFactoringStep 4 0 _ _ (by decide!)

/-- The function `removeLeftFactoring` on a grammar whose remainders have different first
symbols: the visit to the inserted key `A'` changes nothing. -/
theorem removeLeftFactoring_example :
    removeLeftFactoring
        [("S".toList, ["A x".toList]), ("A".toList, ["a B".toList, "a C".toList, "b".toList])]
      = [("S".toList, ["A x".toList]), ("A".toList, ["a A'".toList, "b".toList]),
          ("A'".toList, ["B".toList, "C".toList])] := by
  decide

/-- The function `analyzeGrammar` on a grammar with three levels of common first symbols:
one call of `removeLeftFactoring` factors `A` and the keys `A'`, `A''` that it inserts on
the way, so no common first symbol is left and the grammar is accepted. -/
theorem analyzeGrammar_factors_inserted_keys :
    analyzeGrammar (loadGrammarFromFile "A ->a b c d|a b c e|a b f|a g".toList)
      = ([("A".toList, ["a A'".toList]), ("A'".toList, ["b A''".toList, "g".toList]),
          ("A''".toList, ["c A'''".toList, "f".toList]),
          ("A'''".toList, ["d".toList, "e".toList])], true) := by
  decide!

/-! ## FOLLOW sets of mutually dependent non-terminals -/

/-- C21 (evaluation at the failing input): for `S -> A x | B y | C z`, `A -> a B`,
`B -> b C`, `C -> c A` (a grammar that `analyzeGrammar` accepts unchanged) the FOLLOW sets
of `A`, `B`, `C` depend on each other in a cycle.  `computeFirstAndFollow` gives
`FOLLOW(A) = {x, z, y}` and `FOLLOW(B) = {y, x}`: the production `A -> a B` asks for
`FOLLOW(A)` inside `FOLLOW(B)`, and `z` is missing.  The same happens for every one of the
24 orders in which the container may iterate the four keys: the FOLLOW sets are never
closed under the FOLLOW rules. -/
theorem computeFollow_not_closed_on_cycle :
    analyzeGrammar (loadGrammarFromFile "S ->A x|B y|C z\nA ->a B\nB ->b C\nC ->c A".toList)
      = (loadGrammarFromFile "S ->A x|B y|C z\nA ->a B\nB ->b C\nC ->c A".toList, true)
    ∧ "a B".toList ∈ mapGet
        (loadGrammarFromFile "S ->A x|B y|C z\nA ->a B\nB ->b C\nC ->c A".toList) "A".toList
    ∧ (∃ firstSets followSets,
        computeFirstAndFollow
            (loadGrammarFromFile "S ->A x|B y|C z\nA ->a B\nB ->b C\nC ->c A".toList)
          = some (firstSets, followSets)
        ∧ mapGet followSets "A".toList = ["x".toList, "z".toList, "y".toList]
        ∧ mapGet followSets "B".toList = ["y".toList, "x".toList]
        ∧ "z".toList ∈ mapGet followSets "A".toList
        ∧ "z".toList ∉ mapGet followSets "B".toList)
    ∧ ∀ grammar ∈
        (loadGrammarFromFile "S ->A x|B y|C z\nA ->a B\nB ->b C\nC ->c A".toList).permutations,
        (computeFirstAndFollow grammar).map
            (fun sets => followClosed grammar sets.1 sets.2)
          = some false :=
  ⟨by decide!, by decide!,
    ⟨[("A".toList, ["a".toList]), ("S".toList, ["a".toList, "b".toList, "c".toList]),
        ("B".toList, ["b".toList]), ("C".toList, ["c".toList])],
      [("S".toList, ["$".toList]), ("A".toList, ["x".toList, "z".toList, "y".toList]),
        ("C".toList, ["z".toList, "y".toList, "x".toList]),
        ("B".toList, ["y".toList, "x".toList])],
      by decide!, by decide!, by decide!, by decide!, by decide!⟩,
    by decide!⟩

/-! ## The parse table: what a cell holds -/

theorem lookup_cons_eq {β : Type} (k : List Char) (v : β) (m : List (List Char × β))
    (key : List Char) :
    ((k, v) :: m).lookup key = if key = k then some v else m.lookup key := by
  by_cases h : key = k
  · subst h
    simp [List.lookup]
  · have hb : (key == k) = false := by simpa using h
    simp [List.lookup, hb, h]

theorem lookup_assocSet {β : Type} (m : List (List Char × β)) (k k' : List Char) (v : β) :
    (assocSet m k v).lookup k' = if k' = k then some v else m.lookup k' := by
  induction m with
  | nil =>
    simp only [assocSet, lookup_cons_eq]
  | cons e m ih =>
    obtain ⟨k0, v0⟩ := e
    by_cases h0 : k0 = k
    · subst h0
      simp only [assocSet, if_true, lookup_cons_eq]
      by_cases h : k' = k0
      · simp only [if_pos h]
      · simp only [if_neg h]
    · simp only [assocSet, if_neg h0, lookup_cons_eq, ih]
      by_cases h : k' = k
      · have h1 : ¬ k' = k0 := by rw [h]; exact fun e => h0 e.symm
        simp only [if_pos h, if_neg h1]
      · simp only [if_neg h]

theorem tableGet_tableSet (t : ParseTable) (A a v A' a' : List Char) :
    tableGet (tableSet t A a v) A' a'
      = if A' = A ∧ a' = a then some v else tableGet t A' a' := by
  unfold tableGet tableRow tableSet
  rw [lookup_assocSet]
  by_cases hA : A' = A
  · subst hA
    simp only [if_true, Option.getD_some, lookup_assocSet, true_and]
    rfl
  · simp [hA]

theorem tableGet_nil (A a : List Char) : tableGet [] A a = none := by
  simp [tableGet, tableRow]

theorem tableGet_foldl_tableSet_if (c : List Char → Prop) [DecidablePred c] (A p : List Char)
    (l : List (List Char)) :
    ∀ (t : ParseTable) (A' a' : List Char),
      tableGet (l.foldl (fun t x => if c x then tableSet t A x p else t) t) A' a'
        = if A' = A ∧ a' ∈ l ∧ c a' then some p else tableGet t A' a' := by
  induction l with
  | nil => intro t A' a'; simp
  | cons x l ih =>
    intro t A' a'
    rw [List.foldl_cons, ih]
    by_cases h1 : A' = A ∧ a' ∈ l ∧ c a'
    · have h3 : A' = A ∧ a' ∈ x :: l ∧ c a' :=
        ⟨h1.1, List.mem_cons_of_mem _ h1.2.1, h1.2.2⟩
      rw [if_pos h1, if_pos h3]
    · rw [if_neg h1]
      by_cases hx : c x
      · rw [if_pos hx, tableGet_tableSet]
        by_cases h2 : A' = A ∧ a' = x
        · obtain ⟨hA, ha⟩ := h2
          subst hA; subst ha
          rw [if_pos ⟨rfl, rfl⟩, if_pos ⟨rfl, List.mem_cons_self _ _, hx⟩]
        · have h3 : ¬ (A' = A ∧ a' ∈ x :: l ∧ c a') := by
            rintro ⟨hA, hmem, hc⟩
            rcases List.mem_cons.1 hmem with e | hl
            · exact h2 ⟨hA, e⟩
            · exact h1 ⟨hA, hl, hc⟩
          rw [if_neg h2, if_neg h3]
      · have h3 : ¬ (A' = A ∧ a' ∈ x :: l ∧ c a') := by
          rintro ⟨hA, hmem, hc⟩
          rcases List.mem_cons.1 hmem with e | hl
          · exact hx (e ▸ hc)
          · exact h1 ⟨hA, hl, hc⟩
        rw [if_neg hx, if_neg h3]

theorem tableGet_foldl_tableSet (A p : List Char) (l : List (List Char)) :
    ∀ (t : ParseTable) (A' a' : List Char),
      tableGet (l.foldl (fun t x => tableSet t A x p) t) A' a'
        = if A' = A ∧ a' ∈ l then some p else tableGet t A' a' := by
  intro t A' a'
  have h := tableGet_foldl_tableSet_if (fun _ => True) A p l t A' a'
  simpa using h

theorem mem_setErase (s : StrSet) (x y : List Char) :
    y ∈ setErase s x ↔ y ∈ s ∧ y ≠ x := by
  simp [setErase, List.mem_filter]

theorem mem_setInsertAll (s t : StrSet) (y : List Char) :
    y ∈ setInsertAll s t ↔ y ∈ s ∨ y ∈ t :=
  mem_foldl_setInsert t s y

theorem words_nil : words [] = [] := by
  decide

/-- The loop of `buildParseTable` computes the FIRST set of the extension rule. -/
theorem mem_firstOfProductionLoop (grammar firstSets : StrMap) (a : List Char) :
    ∀ (tokens : List (List Char)) (acc : StrSet), EPSILON ∉ acc →
      (a ∈ (if (firstOfProductionLoop grammar firstSets tokens acc).2 then
              setInsert (firstOfProductionLoop grammar firstSets tokens acc).1 EPSILON
            else (firstOfProductionLoop grammar firstSets tokens acc).1)
        ↔ a ∈ acc ∨ a ∈ firstOfSequence grammar firstSets tokens) := by
  intro tokens
  induction tokens with
  | nil =>
    intro acc _
    simp [firstOfProductionLoop, firstOfSequence, mem_setInsert]
  | cons token rest ih =>
    intro acc hacc
    by_cases hterm : isTerminal grammar token = true
    · simp [firstOfProductionLoop, firstOfSequence, hterm, mem_setInsert]
    · by_cases hnull : (mapGet firstSets token).contains EPSILON = true
      · have herase : EPSILON ∉ setErase (setInsertAll acc (mapGet firstSets token)) EPSILON := by
          rw [mem_setErase]
          exact fun h => h.2 rfl
        have h := ih _ herase
        simp only [firstOfProductionLoop, firstOfSequence, hterm, hnull, if_true, if_false,
          Bool.false_eq_true]
        rw [h, mem_setErase, mem_setInsertAll, List.mem_append, mem_setErase]
        constructor
        · rintro (⟨h1 | h1, h2⟩ | h1)
          · exact Or.inl h1
          · exact Or.inr (Or.inl ⟨h1, h2⟩)
          · exact Or.inr (Or.inr h1)
        · rintro (h1 | ⟨h1, h2⟩ | h1)
          · exact Or.inl ⟨Or.inl h1, fun e => hacc (e ▸ h1)⟩
          · exact Or.inl ⟨Or.inr h1, h2⟩
          · exact Or.inr h1
      · have hnot : EPSILON ∉ mapGet firstSets token := by
          intro hmem
          exact hnull (by simpa using hmem)
        simp only [firstOfProductionLoop, firstOfSequence, hterm, hnull, if_false,
          Bool.false_eq_true]
        rw [mem_setInsertAll, List.mem_append, mem_setErase]
        constructor
        · rintro (h1 | h1)
          · exact Or.inl h1
          · exact Or.inr (Or.inl ⟨h1, fun e => hnot (e ▸ h1)⟩)
        · rintro (h1 | ⟨h1, _⟩ | h1)
          · exact Or.inl h1
          · exact Or.inr h1
          · simp at h1

theorem mem_firstOfProduction (grammar firstSets : StrMap) (production a : List Char) :
    a ∈ firstOfProduction grammar firstSets production
      ↔ a ∈ firstOfSequence grammar firstSets (words production) := by
  have h := mem_firstOfProductionLoop grammar firstSets a (words production) []
    (List.not_mem_nil _)
  unfold firstOfProduction
  simpa using h

theorem contains_firstOfProduction (grammar firstSets : StrMap) (production : List Char) :
    (firstOfProduction grammar firstSets production).contains EPSILON = true
      ↔ EPSILON ∈ firstOfSequence grammar firstSets (words production) := by
  rw [← mem_firstOfProduction]
  simp

theorem tableGet_placeProduction (grammar firstSets followSets : StrMap)
    (A : List Char) (t : ParseTable) (p A' a : List Char) :
    tableGet (placeProduction grammar firstSets followSets A t p) A' a
      = if A' = A ∧ claimsCell grammar firstSets followSets A p a then some p
        else tableGet t A' a := by
  unfold placeProduction
  simp only []
  by_cases hnull : (firstOfProduction grammar firstSets p).contains EPSILON = true
  · have hmem : EPSILON ∈ firstOfSequence grammar firstSets (words p) :=
      (contains_firstOfProduction grammar firstSets p).1 hnull
    rw [if_pos hnull, tableGet_foldl_tableSet, tableGet_foldl_tableSet_if]
    by_cases hA : A' = A
    · by_cases h1 : a ∈ mapGet followSets A
      · simp [claimsCell, hA, h1, hmem]
      · simp [claimsCell, hA, h1, hmem, mem_firstOfProduction]
    · simp [hA]
  · have hmem : EPSILON ∉ firstOfSequence grammar firstSets (words p) := fun h =>
      hnull ((contains_firstOfProduction grammar firstSets p).2 h)
    rw [if_neg hnull, tableGet_foldl_tableSet_if]
    by_cases hA : A' = A
    · simp [claimsCell, hA, hmem, mem_firstOfProduction]
    · simp [hA]

theorem tableGet_foldl_sync (A : List Char) (l : List (List Char)) :
    ∀ (t : ParseTable) (A' a : List Char),
      tableGet
          (l.foldl
            (fun parseTable followSymbol =>
              if ((tableGet parseTable A followSymbol).getD []).isEmpty then
                tableSet parseTable A followSymbol "sync".toList
              else parseTable)
            t) A' a
        = if A' = A ∧ a ∈ l ∧ ((tableGet t A a).getD []).isEmpty = true then
            some "sync".toList
          else tableGet t A' a := by
  induction l with
  | nil => intro t A' a; simp
  | cons x l ih =>
    intro t A' a
    rw [List.foldl_cons, ih]
    by_cases hx : ((tableGet t A x).getD []).isEmpty = true
    · rw [if_pos hx]
      by_cases hA : A' = A
      · subst hA
        by_cases hax : a = x
        · subst hax
          simp [tableGet_tableSet, hx]
        · simp [tableGet_tableSet, hax]
      · simp [tableGet_tableSet, hA]
    · rw [if_neg hx]
      by_cases hA : A' = A
      · subst hA
        by_cases hax : a = x
        · subst hax
          simp [hx]
        · simp [hax]
      · simp [hA]

theorem tableGet_addSync (followSets : StrMap) (A : List Char) (t : ParseTable)
    (A' a : List Char) :
    tableGet (addSync followSets A t) A' a
      = if A' = A ∧ a ∈ mapGet followSets A ∧ ((tableGet t A a).getD []).isEmpty = true then
          some "sync".toList
        else tableGet t A' a :=
  tableGet_foldl_sync A (mapGet followSets A) t A' a

theorem tableGet_foldl_placeProduction (grammar firstSets followSets : StrMap)
    (A : List Char) (ps : StrSet) :
    ∀ (t : ParseTable) (A' a : List Char),
      tableGet (ps.foldl (placeProduction grammar firstSets followSets A) t) A' a
        = if A' = A then
            ps.foldl
              (fun cell p =>
                if decide (claimsCell grammar firstSets followSets A p a) then some p
                else cell)
              (tableGet t A a)
          else tableGet t A' a := by
  induction ps with
  | nil => intro t A' a; by_cases hA : A' = A <;> simp [hA]
  | cons p ps ih =>
    intro t A' a
    rw [List.foldl_cons, ih, List.foldl_cons, tableGet_placeProduction,
      tableGet_placeProduction]
    by_cases hA : A' = A
    · by_cases hc : claimsCell grammar firstSets followSets A p a
      · simp [hA, hc]
      · simp [hA, hc]
    · simp [hA]

theorem tableGet_buildRow (grammar firstSets followSets : StrMap) (t : ParseTable)
    (A : List Char) (ps : StrSet) (A' a : List Char) :
    tableGet (buildRow grammar firstSets followSets t (A, ps)) A' a
      = if A' = A then
          rowCell (fun p => decide (claimsCell grammar firstSets followSets A p a))
            (decide (a ∈ mapGet followSets A)) ps (tableGet t A a)
        else tableGet t A' a := by
  unfold buildRow rowCell
  simp only []
  rw [tableGet_addSync, tableGet_foldl_placeProduction, tableGet_foldl_placeProduction]
  by_cases hA : A' = A
  · by_cases hf : a ∈ mapGet followSets A
    · simp [hA, hf]
    · simp [hA, hf]
  · simp [hA]

theorem tableGet_foldl_buildRow (grammar firstSets followSets : StrMap) (A a : List Char) :
    ∀ (es : StrMap) (t : ParseTable), (es.map Prod.fst).Nodup →
      tableGet (es.foldl (buildRow grammar firstSets followSets) t) A a
        = match es.lookup A with
          | some ps =>
            rowCell (fun p => decide (claimsCell grammar firstSets followSets A p a))
              (decide (a ∈ mapGet followSets A)) ps (tableGet t A a)
          | none => tableGet t A a := by
  intro es
  induction es with
  | nil => intro t _; simp
  | cons e es ih =>
    obtain ⟨k, ps⟩ := e
    intro t hnd
    rw [List.map_cons, List.nodup_cons] at hnd
    rw [List.foldl_cons, ih _ hnd.2, lookup_cons_eq, tableGet_buildRow]
    by_cases hk : A = k
    · subst hk
      have hnone : es.lookup A = none := by
        rw [List.lookup_eq_none_iff]
        intro e he
        rw [bne_iff_ne]
        intro hfst
        have hmem : e.1 ∈ es.map Prod.fst := List.mem_map_of_mem Prod.fst he
        rw [← hfst] at hmem
        exact hnd.1 hmem
      simp [hnone]
    · simp [hk]

/-- What a cell of the finished table holds: nothing outside the rows of the grammar, and in
the row of a key the last production that claims the cell, `sync` taking the place of
nothing and of the empty text in the cells of FOLLOW terminals. -/
theorem tableGet_buildParseTable (grammar firstSets followSets : StrMap) (A a : List Char)
    (hkeys : (grammar.map Prod.fst).Nodup) :
    tableGet (buildParseTable grammar firstSets followSets) A a
      = if mapHas grammar A = true then
          rowCell (fun p => decide (claimsCell grammar firstSets followSets A p a))
            (decide (a ∈ mapGet followSets A)) (mapGet grammar A) none
        else none := by
  unfold buildParseTable
  rw [tableGet_foldl_buildRow grammar firstSets followSets A a grammar [] hkeys, tableGet_nil]
  unfold mapHas mapGet
  cases h : grammar.lookup A with
  | none => simp
  | some ps => simp

theorem lastClaim_none (claims : List Char → Bool) (ps : StrSet) :
    ∀ (old : Option (List Char)), (∀ p ∈ ps, claims p = false) →
      ps.foldl (fun cell p => if claims p then some p else cell) old = old := by
  induction ps with
  | nil => intro old _; rfl
  | cons q ps ih =>
    intro old h
    rw [List.foldl_cons, h q (List.mem_cons_self _ _)]
    exact ih old fun p hp => h p (List.mem_cons_of_mem _ hp)

theorem lastClaim_some (claims : List Char → Bool) (ps : StrSet) :
    ∀ (old : Option (List Char)) (v : List Char),
      ps.foldl (fun cell p => if claims p then some p else cell) old = some v →
        (v ∈ ps ∧ claims v = true) ∨ old = some v := by
  induction ps with
  | nil => intro old v h; exact Or.inr h
  | cons q ps ih =>
    intro old v h
    rw [List.foldl_cons] at h
    rcases ih _ v h with ⟨h1, h2⟩ | h1
    · exact Or.inl ⟨List.mem_cons_of_mem _ h1, h2⟩
    · by_cases hq : claims q = true
      · rw [if_pos hq] at h1
        have hv : q = v := Option.some.inj h1
        subst hv
        exact Or.inl ⟨List.mem_cons_self _ _, hq⟩
      · rw [if_neg hq] at h1
        exact Or.inr h1

theorem lastClaim_of_claimant (claims : List Char → Bool) (ps : StrSet) :
    ∀ (old : Option (List Char)), (∃ p ∈ ps, claims p = true) →
      ∃ p ∈ ps, claims p = true
        ∧ ps.foldl (fun cell p => if claims p then some p else cell) old = some p := by
  induction ps with
  | nil => intro old h; obtain ⟨p, hp, _⟩ := h; cases hp
  | cons q ps ih =>
    intro old h
    rw [List.foldl_cons]
    by_cases hrest : ∃ p ∈ ps, claims p = true
    · obtain ⟨p, hp, hc, hf⟩ := ih (if claims q then some q else old) hrest
      exact ⟨p, List.mem_cons_of_mem _ hp, hc, hf⟩
    · have hnone : ∀ p ∈ ps, claims p = false := by
        intro p hp
        cases hcp : claims p with
        | false => rfl
        | true => exact absurd ⟨p, hp, hcp⟩ hrest
      obtain ⟨p, hp, hc⟩ := h
      rcases List.mem_cons.1 hp with e | hp
      · subst e
        refine ⟨p, List.mem_cons_self _ _, hc, ?_⟩
        rw [lastClaim_none claims ps _ hnone, if_pos hc]
      · exact absurd ⟨p, hp, hc⟩ hrest

theorem mapHas_of_mem_mapGet (m : StrMap) (key x : List Char) (h : x ∈ mapGet m key) :
    mapHas m key = true := by
  unfold mapGet at h
  unfold mapHas
  cases hl : m.lookup key with
  | none => rw [hl] at h; simp at h
  | some v => rfl

theorem mem_of_lookup_eq_some {β : Type} (m : List (List Char × β)) (key : List Char) (v : β) :
    m.lookup key = some v → (key, v) ∈ m := by
  induction m with
  | nil => intro h; simp at h
  | cons e m ih =>
    obtain ⟨k0, v0⟩ := e
    rw [lookup_cons_eq]
    by_cases hk : key = k0
    · rw [if_pos hk]
      intro h
      have hv : v0 = v := Option.some.inj h
      rw [hk, hv]
      exact List.mem_cons_self _ _
    · rw [if_neg hk]
      intro h
      exact List.mem_cons_of_mem _ (ih h)

theorem not_claimsCell_empty_by_first (grammar firstSets : StrMap) (a : List Char)
    (h : a ∈ firstOfSequence grammar firstSets (words []) ∧ a ≠ EPSILON) : False := by
  rw [words_nil] at h
  simp [firstOfSequence] at h

/-! ## C22 and C24: the cells of FIRST and FOLLOW terminals -/

/-- C22 (counterexample): in the grammar `S -> A x A y`, `A -> X | Y`, `X -> x | ε`,
`Y -> y | ε` the production `X` of `A` has the FIRST set `{x, ε}`, yet `Table[A, x]` is
`Y`, whose FIRST set `{y, ε}` does not contain `x`: `Y` is nullable and `x` is in
`FOLLOW(A)`, so `Y`, placed last, takes the cell.  When the container iterates `Y` before
`X` the same happens to `Table[A, y]`, which then holds `X`. -/
theorem buildParseTable_cell_taken_through_follow :
    analyzeGrammar (loadGrammarFromFile "S ->A x A y\nA ->X|Y\nX ->x|ε\nY ->y|ε".toList)
      = (loadGrammarFromFile "S ->A x A y\nA ->X|Y\nX ->x|ε\nY ->y|ε".toList, true)
    ∧ mapGet (loadGrammarFromFile "S ->A x A y\nA ->X|Y\nX ->x|ε\nY ->y|ε".toList) "A".toList
      = ["X".toList, "Y".toList]
    ∧ (computeFirstAndFollow
        (loadGrammarFromFile "S ->A x A y\nA ->X|Y\nX ->x|ε\nY ->y|ε".toList)).map
      (fun sets => firstOfSequence
        (loadGrammarFromFile "S ->A x A y\nA ->X|Y\nX ->x|ε\nY ->y|ε".toList)
        sets.1 (words "X".toList))
      = some ["x".toList, EPSILON]
    ∧ (tableOf
        (loadGrammarFromFile "S ->A x A y\nA ->X|Y\nX ->x|ε\nY ->y|ε".toList)).map
      (fun parseTable => tableGet parseTable "A".toList "x".toList)
      = some (some "Y".toList)
    ∧ (computeFirstAndFollow
        (loadGrammarFromFile "S ->A x A y\nA ->X|Y\nX ->x|ε\nY ->y|ε".toList)).map
      (fun sets => firstOfSequence
        (loadGrammarFromFile "S ->A x A y\nA ->X|Y\nX ->x|ε\nY ->y|ε".toList)
        sets.1 (words "Y".toList))
      = some ["y".toList, EPSILON]
    ∧ mapGet (loadGrammarFromFile "S ->A x A y\nA ->Y|X\nX ->x|ε\nY ->y|ε".toList) "A".toList
      = ["Y".toList, "X".toList]
    ∧ (computeFirstAndFollow
        (loadGrammarFromFile "S ->A x A y\nA ->Y|X\nX ->x|ε\nY ->y|ε".toList)).map
      (fun sets => firstOfSequence
        (loadGrammarFromFile "S ->A x A y\nA ->Y|X\nX ->x|ε\nY ->y|ε".toList)
        sets.1 (words "Y".toList))
      = some ["y".toList, EPSILON]
    ∧ (tableOf
        (loadGrammarFromFile "S ->A x A y\nA ->Y|X\nX ->x|ε\nY ->y|ε".toList)).map
      (fun parseTable => tableGet parseTable "A".toList "y".toList)
      = some (some "X".toList)
    ∧ (computeFirstAndFollow
        (loadGrammarFromFile "S ->A x A y\nA ->Y|X\nX ->x|ε\nY ->y|ε".toList)).map
      (fun sets => firstOfSequence
        (loadGrammarFromFile "S ->A x A y\nA ->Y|X\nX ->x|ε\nY ->y|ε".toList)
        sets.1 (words "X".toList))
      = some ["x".toList, EPSILON] := by
  decide!

/-- C22 (amended): after `buildParseTable`, for every production `A -> γ` and every terminal
`a` in `FIRST(γ)` other than `ε`, the cell `Table[A, a]` holds a production of `A` that
claims the cell, by its FIRST set or, when it is nullable, by `FOLLOW(A)` (the marker `sync`
stands in the cell when that production is the empty text); and when no other production of
`A` claims the cell, `Table[A, a] = γ`.  `FIRST(γ)` is the set of the extension rule over
the FIRST sets the table is built from. -/
theorem buildParseTable_first_cell (grammar firstSets followSets : StrMap)
    (A γ a : List Char) (hkeys : (grammar.map Prod.fst).Nodup)
    (hγ : γ ∈ mapGet grammar A)
    (ha : a ∈ firstOfSequence grammar firstSets (words γ)) (hne : a ≠ EPSILON) :
    (∃ p ∈ mapGet grammar A, claimsCell grammar firstSets followSets A p a
        ∧ (tableGet (buildParseTable grammar firstSets followSets) A a = some p
          ∨ (p = []
            ∧ tableGet (buildParseTable grammar firstSets followSets) A a
              = some "sync".toList)))
    ∧ ((∀ p ∈ mapGet grammar A, claimsCell grammar firstSets followSets A p a → p = γ) →
        tableGet (buildParseTable grammar firstSets followSets) A a = some γ) := by
  have hhas : mapHas grammar A = true := mapHas_of_mem_mapGet grammar A γ hγ
  have hclaim : claimsCell grammar firstSets followSets A γ a := Or.inl ⟨ha, hne⟩
  have hcell := tableGet_buildParseTable grammar firstSets followSets A a hkeys
  rw [if_pos hhas] at hcell
  obtain ⟨p, hp, hpc, hfold⟩ := lastClaim_of_claimant
    (fun p => decide (claimsCell grammar firstSets followSets A p a)) (mapGet grammar A) none
    ⟨γ, hγ, decide_eq_true hclaim⟩
  have hpc2 : claimsCell grammar firstSets followSets A p a := of_decide_eq_true hpc
  have hmain : tableGet (buildParseTable grammar firstSets followSets) A a = some p
      ∨ (p = []
        ∧ tableGet (buildParseTable grammar firstSets followSets) A a
          = some "sync".toList) := by
    rw [hcell]
    unfold rowCell
    simp only []
    rw [hfold]
    by_cases hempty : p = []
    · subst hempty
      have hfollow : a ∈ mapGet followSets A := by
        rcases hpc2 with h | h
        · exact absurd h (not_claimsCell_empty_by_first grammar firstSets a)
        · exact h.2
      right
      simp [hfollow]
    · left
      have hne2 : p.isEmpty = false := by
        cases p with
        | nil => exact absurd rfl hempty
        | cons c p => rfl
      simp [hne2]
  refine ⟨⟨p, hp, hpc2, hmain⟩, ?_⟩
  intro honly
  have hpγ : p = γ := honly p hp hpc2
  subst hpγ
  rcases hmain with h | ⟨h1, _⟩
  · exact h
  · subst h1
    exact absurd ⟨ha, hne⟩ (not_claimsCell_empty_by_first grammar firstSets a)

theorem buildParseTable_first_cell_witness :
    ([("S".toList, ["A b".toList]), ("A".toList, ["a".toList, "c".toList])].map
        Prod.fst).Nodup
    ∧ "a".toList ∈ mapGet
        [("S".toList, ["A b".toList]), ("A".toList, ["a".toList, "c".toList])] "A".toList
    ∧ "a".toList ∈ firstOfSequence
        [("S".toList, ["A b".toList]), ("A".toList, ["a".toList, "c".toList])]
        [("A".toList, ["a".toList, "c".toList]), ("S".toList, ["a".toList, "c".toList])]
        (words "a".toList)
    ∧ tableGet
        (buildParseTable
          [("S".toList, ["A b".toList]), ("A".toList, ["a".toList, "c".toList])]
          [("A".toList, ["a".toList, "c".toList]), ("S".toList, ["a".toList, "c".toList])]
          [("S".toList, ["$".toList]), ("A".toList, ["b".toList])])
        "A".toList "a".toList = some "a".toList :=
  ⟨by decide, by decide, by decide,
    (buildParseTable_first_cell
      [("S".toList, ["A b".toList]), ("A".toList, ["a".toList, "c".toList])]
      [("A".toList, ["a".toList, "c".toList]), ("S".toList, ["a".toList, "c".toList])]
      [("S".toList, ["$".toList]), ("A".toList, ["b".toList])]
      "A".toList "a".toList "a".toList (by decide) (by decide) (by decide) (by decide)).2
      (by decide)⟩

/-- C24: after `buildParseTable`, for every non-terminal `A` of the grammar and every `b` in
`FOLLOW(A)` the cell `Table[A, b]` is defined and not empty: it holds a production of `A`
placed by the FIRST and FOLLOW rules, or the marker `sync`; and `sync` stands only in cells
`(A, b)` with `A` a non-terminal of the grammar and `b` in `FOLLOW(A)`, a cell where the
text `sync` is itself a production of `A` placed by the rules apart. -/
theorem buildParseTable_follow_cells (grammar firstSets followSets : StrMap)
    (hkeys : (grammar.map Prod.fst).Nodup) :
    (∀ A b : List Char, mapHas grammar A = true → b ∈ mapGet followSets A →
      ∃ v, tableGet (buildParseTable grammar firstSets followSets) A b = some v ∧ v ≠ []
        ∧ ((v ∈ mapGet grammar A ∧ claimsCell grammar firstSets followSets A v b)
          ∨ v = "sync".toList))
    ∧ (∀ A b : List Char,
      tableGet (buildParseTable grammar firstSets followSets) A b = some "sync".toList →
        (mapHas grammar A = true ∧ b ∈ mapGet followSets A)
        ∨ ("sync".toList ∈ mapGet grammar A
          ∧ claimsCell grammar firstSets followSets A "sync".toList b)) := by
  constructor
  · intro A b hhas hb
    have hcell := tableGet_buildParseTable grammar firstSets followSets A b hkeys
    rw [if_pos hhas] at hcell
    rw [hcell]
    unfold rowCell
    simp only []
    cases hfold : (mapGet grammar A).foldl
        (fun cell p =>
          if decide (claimsCell grammar firstSets followSets A p b) = true then some p
          else cell)
        none with
    | none =>
      refine ⟨"sync".toList, ?_, by decide, Or.inr rfl⟩
      simp [hb]
    | some v =>
      by_cases hempty : v = []
      · refine ⟨"sync".toList, ?_, by decide, Or.inr rfl⟩
        simp [hb, hempty]
      · have hne2 : v.isEmpty = false := by
          cases v with
          | nil => exact absurd rfl hempty
          | cons c v => rfl
        refine ⟨v, ?_, hempty, Or.inl ?_⟩
        · simp [hne2]
        · rcases lastClaim_some _ _ _ _ hfold with ⟨h1, h2⟩ | h1
          · exact ⟨h1, of_decide_eq_true h2⟩
          · cases h1
  · intro A b hcellsync
    have hcell := tableGet_buildParseTable grammar firstSets followSets A b hkeys
    by_cases hhas : mapHas grammar A = true
    · rw [if_pos hhas] at hcell
      rw [hcell] at hcellsync
      unfold rowCell at hcellsync
      simp only [] at hcellsync
      by_cases hb : b ∈ mapGet followSets A
      · exact Or.inl ⟨hhas, hb⟩
      · right
        simp only [hb, decide_False, Bool.false_and, Bool.false_eq_true, if_false]
          at hcellsync
        rcases lastClaim_some _ _ _ _ hcellsync with ⟨h1, h2⟩ | h1
        · exact ⟨h1, of_decide_eq_true h2⟩
        · cases h1
    · rw [if_neg hhas] at hcell
      rw [hcell] at hcellsync
      cases hcellsync

theorem buildParseTable_follow_cells_witness :
    ([("S".toList, ["A b".toList]), ("A".toList, ["a".toList, "c".toList])].map
        Prod.fst).Nodup
    ∧ ∃ v,
        tableGet
          (buildParseTable
            [("S".toList, ["A b".toList]), ("A".toList, ["a".toList, "c".toList])]
            [("A".toList, ["a".toList, "c".toList]), ("S".toList, ["a".toList, "c".toList])]
            [("S".toList, ["$".toList]), ("A".toList, ["b".toList])])
          "A".toList "b".toList = some v
        ∧ v ≠ []
        ∧ ((v ∈ mapGet
              [("S".toList, ["A b".toList]), ("A".toList, ["a".toList, "c".toList])]
              "A".toList
            ∧ claimsCell
              [("S".toList, ["A b".toList]), ("A".toList, ["a".toList, "c".toList])]
              [("A".toList, ["a".toList, "c".toList]), ("S".toList, ["a".toList, "c".toList])]
              [("S".toList, ["$".toList]), ("A".toList, ["b".toList])] "A".toList v
              "b".toList)
          ∨ v = "sync".toList) :=
  ⟨by decide,
    (buildParseTable_follow_cells
      [("S".toList, ["A b".toList]), ("A".toList, ["a".toList, "c".toList])]
      [("A".toList, ["a".toList, "c".toList]), ("S".toList, ["a".toList, "c".toList])]
      [("S".toList, ["$".toList]), ("A".toList, ["b".toList])]
      (by decide)).1 "A".toList "b".toList (by decide) (by decide)⟩

/-! ## C23: the table of the expression grammar -/

/-- C23 (evaluation at the failing input): for the grammar file line `E -> E + T | T`
`analyzeGrammar` leaves `E -> E'`, `E' -> E + T | T` (see C13) and both `Table[E', $]` and
`Table[E', +]` are `sync`.  For the line `E ->E + T|T`, where the left recursion is found,
it leaves `E -> T E'`, `E' -> + T E' | ^`: `E'` has no `ε` production, `^` is an ordinary
terminal with its own cell, `Table[E', +]` is ` + T E'`, and `Table[E', $]` is `sync`,
not an `ε` production. -/
theorem buildParseTable_expression_grammar :
    analyzeGrammar (loadGrammarFromFile "E -> E + T | T".toList)
      = ([("E".toList, [" E'".toList]), ("E'".toList, ["E + T".toList, "T".toList])], true)
    ∧ (tableOf (analyzeGrammar (loadGrammarFromFile "E -> E + T | T".toList)).1).map
        (fun parseTable =>
          (tableGet parseTable "E'".toList "$".toList,
            tableGet parseTable "E'".toList "+".toList))
      = some (some "sync".toList, some "sync".toList)
    ∧ analyzeGrammar (loadGrammarFromFile "E ->E + T|T".toList)
      = ([("E".toList, ["T E'".toList]),
          ("E'".toList, [" + T E'".toList, "^".toList])], true)
    ∧ EPSILON ∉ mapGet (analyzeGrammar (loadGrammarFromFile "E ->E + T|T".toList)).1
        "E'".toList
    ∧ (computeFirstAndFollow
        (analyzeGrammar (loadGrammarFromFile "E ->E + T|T".toList)).1).map
        (fun sets => (mapGet sets.1 "E'".toList, mapGet sets.2 "E'".toList))
      = some (["+".toList, "^".toList], ["$".toList])
    ∧ (tableOf (analyzeGrammar (loadGrammarFromFile "E ->E + T|T".toList)).1).map
        (fun parseTable =>
          (tableGet parseTable "E'".toList "$".toList,
            tableGet parseTable "E'".toList "+".toList,
            tableGet parseTable "E'".toList "^".toList))
      = some (some "sync".toList, some " + T E'".toList, some "^".toList) := by
  decide!

/-! ## C25 and C26: cells that hold `sync` or `ε` -/

/-- C25 (evaluation at the failing inputs): for `S -> x A b`, `A -> a` the cell `Table[A, b]`
holds `sync`.  On the input `x b` the step that finds `A` on the stack and `b` as the
current token takes `sync` for a production: it records `Expand: A -> sync`, pushes the
symbol `sync`, writes no error and leaves `success` set; the run then ends in mismatches
against the pushed `sync`.  For `S -> x A sync`, `A -> a` the cell `Table[A, sync]` holds
the marker, and the input `x sync sync` is reported as successfully parsed with no error. -/
theorem parseInput_expands_sync :
    analyzeGrammar (loadGrammarFromFile "S -> x A b\nA -> a".toList)
      = (loadGrammarFromFile "S -> x A b\nA -> a".toList, true)
    ∧ (tableOf (loadGrammarFromFile "S -> x A b\nA -> a".toList)).map
        (fun parseTable => tableGet parseTable "A".toList "b".toList)
      = some (some "sync".toList)
    ∧ (computeFirstAndFollow (loadGrammarFromFile "S -> x A b\nA -> a".toList)).map
        (fun sets =>
          parseStep (loadGrammarFromFile "S -> x A b\nA -> a".toList) sets.2
            (buildParseTable (loadGrammarFromFile "S -> x A b\nA -> a".toList) sets.1
              sets.2)
            (inputTokens "x b".toList)
            { parsingStack := ["A".toList, "b".toList, "$".toList]
              tokenIndex := 1
              success := true
              parseTree := [("S".toList, ["x".toList, "A".toList, "b".toList])]
              console := ["Expand: S ->  x A b".toList, "Match: x".toList]
              errorFile := [] })
      = some
        { parsingStack := ["sync".toList, "b".toList, "$".toList]
          tokenIndex := 1
          success := true
          parseTree :=
            [("S".toList, ["x".toList, "A".toList, "b".toList]),
              ("A".toList, ["sync".toList])]
          console :=
            ["Expand: S ->  x A b".toList, "Match: x".toList, "Expand: A -> sync".toList]
          errorFile := [] }
    ∧ parseWith 10 (loadGrammarFromFile "S -> x A b\nA -> a".toList) "x b".toList
        "S".toList
      = some
        { parsingStack := ["sync".toList, "b".toList, "$".toList]
          tokenIndex := 3
          success := false
          parseTree :=
            [("S".toList, ["x".toList, "A".toList, "b".toList]),
              ("A".toList, ["sync".toList])]
          console :=
            ["Expand: S ->  x A b".toList, "Match: x".toList, "Expand: A -> sync".toList,
              "Error: Unexpected token 'b'. Expected: 'sync'.".toList,
              "Error: Unexpected token '$'. Expected: 'sync'.".toList,
              "Parsing failed.".toList]
          errorFile :=
            ["Error: Unexpected token 'b'. Expected: 'sync'.".toList,
              "Error: Unexpected token '$'. Expected: 'sync'.".toList,
              "Parsing failed".toList] }
    ∧ analyzeGrammar (loadGrammarFromFile "S -> x A sync\nA -> a".toList)
      = (loadGrammarFromFile "S -> x A sync\nA -> a".toList, true)
    ∧ (tableOf (loadGrammarFromFile "S -> x A sync\nA -> a".toList)).map
        (fun parseTable => tableGet parseTable "A".toList "sync".toList)
      = some (some "sync".toList)
    ∧ parseWith 10 (loadGrammarFromFile "S -> x A sync\nA -> a".toList)
        "x sync sync".toList "S".toList
      = some
        { parsingStack := []
          tokenIndex := 4
          success := true
          parseTree :=
            [("S".toList, ["x".toList, "A".toList, "sync".toList]),
              ("A".toList, ["sync".toList])]
          console :=
            ["Expand: S ->  x A sync".toList, "Match: x".toList, "Expand: A -> sync".toList,
              "Match: sync".toList, "Match: sync".toList, "Match: $".toList,
              "Input successfully parsed.".toList]
          errorFile := [] } := by
  decide!

/-- C26 (counterexample): for `S -> a A`, `A -> ε` (the second line written `A ->ε`) the
cell `Table[A, $]` holds the text `ε`.  On the input `a` the step that expands `A` with it
pushes nothing and leaves the tree as it is: the finished tree has the children of `S` and
no entry, so no `ε` leaf, for `A`. -/
theorem parseInput_epsilon_leaves_no_leaf :
    analyzeGrammar (loadGrammarFromFile "S -> a A\nA ->ε".toList)
      = (loadGrammarFromFile "S -> a A\nA ->ε".toList, true)
    ∧ (tableOf (loadGrammarFromFile "S -> a A\nA ->ε".toList)).map
        (fun parseTable => tableGet parseTable "A".toList "$".toList)
      = some (some EPSILON)
    ∧ parseWith 10 (loadGrammarFromFile "S -> a A\nA ->ε".toList) "a".toList "S".toList
      = some
        { parsingStack := []
          tokenIndex := 2
          success := true
          parseTree := [("S".toList, ["a".toList, "A".toList])]
          console :=
            ["Expand: S ->  a A".toList, "Match: a".toList, "Expand: A -> ε".toList,
              "Match: $".toList, "Input successfully parsed.".toList]
          errorFile := [] }
    ∧ List.lookup "A".toList [("S".toList, ["a".toList, "A".toList])] = none := by
  decide!

/-! ## The four kinds of step of `parseInput` -/

theorem parseStep_eq_of_match (grammar followSets : StrMap) (parseTable : ParseTable)
    (tokens : List (List Char)) (st : ParseState) (top : List Char)
    (rest : List (List Char))
    (hstack : st.parsingStack = top :: rest)
    (htoken : tokens.get? st.tokenIndex = some top) :
    parseStep grammar followSets parseTable tokens st
      = { st with
          parsingStack := rest
          tokenIndex := st.tokenIndex + 1
          console := st.console ++ ["Match: ".toList ++ top] } := by
  unfold parseStep
  rw [hstack, htoken]
  simp

theorem parseStep_eq_of_mismatch (grammar followSets : StrMap) (parseTable : ParseTable)
    (tokens : List (List Char)) (st : ParseState) (top currentToken : List Char)
    (rest : List (List Char))
    (hstack : st.parsingStack = top :: rest)
    (htoken : tokens.get? st.tokenIndex = some currentToken)
    (hne : top ≠ currentToken)
    (hterminal : isTerminal grammar top = true ∨ top = "$".toList) :
    parseStep grammar followSets parseTable tokens st
      = { st with
          tokenIndex := st.tokenIndex + 1
          success := false
          console := st.console
            ++ ["Error: Unexpected token '".toList ++ currentToken
              ++ "'. Expected: '".toList ++ top ++ "'.".toList]
          errorFile := st.errorFile
            ++ ["Error: Unexpected token '".toList ++ currentToken
              ++ "'. Expected: '".toList ++ top ++ "'.".toList] } := by
  unfold parseStep
  rw [hstack, htoken]
  have h2 : (isTerminal grammar top || decide (top = "$".toList)) = true := by
    rcases hterminal with h | h
    · simp [h]
    · simp [h]
  simp only [if_neg hne, h2, if_true]

theorem parseStep_eq_of_expand (grammar followSets : StrMap) (parseTable : ParseTable)
    (tokens : List (List Char)) (st : ParseState) (top currentToken production : List Char)
    (rest : List (List Char))
    (hstack : st.parsingStack = top :: rest)
    (htoken : tokens.get? st.tokenIndex = some currentToken)
    (hne : top ≠ currentToken)
    (hnonterminal : isTerminal grammar top = false) (hdollar : top ≠ "$".toList)
    (hcell : tableGet parseTable top currentToken = some production) :
    parseStep grammar followSets parseTable tokens st
      = { st with
          parsingStack := (if production ≠ EPSILON then words production else []) ++ rest
          parseTree :=
            if production ≠ EPSILON then assocSet st.parseTree top (words production)
            else st.parseTree
          console := st.console
            ++ ["Expand: ".toList ++ top ++ " -> ".toList ++ production] } := by
  unfold parseStep
  rw [hstack, htoken]
  have h2 : (isTerminal grammar top || decide (top = "$".toList)) = false := by
    rw [hnonterminal, Bool.false_or]
    exact decide_eq_false hdollar
  simp only [if_neg hne, h2, Bool.false_eq_true, if_false, hcell]
  by_cases he : production = EPSILON
  · simp [he]
  · simp [he]

theorem parseStep_eq_of_panic (grammar followSets : StrMap) (parseTable : ParseTable)
    (tokens : List (List Char)) (st : ParseState) (top currentToken : List Char)
    (rest : List (List Char))
    (hstack : st.parsingStack = top :: rest)
    (htoken : tokens.get? st.tokenIndex = some currentToken)
    (hne : top ≠ currentToken)
    (hnonterminal : isTerminal grammar top = false) (hdollar : top ≠ "$".toList)
    (hcell : tableGet parseTable top currentToken = none) :
    parseStep grammar followSets parseTable tokens st
      = { st with
          parsingStack := rest
          tokenIndex := panicSkip (mapGet followSets top) (tokens.drop st.tokenIndex)
            st.tokenIndex
          success := false
          console := st.console
            ++ ["Error: No rule for '".toList ++ top ++ "' with token '".toList
              ++ currentToken ++ "'. Entering Panic Mode.".toList]
          errorFile := st.errorFile
            ++ ["Error: No rule for '".toList ++ top ++ "' with token '".toList
              ++ currentToken ++ "'. Entering Panic Mode.".toList] } := by
  unfold parseStep
  rw [hstack, htoken]
  have h2 : (isTerminal grammar top || decide (top = "$".toList)) = false := by
    rw [hnonterminal, Bool.false_or]
    exact decide_eq_false hdollar
  simp only [if_neg hne, h2, Bool.false_eq_true, if_false, hcell]

/-- Where the inner loop of the panic mode stops: between the position it starts at and the
end of the tokens, after tokens that are all outside `follow`, at a token of `follow` if it
stops before the end. -/
theorem panicSkip_spec (follow : StrSet) :
    ∀ (l : List (List Char)) (i : Nat),
      i ≤ panicSkip follow l i ∧ panicSkip follow l i ≤ i + l.length
      ∧ (∀ k t, k < panicSkip follow l i - i → l.get? k = some t → t ∉ follow)
      ∧ (∀ t, l.get? (panicSkip follow l i - i) = some t → t ∈ follow) := by
  intro l
  induction l with
  | nil =>
    intro i
    simp [panicSkip]
  | cons c l ih =>
    intro i
    by_cases hc : follow.contains c = true
    · have hmem : c ∈ follow := by simpa using hc
      simp only [panicSkip, hc, if_true]
      refine ⟨le_refl _, Nat.le_add_right _ _, ?_, ?_⟩
      · intro k t hk
        simp at hk
      · intro t ht
        simp at ht
        rw [← ht]
        exact hmem
    · have hmem : c ∉ follow := by simpa using hc
      obtain ⟨h1, h2, h3, h4⟩ := ih (i + 1)
      simp only [panicSkip, hc, Bool.false_eq_true, if_false]
      refine ⟨by omega, by simp only [List.length_cons]; omega, ?_, ?_⟩
      · intro k t hk hget
        cases k with
        | zero =>
          simp at hget
          rw [← hget]
          exact hmem
        | succ k =>
          simp only [List.get?_cons_succ] at hget
          exact h3 k t (by omega) hget
      · intro t ht
        have hsub : panicSkip follow l (i + 1) - i
            = (panicSkip follow l (i + 1) - (i + 1)) + 1 := by
          omega
        rw [hsub, List.get?_cons_succ] at ht
        exact h4 t ht

/-! ## C26, C27, C28: what each step does -/

/-- C26 (amended): in `parseInput`, an expand step with a production `top -> Y1 … Yk` that
is not the `sync` marker and has no `ε` among its symbols pops `top`, records `Y1 … Yk` in
order as the children of `top` in the tree, and leaves `Y1` on top of the stack with
`Y2 … Yk` beneath it in order, above the rest of the stack; when the production is the text
`ε` nothing is pushed and the tree is left as it was (no leaf is recorded).  In both cases
the cursor stays and no error is recorded. -/
theorem parseStep_expand (grammar followSets : StrMap) (parseTable : ParseTable)
    (tokens : List (List Char)) (st : ParseState) (top currentToken production : List Char)
    (rest : List (List Char))
    (hstack : st.parsingStack = top :: rest)
    (htoken : tokens.get? st.tokenIndex = some currentToken)
    (hne : top ≠ currentToken)
    (hnonterminal : isTerminal grammar top = false) (hdollar : top ≠ "$".toList)
    (hcell : tableGet parseTable top currentToken = some production)
    (_hsync : production ≠ "sync".toList)
    (_hsymbols : production = EPSILON ∨ EPSILON ∉ words production) :
    (production ≠ EPSILON →
        (parseStep grammar followSets parseTable tokens st).parsingStack
          = words production ++ rest
        ∧ (parseStep grammar followSets parseTable tokens st).parseTree.lookup top
          = some (words production)
        ∧ ∀ other, other ≠ top →
          (parseStep grammar followSets parseTable tokens st).parseTree.lookup other
            = st.parseTree.lookup other)
    ∧ (production = EPSILON →
        (parseStep grammar followSets parseTable tokens st).parsingStack = rest
        ∧ (parseStep grammar followSets parseTable tokens st).parseTree = st.parseTree)
    ∧ (parseStep grammar followSets parseTable tokens st).tokenIndex = st.tokenIndex
    ∧ (parseStep grammar followSets parseTable tokens st).success = st.success
    ∧ (parseStep grammar followSets parseTable tokens st).errorFile = st.errorFile := by
  rw [parseStep_eq_of_expand grammar followSets parseTable tokens st top currentToken production
    rest hstack htoken hne hnonterminal hdollar hcell]
  refine ⟨?_, ?_, rfl, rfl, rfl⟩
  · intro he
    refine ⟨?_, ?_, ?_⟩
    · show (if production ≠ EPSILON then words production else []) ++ rest
        = words production ++ rest
      rw [if_pos he]
    · show (if production ≠ EPSILON then assocSet st.parseTree top (words production)
        else st.parseTree).lookup top = some (words production)
      rw [if_pos he, lookup_assocSet, if_pos rfl]
    · intro other hother
      show (if production ≠ EPSILON then assocSet st.parseTree top (words production)
        else st.parseTree).lookup other = st.parseTree.lookup other
      rw [if_pos he, lookup_assocSet, if_neg hother]
  · intro he
    have he2 : ¬ production ≠ EPSILON := fun h => h he
    refine ⟨?_, ?_⟩
    · show (if production ≠ EPSILON then words production else []) ++ rest = rest
      rw [if_neg he2]
      rfl
    · show (if production ≠ EPSILON then assocSet st.parseTree top (words production)
        else st.parseTree) = st.parseTree
      rw [if_neg he2]

theorem parseStep_expand_witness :
    tableGet [("S".toList, [("a".toList, "a A".toList)])] "S".toList "a".toList
      = some "a A".toList
    ∧ (parseStep [("S".toList, ["a A".toList]), ("A".toList, [EPSILON])]
        [("S".toList, ["$".toList]), ("A".toList, ["$".toList])]
        [("S".toList, [("a".toList, "a A".toList)])]
        ["a".toList, "$".toList] (initialState "S".toList)).parsingStack
      = ["a".toList, "A".toList, "$".toList]
    ∧ (parseStep [("S".toList, ["a A".toList]), ("A".toList, [EPSILON])]
        [("S".toList, ["$".toList]), ("A".toList, ["$".toList])]
        [("S".toList, [("a".toList, "a A".toList)])]
        ["a".toList, "$".toList] (initialState "S".toList)).parseTree.lookup "S".toList
      = some ["a".toList, "A".toList] :=
  ⟨by decide,
    ((parseStep_expand [("S".toList, ["a A".toList]), ("A".toList, [EPSILON])]
      [("S".toList, ["$".toList]), ("A".toList, ["$".toList])]
      [("S".toList, [("a".toList, "a A".toList)])]
      ["a".toList, "$".toList] (initialState "S".toList) "S".toList "a".toList
      "a A".toList ["$".toList] rfl rfl (by decide) (by decide) (by decide) (by decide)
      (by decide) (Or.inr (by decide))).1 (by decide)).1,
    ((parseStep_expand [("S".toList, ["a A".toList]), ("A".toList, [EPSILON])]
      [("S".toList, ["$".toList]), ("A".toList, ["$".toList])]
      [("S".toList, [("a".toList, "a A".toList)])]
      ["a".toList, "$".toList] (initialState "S".toList) "S".toList "a".toList
      "a A".toList ["$".toList] rfl rfl (by decide) (by decide) (by decide) (by decide)
      (by decide) (Or.inr (by decide))).1 (by decide)).2.1⟩

/-- C27: in `parseInput`, when the stack top is a non-terminal (and not the current token)
with no table cell for the current token, the step records one error, advances the cursor
to the first position at or after the current one whose token is in `FOLLOW(top)` (or past
the end if there is none), and pops exactly `top`; the rest of the stack and the tree are
unchanged. -/
theorem parseStep_panic (grammar followSets : StrMap) (parseTable : ParseTable)
    (tokens : List (List Char)) (st : ParseState) (top currentToken : List Char)
    (rest : List (List Char))
    (hstack : st.parsingStack = top :: rest)
    (htoken : tokens.get? st.tokenIndex = some currentToken)
    (hne : top ≠ currentToken)
    (hnonterminal : isTerminal grammar top = false) (hdollar : top ≠ "$".toList)
    (hcell : tableGet parseTable top currentToken = none) :
    (parseStep grammar followSets parseTable tokens st).parsingStack = rest
    ∧ (parseStep grammar followSets parseTable tokens st).success = false
    ∧ (parseStep grammar followSets parseTable tokens st).errorFile
      = st.errorFile
        ++ ["Error: No rule for '".toList ++ top ++ "' with token '".toList
          ++ currentToken ++ "'. Entering Panic Mode.".toList]
    ∧ (parseStep grammar followSets parseTable tokens st).parseTree = st.parseTree
    ∧ st.tokenIndex ≤ (parseStep grammar followSets parseTable tokens st).tokenIndex
    ∧ (parseStep grammar followSets parseTable tokens st).tokenIndex ≤ tokens.length
    ∧ (∀ i t, st.tokenIndex ≤ i →
        i < (parseStep grammar followSets parseTable tokens st).tokenIndex →
        tokens.get? i = some t → t ∉ mapGet followSets top)
    ∧ (∀ t,
        tokens.get? (parseStep grammar followSets parseTable tokens st).tokenIndex = some t →
        t ∈ mapGet followSets top) := by
  rw [parseStep_eq_of_panic grammar followSets parseTable tokens st top currentToken rest hstack
    htoken hne hnonterminal hdollar hcell]
  obtain ⟨h1, h2, h3, h4⟩ := panicSkip_spec (mapGet followSets top)
    (tokens.drop st.tokenIndex) st.tokenIndex
  have hlt : st.tokenIndex < tokens.length := by
    rcases Nat.lt_or_ge st.tokenIndex tokens.length with h | h
    · exact h
    · rw [List.get?_eq_none.2 h] at htoken
      cases htoken
  refine ⟨rfl, rfl, rfl, rfl, h1, ?_, ?_, ?_⟩
  · simp only [List.length_drop] at h2
    show panicSkip (mapGet followSets top) (tokens.drop st.tokenIndex) st.tokenIndex
      ≤ tokens.length
    omega
  · intro i t hi hlt2 hget
    refine h3 (i - st.tokenIndex) t ?_ ?_
    · show i - st.tokenIndex
        < panicSkip (mapGet followSets top) (tokens.drop st.tokenIndex) st.tokenIndex
          - st.tokenIndex
      have hlt3 : i < panicSkip (mapGet followSets top) (tokens.drop st.tokenIndex)
          st.tokenIndex := hlt2
      omega
    · rw [List.get?_eq_getElem?, List.getElem?_drop, ← List.get?_eq_getElem?]
      have hi2 : st.tokenIndex + (i - st.tokenIndex) = i := by omega
      rw [hi2]
      exact hget
  · intro t hget
    refine h4 t ?_
    rw [List.get?_eq_getElem?, List.getElem?_drop, ← List.get?_eq_getElem?]
    have hi2 : st.tokenIndex
        + (panicSkip (mapGet followSets top) (tokens.drop st.tokenIndex) st.tokenIndex
          - st.tokenIndex)
        = panicSkip (mapGet followSets top) (tokens.drop st.tokenIndex) st.tokenIndex := by
      omega
    rw [hi2]
    exact hget

theorem parseStep_panic_witness :
    tableGet [("S".toList, [("a".toList, "a".toList)])] "S".toList "b".toList = none
    ∧ (parseStep [("S".toList, ["a".toList])] [("S".toList, ["$".toList])]
        [("S".toList, [("a".toList, "a".toList)])]
        ["b".toList, "c".toList, "$".toList] (initialState "S".toList)).parsingStack
      = ["$".toList]
    ∧ (parseStep [("S".toList, ["a".toList])] [("S".toList, ["$".toList])]
        [("S".toList, [("a".toList, "a".toList)])]
        ["b".toList, "c".toList, "$".toList] (initialState "S".toList)).tokenIndex = 2 :=
  ⟨by decide,
    (parseStep_panic [("S".toList, ["a".toList])] [("S".toList, ["$".toList])]
      [("S".toList, [("a".toList, "a".toList)])]
      ["b".toList, "c".toList, "$".toList] (initialState "S".toList) "S".toList "b".toList
      ["$".toList] rfl rfl (by decide) (by decide) (by decide) (by decide)).1,
    by decide⟩

/-- C28: in `parseInput`, when the stack top is a terminal (or `$`) different from the
current token, the step records an error, advances the cursor by exactly one token, and
leaves the stack (and the tree) unchanged. -/
theorem parseStep_terminal_mismatch (grammar followSets : StrMap) (parseTable : ParseTable)
    (tokens : List (List Char)) (st : ParseState) (top currentToken : List Char)
    (rest : List (List Char))
    (hstack : st.parsingStack = top :: rest)
    (htoken : tokens.get? st.tokenIndex = some currentToken)
    (hterminal : isTerminal grammar top = true ∨ top = "$".toList)
    (hne : top ≠ currentToken) :
    (parseStep grammar followSets parseTable tokens st).parsingStack = st.parsingStack
    ∧ (parseStep grammar followSets parseTable tokens st).tokenIndex = st.tokenIndex + 1
    ∧ (parseStep grammar followSets parseTable tokens st).success = false
    ∧ (parseStep grammar followSets parseTable tokens st).errorFile
      = st.errorFile
        ++ ["Error: Unexpected token '".toList ++ currentToken
          ++ "'. Expected: '".toList ++ top ++ "'.".toList]
    ∧ (parseStep grammar followSets parseTable tokens st).parseTree = st.parseTree := by
  rw [parseStep_eq_of_mismatch grammar followSets parseTable tokens st top currentToken rest
    hstack htoken hne hterminal]
  exact ⟨rfl, rfl, rfl, rfl, rfl⟩

theorem parseStep_terminal_mismatch_witness :
    isTerminal [("S".toList, ["a".toList])] "a".toList = true
    ∧ (parseStep [("S".toList, ["a".toList])] [("S".toList, ["$".toList])]
        [("S".toList, [("a".toList, "a".toList)])]
        ["b".toList, "$".toList]
        { parsingStack := ["a".toList, "$".toList]
          tokenIndex := 0
          success := true
          parseTree := [("S".toList, ["a".toList])]
          console := ["Expand: S -> a".toList]
          errorFile := [] }).tokenIndex = 1
    ∧ (parseStep [("S".toList, ["a".toList])] [("S".toList, ["$".toList])]
        [("S".toList, [("a".toList, "a".toList)])]
        ["b".toList, "$".toList]
        { parsingStack := ["a".toList, "$".toList]
          tokenIndex := 0
          success := true
          parseTree := [("S".toList, ["a".toList])]
          console := ["Expand: S -> a".toList]
          errorFile := [] }).parsingStack = ["a".toList, "$".toList] :=
  ⟨by decide,
    (parseStep_terminal_mismatch [("S".toList, ["a".toList])] [("S".toList, ["$".toList])]
      [("S".toList, [("a".toList, "a".toList)])]
      ["b".toList, "$".toList]
      { parsingStack := ["a".toList, "$".toList]
        tokenIndex := 0
        success := true
        parseTree := [("S".toList, ["a".toList])]
        console := ["Expand: S -> a".toList]
        errorFile := [] }
      "a".toList "b".toList ["$".toList] rfl rfl (Or.inl (by decide)) (by decide)).2.1,
    (parseStep_terminal_mismatch [("S".toList, ["a".toList])] [("S".toList, ["$".toList])]
      [("S".toList, [("a".toList, "a".toList)])]
      ["b".toList, "$".toList]
      { parsingStack := ["a".toList, "$".toList]
        tokenIndex := 0
        success := true
        parseTree := [("S".toList, ["a".toList])]
        console := ["Expand: S -> a".toList]
        errorFile := [] }
      "a".toList "b".toList ["$".toList] rfl rfl (Or.inl (by decide)) (by decide)).1⟩

/-! ## The run of the main loop -/

theorem loopCondition_true (tokens : List (List Char)) (st : ParseState)
    (h : loopCondition tokens st = true) :
    ∃ top rest currentToken, st.parsingStack = top :: rest
      ∧ tokens.get? st.tokenIndex = some currentToken := by
  unfold loopCondition at h
  rw [Bool.and_eq_true] at h
  obtain ⟨h1, h2⟩ := h
  have hlt : st.tokenIndex < tokens.length := of_decide_eq_true h2
  cases hs : st.parsingStack with
  | nil => rw [hs] at h1; simp at h1
  | cons top rest =>
    exact ⟨top, rest, tokens.get ⟨st.tokenIndex, hlt⟩, rfl, List.get?_eq_get hlt⟩

theorem stepKind_of_not_loopCondition (grammar : StrMap) (parseTable : ParseTable)
    (tokens : List (List Char)) (st : ParseState)
    (h : loopCondition tokens st = false) :
    stepKind grammar parseTable tokens st = none := by
  unfold stepKind
  cases hs : st.parsingStack with
  | nil => rfl
  | cons top rest =>
    cases ht : tokens.get? st.tokenIndex with
    | none => rfl
    | some currentToken =>
      exfalso
      have hlt : st.tokenIndex < tokens.length := by
        rcases Nat.lt_or_ge st.tokenIndex tokens.length with h1 | h1
        · exact h1
        · rw [List.get?_eq_none.2 h1] at ht
          cases ht
      unfold loopCondition at h
      rw [hs] at h
      simp [hlt] at h

/-- The kind of a step and what the step does to `success` and to the error file: a match
or expand step leaves both, a mismatch or panic step clears `success` and writes one
line. -/
theorem parseStep_of_kind (grammar followSets : StrMap) (parseTable : ParseTable)
    (tokens : List (List Char)) (st : ParseState)
    (h : loopCondition tokens st = true) :
    ∃ kind, stepKind grammar parseTable tokens st = some kind
      ∧ ((kind = StepKind.matching ∨ kind = StepKind.expand) →
          (parseStep grammar followSets parseTable tokens st).success = st.success
          ∧ (parseStep grammar followSets parseTable tokens st).errorFile = st.errorFile)
      ∧ ((kind = StepKind.mismatch ∨ kind = StepKind.panic) →
          (parseStep grammar followSets parseTable tokens st).success = false
          ∧ ∃ line, (parseStep grammar followSets parseTable tokens st).errorFile
              = st.errorFile ++ [line]) := by
  obtain ⟨top, rest, currentToken, hstack, htoken⟩ := loopCondition_true tokens st h
  by_cases heq : top = currentToken
  · subst heq
    refine ⟨StepKind.matching, ?_, ?_, ?_⟩
    · unfold stepKind
      rw [hstack, htoken]
      simp
    · intro _
      rw [parseStep_eq_of_match grammar followSets parseTable tokens st top rest hstack htoken]
      exact ⟨rfl, rfl⟩
    · rintro (h1 | h1) <;> cases h1
  · by_cases hterm : isTerminal grammar top = true ∨ top = "$".toList
    · have h2 : (isTerminal grammar top || decide (top = "$".toList)) = true := by
        rcases hterm with h1 | h1
        · simp [h1]
        · simp [h1]
      refine ⟨StepKind.mismatch, ?_, ?_, ?_⟩
      · unfold stepKind
        rw [hstack, htoken]
        simp only [if_neg heq, h2, if_true]
      · rintro (h1 | h1) <;> cases h1
      · intro _
        rw [parseStep_eq_of_mismatch grammar followSets parseTable tokens st top currentToken
          rest hstack htoken heq hterm]
        exact ⟨rfl, _, rfl⟩
    · have hnt : isTerminal grammar top = false := by
        cases hb : isTerminal grammar top with
        | false => rfl
        | true => exact absurd (Or.inl hb) hterm
      have hd : top ≠ "$".toList := fun e => hterm (Or.inr e)
      have h2 : (isTerminal grammar top || decide (top = "$".toList)) = false := by
        rw [hnt, Bool.false_or]
        exact decide_eq_false hd
      cases hcell : tableGet parseTable top currentToken with
      | some production =>
        refine ⟨StepKind.expand, ?_, ?_, ?_⟩
        · unfold stepKind
          rw [hstack, htoken]
          simp only [if_neg heq, h2, Bool.false_eq_true, if_false, hcell, Option.isSome_some,
            if_true]
        · intro _
          rw [parseStep_eq_of_expand grammar followSets parseTable tokens st top currentToken
            production rest hstack htoken heq hnt hd hcell]
          exact ⟨rfl, rfl⟩
        · rintro (h1 | h1) <;> cases h1
      | none =>
        refine ⟨StepKind.panic, ?_, ?_, ?_⟩
        · unfold stepKind
          rw [hstack, htoken]
          simp only [if_neg heq, h2, Bool.false_eq_true, if_false, hcell, Option.isSome_none]
        · rintro (h1 | h1) <;> cases h1
        · intro _
          rw [parseStep_eq_of_panic grammar followSets parseTable tokens st top currentToken
            rest hstack htoken heq hnt hd hcell]
          exact ⟨rfl, _, rfl⟩

theorem parseLoop_zero (grammar followSets : StrMap) (parseTable : ParseTable)
    (tokens : List (List Char)) (st : ParseState) :
    parseLoop grammar followSets parseTable tokens 0 st
      = if loopCondition tokens st then none else some st := by
  unfold parseLoop
  rfl

theorem parseLoop_succ (grammar followSets : StrMap) (parseTable : ParseTable)
    (tokens : List (List Char)) (fuel : Nat) (st : ParseState) :
    parseLoop grammar followSets parseTable tokens (fuel + 1) st
      = if loopCondition tokens st then
          parseLoop grammar followSets parseTable tokens fuel
            (parseStep grammar followSets parseTable tokens st)
        else some st := by
  conv => lhs; unfold parseLoop

theorem parseLoop_indirect_left_recursion :
    ∀ (fuel : Nat) (st : ParseState), st.tokenIndex = 0 →
      (∃ rest, st.parsingStack = "A".toList :: rest ∨ st.parsingStack = "B".toList :: rest) →
      parseLoop [("A".toList, ["a".toList, "B x".toList]), ("B".toList, ["A y".toList])]
        [("A".toList, ["$".toList, "y".toList]), ("B".toList, ["x".toList])]
        [("A".toList,
            [("a".toList, "B x".toList), ("$".toList, "sync".toList),
              ("y".toList, "sync".toList)]),
          ("B".toList, [("a".toList, "A y".toList), ("x".toList, "sync".toList)])]
        ["a".toList, "$".toList] fuel st = none := by
  intro fuel
  induction fuel with
  | zero =>
    intro st hidx hstack
    rw [parseLoop_zero]
    obtain ⟨rest, h | h⟩ := hstack
    · simp [loopCondition, hidx, h]
    · simp [loopCondition, hidx, h]
  | succ fuel ih =>
    intro st hidx hstack
    rw [parseLoop_succ]
    have htoken : ["a".toList, "$".toList].get? st.tokenIndex = some "a".toList := by
      rw [hidx]
      rfl
    obtain ⟨rest, h | h⟩ := hstack
    · have hc : loopCondition ["a".toList, "$".toList] st = true := by
        simp [loopCondition, hidx, h]
      rw [if_pos hc]
      apply ih
      · rw [parseStep_eq_of_expand _ _ _ _ st "A".toList "a".toList "B x".toList rest h htoken
          (by decide) (by decide) (by decide) (by decide)]
        exact hidx
      · rw [parseStep_eq_of_expand _ _ _ _ st "A".toList "a".toList "B x".toList rest h htoken
          (by decide) (by decide) (by decide) (by decide)]
        exact ⟨"x".toList :: rest, Or.inr rfl⟩
    · have hc : loopCondition ["a".toList, "$".toList] st = true := by
        simp [loopCondition, hidx, h]
      rw [if_pos hc]
      apply ih
      · rw [parseStep_eq_of_expand _ _ _ _ st "B".toList "a".toList "A y".toList rest h htoken
          (by decide) (by decide) (by decide) (by decide)]
        exact hidx
      · rw [parseStep_eq_of_expand _ _ _ _ st "B".toList "a".toList "A y".toList rest h htoken
          (by decide) (by decide) (by decide) (by decide)]
        exact ⟨"y".toList :: rest, Or.inl rfl⟩

/-- C30 (counterexample): the grammar `A -> a | B x`, `B -> A y` has no immediate left
recursion and no common first symbols, so `analyzeGrammar` accepts it unchanged.  In its
table both `Table[A, a] = B x` and `Table[B, a] = A y`, and on the input `a` from the start
symbol `A` the main loop expands `A` and `B` in turn for ever: no amount of fuel lets
`parseInput` return. -/
theorem parseInput_loops_on_indirect_left_recursion :
    analyzeGrammar (loadGrammarFromFile "A ->a|B x\nB ->A y".toList)
      = (loadGrammarFromFile "A ->a|B x\nB ->A y".toList, true)
    ∧ (tableOf (loadGrammarFromFile "A ->a|B x\nB ->A y".toList)).map
        (fun parseTable =>
          (tableGet parseTable "A".toList "a".toList,
            tableGet parseTable "B".toList "a".toList))
      = some (some "B x".toList, some "A y".toList)
    ∧ ∀ fuel,
        parseWith fuel (loadGrammarFromFile "A ->a|B x\nB ->A y".toList) "a".toList
          "A".toList = none := by
  refine ⟨by decide!, by decide!, ?_⟩
  intro fuel
  have hg : loadGrammarFromFile "A ->a|B x\nB ->A y".toList
      = [("A".toList, ["a".toList, "B x".toList]), ("B".toList, ["A y".toList])] := by
    decide!
  have hsets : computeFirstAndFollow
      [("A".toList, ["a".toList, "B x".toList]), ("B".toList, ["A y".toList])]
      = some
        ([("A".toList, ["a".toList]), ("B".toList, ["a".toList])],
          [("A".toList, ["$".toList, "y".toList]), ("B".toList, ["x".toList])]) := by
    decide!
  have htable : buildParseTable
      [("A".toList, ["a".toList, "B x".toList]), ("B".toList, ["A y".toList])]
      [("A".toList, ["a".toList]), ("B".toList, ["a".toList])]
      [("A".toList, ["$".toList, "y".toList]), ("B".toList, ["x".toList])]
      = [("A".toList,
            [("a".toList, "B x".toList), ("$".toList, "sync".toList),
              ("y".toList, "sync".toList)]),
          ("B".toList, [("a".toList, "A y".toList), ("x".toList, "sync".toList)])] := by
    decide!
  have htokens : inputTokens "a".toList = ["a".toList, "$".toList] := by decide
  rw [hg]
  unfold parseWith
  rw [hsets]
  simp only []
  unfold parseInput
  rw [htable, htokens,
    parseLoop_indirect_left_recursion fuel (initialState "A".toList) rfl
      ⟨["$".toList], Or.inl rfl⟩]
  rfl

theorem mem_of_tableGet (parseTable : ParseTable) (A a p : List Char)
    (h : tableGet parseTable A a = some p) :
    ∃ row ∈ parseTable, ∃ cell ∈ row.2, cell.2 = p := by
  unfold tableGet tableRow at h
  cases hrow : parseTable.lookup A with
  | none =>
    rw [hrow] at h
    simp at h
  | some row =>
    rw [hrow] at h
    exact ⟨(A, row), mem_of_lookup_eq_some parseTable A row hrow, (a, p),
      mem_of_lookup_eq_some row a p h, rfl⟩

theorem lt_length_of_get?_eq_some {α : Type} (l : List α) (i : Nat) (x : α)
    (h : l.get? i = some x) : i < l.length := by
  rcases Nat.lt_or_ge i l.length with h1 | h1
  · exact h1
  · rw [List.get?_eq_none.2 h1] at h
    cases h

/-- Progress of the main loop: a match, mismatch or panic step lowers the sum of the stack
height and the number of tokens left; an expand step raises it by less than the number of
symbols of the production. -/
theorem parseStep_measure (grammar followSets : StrMap) (parseTable : ParseTable)
    (tokens : List (List Char)) (width : Nat) (st : ParseState)
    (hwidth : ∀ row ∈ parseTable, ∀ cell ∈ row.2, (words cell.2).length ≤ width)
    (h : loopCondition tokens st = true) :
    ∃ kind, stepKind grammar parseTable tokens st = some kind
      ∧ (kind ≠ StepKind.expand →
          (parseStep grammar followSets parseTable tokens st).parsingStack.length
            + (tokens.length - (parseStep grammar followSets parseTable tokens st).tokenIndex)
            + 1
          ≤ st.parsingStack.length + (tokens.length - st.tokenIndex))
      ∧ (kind = StepKind.expand →
          (parseStep grammar followSets parseTable tokens st).parsingStack.length
            + (tokens.length - (parseStep grammar followSets parseTable tokens st).tokenIndex)
            + 1
          ≤ st.parsingStack.length + (tokens.length - st.tokenIndex) + width) := by
  obtain ⟨top, rest, currentToken, hstack, htoken⟩ := loopCondition_true tokens st h
  have hlt : st.tokenIndex < tokens.length := lt_length_of_get?_eq_some _ _ _ htoken
  have hlen : st.parsingStack.length = rest.length + 1 := by rw [hstack]; rfl
  by_cases heq : top = currentToken
  · subst heq
    refine ⟨StepKind.matching, ?_, ?_, ?_⟩
    · unfold stepKind
      rw [hstack, htoken]
      simp
    · intro _
      rw [parseStep_eq_of_match grammar followSets parseTable tokens st top rest hstack htoken]
      show rest.length + (tokens.length - (st.tokenIndex + 1)) + 1
        ≤ st.parsingStack.length + (tokens.length - st.tokenIndex)
      omega
    · intro h1; cases h1
  · by_cases hterm : isTerminal grammar top = true ∨ top = "$".toList
    · have h2 : (isTerminal grammar top || decide (top = "$".toList)) = true := by
        rcases hterm with h1 | h1
        · simp [h1]
        · simp [h1]
      refine ⟨StepKind.mismatch, ?_, ?_, ?_⟩
      · unfold stepKind
        rw [hstack, htoken]
        simp only [if_neg heq, h2, if_true]
      · intro _
        rw [parseStep_eq_of_mismatch grammar followSets parseTable tokens st top currentToken
          rest hstack htoken heq hterm]
        show st.parsingStack.length + (tokens.length - (st.tokenIndex + 1)) + 1
          ≤ st.parsingStack.length + (tokens.length - st.tokenIndex)
        omega
      · intro h1; cases h1
    · have hnt : isTerminal grammar top = false := by
        cases hb : isTerminal grammar top with
        | false => rfl
        | true => exact absurd (Or.inl hb) hterm
      have hd : top ≠ "$".toList := fun e => hterm (Or.inr e)
      have h2 : (isTerminal grammar top || decide (top = "$".toList)) = false := by
        rw [hnt, Bool.false_or]
        exact decide_eq_false hd
      cases hcell : tableGet parseTable top currentToken with
      | some production =>
        refine ⟨StepKind.expand, ?_, ?_, ?_⟩
        · unfold stepKind
          rw [hstack, htoken]
          simp only [if_neg heq, h2, Bool.false_eq_true, if_false, hcell, Option.isSome_some,
            if_true]
        · intro h1; exact absurd rfl h1
        · intro _
          rw [parseStep_eq_of_expand grammar followSets parseTable tokens st top currentToken
            production rest hstack htoken heq hnt hd hcell]
          obtain ⟨row, hrow, cell, hcellmem, hp⟩ :=
            mem_of_tableGet parseTable top currentToken production hcell
          have hw : (words production).length ≤ width := by
            rw [← hp]
            exact hwidth row hrow cell hcellmem
          have hsyms : (if production ≠ EPSILON then words production else []).length
              ≤ width := by
            by_cases he : production ≠ EPSILON
            · rw [if_pos he]; exact hw
            · rw [if_neg he]; exact Nat.zero_le _
          show ((if production ≠ EPSILON then words production else []) ++ rest).length
              + (tokens.length - st.tokenIndex) + 1
            ≤ st.parsingStack.length + (tokens.length - st.tokenIndex) + width
          rw [List.length_append]
          omega
      | none =>
        refine ⟨StepKind.panic, ?_, ?_, ?_⟩
        · unfold stepKind
          rw [hstack, htoken]
          simp only [if_neg heq, h2, Bool.false_eq_true, if_false, hcell, Option.isSome_none]
        · intro _
          rw [parseStep_eq_of_panic grammar followSets parseTable tokens st top currentToken
            rest hstack htoken heq hnt hd hcell]
          have hskip := (panicSkip_spec (mapGet followSets top) (tokens.drop st.tokenIndex)
            st.tokenIndex).1
          show rest.length
              + (tokens.length
                - panicSkip (mapGet followSets top) (tokens.drop st.tokenIndex) st.tokenIndex)
              + 1
            ≤ st.parsingStack.length + (tokens.length - st.tokenIndex)
          omega
        · intro h1; cases h1

theorem parseLoop_exits_of_fuel (grammar followSets : StrMap) (parseTable : ParseTable)
    (tokens : List (List Char)) (width : Nat)
    (hwidth : ∀ row ∈ parseTable, ∀ cell ∈ row.2, (words cell.2).length ≤ width) :
    ∀ (fuel : Nat) (st : ParseState) (expansions : Nat),
      (∀ n, (stepKinds grammar followSets parseTable tokens n st).count StepKind.expand
        ≤ expansions) →
      st.parsingStack.length + (tokens.length - st.tokenIndex) + expansions * width < fuel →
      ∃ final, parseLoop grammar followSets parseTable tokens fuel st = some final := by
  intro fuel
  induction fuel with
  | zero => intro st expansions _ h; omega
  | succ fuel ih =>
    intro st expansions hexp hfuel
    rw [parseLoop_succ]
    by_cases hc : loopCondition tokens st = true
    · rw [if_pos hc]
      obtain ⟨kind, hkind, hother, hexpand⟩ :=
        parseStep_measure grammar followSets parseTable tokens width st hwidth hc
      have hkinds : ∀ n, stepKinds grammar followSets parseTable tokens (n + 1) st
          = kind :: stepKinds grammar followSets parseTable tokens n
              (parseStep grammar followSets parseTable tokens st) := by
        intro n
        simp only [stepKinds, hkind]
      by_cases hk : kind = StepKind.expand
      · subst hk
        have hpos : 1 ≤ expansions := by
          have h1 := hexp 1
          rw [hkinds 0] at h1
          simp only [List.count_cons_self] at h1
          omega
        obtain ⟨e, he⟩ : ∃ e, expansions = e + 1 := ⟨expansions - 1, by omega⟩
        subst he
        apply ih _ e
        · intro n
          have h1 := hexp (n + 1)
          rw [hkinds n] at h1
          simp only [List.count_cons_self] at h1
          omega
        · have h1 := hexpand rfl
          rw [Nat.succ_mul] at hfuel
          omega
      · apply ih _ expansions
        · intro n
          have h1 := hexp (n + 1)
          rw [hkinds n, List.count_cons_of_ne (fun e => hk e.symm)] at h1
          exact h1
        · have h1 := hother hk
          omega
    · rw [if_neg hc]
      exact ⟨st, rfl⟩

/-- The expand steps of a run that exits: no prefix of the run has more of them than the
whole run. -/
theorem stepKinds_count_of_exit (grammar followSets : StrMap) (parseTable : ParseTable)
    (tokens : List (List Char)) :
    ∀ (k : Nat) (st final : ParseState),
      parseLoop grammar followSets parseTable tokens k st = some final →
      ∀ n, (stepKinds grammar followSets parseTable tokens n st).count StepKind.expand
        ≤ (stepKinds grammar followSets parseTable tokens k st).count StepKind.expand := by
  intro k
  induction k with
  | zero =>
    intro st final h n
    rw [parseLoop_zero] at h
    by_cases hc : loopCondition tokens st = true
    · rw [if_pos hc] at h
      cases h
    · have hc2 : loopCondition tokens st = false := by
        cases hb : loopCondition tokens st with
        | false => rfl
        | true => exact absurd hb hc
      cases n with
      | zero => exact Nat.le_refl _
      | succ n =>
        simp [stepKinds, stepKind_of_not_loopCondition grammar parseTable tokens st hc2]
  | succ k ih =>
    intro st final h n
    rw [parseLoop_succ] at h
    by_cases hc : loopCondition tokens st = true
    · rw [if_pos hc] at h
      obtain ⟨kind, hkind, _, _⟩ :=
        parseStep_of_kind grammar followSets parseTable tokens st hc
      cases n with
      | zero => simp [stepKinds]
      | succ n =>
        have h1 := ih _ final h n
        simp only [stepKinds, hkind, List.count_cons]
        omega
    · have hc2 : loopCondition tokens st = false := by
        cases hb : loopCondition tokens st with
        | false => rfl
        | true => exact absurd hb hc
      cases n with
      | zero => simp [stepKinds]
      | succ n =>
        simp [stepKinds, stepKind_of_not_loopCondition grammar parseTable tokens st hc2]

/-- C30 (amended): for every grammar, every parse table and every finite token sequence, a
match, mismatch or panic step lowers the sum of the stack height and the number of tokens
left, and an expand step raises it by less than the number of symbols of the production; so
a run of the main loop of `parseInput` that makes at most `expansions` expand steps exits,
after at most (stack height + tokens left + `expansions` times `width`) iterations, `width`
bounding the number of symbols of the productions in the table. -/
theorem parseLoop_exits_with_bounded_expansions (grammar followSets : StrMap)
    (parseTable : ParseTable) (tokens : List (List Char)) (width expansions : Nat)
    (st : ParseState)
    (hwidth : ∀ row ∈ parseTable, ∀ cell ∈ row.2, (words cell.2).length ≤ width)
    (hexpansions : ∀ n,
      (stepKinds grammar followSets parseTable tokens n st).count StepKind.expand
        ≤ expansions) :
    (∃ final,
      parseLoop grammar followSets parseTable tokens
        (st.parsingStack.length + (tokens.length - st.tokenIndex) + expansions * width + 1)
        st = some final)
    ∧ ∀ s : ParseState, loopCondition tokens s = true →
        ∃ kind, stepKind grammar parseTable tokens s = some kind
          ∧ (kind ≠ StepKind.expand →
              (parseStep grammar followSets parseTable tokens s).parsingStack.length
                + (tokens.length
                  - (parseStep grammar followSets parseTable tokens s).tokenIndex)
              < s.parsingStack.length + (tokens.length - s.tokenIndex))
          ∧ (kind = StepKind.expand →
              (parseStep grammar followSets parseTable tokens s).parsingStack.length
                + (tokens.length
                  - (parseStep grammar followSets parseTable tokens s).tokenIndex)
              < s.parsingStack.length + (tokens.length - s.tokenIndex) + width) := by
  refine ⟨parseLoop_exits_of_fuel grammar followSets parseTable tokens width hwidth _ st
    expansions hexpansions (Nat.lt_succ_self _), ?_⟩
  intro s hs
  obtain ⟨kind, hkind, h1, h2⟩ :=
    parseStep_measure grammar followSets parseTable tokens width s hwidth hs
  exact ⟨kind, hkind, fun h => Nat.lt_of_succ_le (h1 h), fun h => Nat.lt_of_succ_le (h2 h)⟩

theorem parseLoop_exits_with_bounded_expansions_witness :
    (∀ row ∈ [("S".toList, [("a".toList, "a".toList), ("$".toList, "sync".toList)])],
      ∀ cell ∈ row.2, (words cell.2).length ≤ 1)
    ∧ (stepKinds [("S".toList, ["a".toList])] [("S".toList, ["$".toList])]
        [("S".toList, [("a".toList, "a".toList), ("$".toList, "sync".toList)])]
        ["a".toList, "$".toList] 3 (initialState "S".toList)).count StepKind.expand = 1
    ∧ ∃ final,
        parseLoop [("S".toList, ["a".toList])] [("S".toList, ["$".toList])]
          [("S".toList, [("a".toList, "a".toList), ("$".toList, "sync".toList)])]
          ["a".toList, "$".toList] 6 (initialState "S".toList) = some final :=
  ⟨by decide, by decide,
    (parseLoop_exits_with_bounded_expansions [("S".toList, ["a".toList])]
      [("S".toList, ["$".toList])]
      [("S".toList, [("a".toList, "a".toList), ("$".toList, "sync".toList)])]
      ["a".toList, "$".toList] 1 1 (initialState "S".toList) (by decide)
      (fun n =>
        stepKinds_count_of_exit [("S".toList, ["a".toList])] [("S".toList, ["$".toList])]
          [("S".toList, [("a".toList, "a".toList), ("$".toList, "sync".toList)])]
          ["a".toList, "$".toList] 3 (initialState "S".toList)
          { parsingStack := []
            tokenIndex := 2
            success := true
            parseTree := [("S".toList, ["a".toList])]
            console := ["Expand: S -> a".toList, "Match: a".toList, "Match: $".toList]
            errorFile := [] }
          (by decide) n)).1⟩

/-- The forms derivable from the start symbol stay in a set of forms that contains the
start form and is closed under leftmost steps. -/
theorem derivable_mem_of_closed (grammar : StrMap) (forms : List (List (List Char)))
    (startSymbol : List Char) (hstart : [startSymbol] ∈ forms)
    (hclosed : ∀ form ∈ forms, ∀ next ∈ leftmostSteps grammar form, next ∈ forms)
    (w : List (List Char)) (h : Derivable grammar startSymbol w) : w ∈ forms := by
  unfold Derivable at h
  induction h with
  | refl => exact hstart
  | tail _ hstep ih => exact hclosed _ ih _ hstep

/-- C31 (evaluation at the failing input): for `S -> x A sync`, `A -> a` (which
`analyzeGrammar` leaves as it is) `parseInput` reports the tokens `x sync sync` as
successfully parsed, with no error; its expand steps are `S -> x A sync` and `A -> sync`.
The second one is no production of the grammar (the text `sync` is the marker of the cell
`Table[A, sync]`), and the token sequence is not derivable from `S`: the only forms
derivable from `S` are `S`, `x A sync` and `x a sync`. -/
theorem parseInput_accepts_underivable_tokens :
    analyzeGrammar (loadGrammarFromFile "S -> x A sync\nA -> a".toList)
      = (loadGrammarFromFile "S -> x A sync\nA -> a".toList, true)
    ∧ parseWith 10 (loadGrammarFromFile "S -> x A sync\nA -> a".toList)
        "x sync sync".toList "S".toList
      = some
        { parsingStack := []
          tokenIndex := 4
          success := true
          parseTree :=
            [("S".toList, ["x".toList, "A".toList, "sync".toList]),
              ("A".toList, ["sync".toList])]
          console :=
            ["Expand: S ->  x A sync".toList, "Match: x".toList, "Expand: A -> sync".toList,
              "Match: sync".toList, "Match: sync".toList, "Match: $".toList,
              "Input successfully parsed.".toList]
          errorFile := [] }
    ∧ (∀ production ∈ mapGet (loadGrammarFromFile "S -> x A sync\nA -> a".toList)
        "A".toList, words production ≠ ["sync".toList])
    ∧ (∀ w, Derivable (loadGrammarFromFile "S -> x A sync\nA -> a".toList) "S".toList w →
        w ∈ [["S".toList], ["x".toList, "A".toList, "sync".toList],
          ["x".toList, "a".toList, "sync".toList]])
    ∧ ¬ Derivable (loadGrammarFromFile "S -> x A sync\nA -> a".toList) "S".toList
        ["x".toList, "sync".toList, "sync".toList] := by
  have hforms : ∀ w,
      Derivable (loadGrammarFromFile "S -> x A sync\nA -> a".toList) "S".toList w →
        w ∈ [["S".toList], ["x".toList, "A".toList, "sync".toList],
          ["x".toList, "a".toList, "sync".toList]] :=
    derivable_mem_of_closed _ _ _ (by decide!) (by decide!)
  refine ⟨by decide!, by decide!, by decide!, hforms, fun h => ?_⟩
  exact absurd (hforms _ h) (by decide!)

/-! ## C32: the panic-recovery scenario -/

/-- C32: for the grammar `stmt -> id = expr ;`, `expr -> id` (which `analyzeGrammar` leaves
as it is) and the start symbol `stmt`, `parseInput` on the tokens `id = ) ;` expands `stmt`,
matches `id` and `=`, finds no cell for (`expr`, `)`), skips `)` up to `;`, which is in
FOLLOW(`expr`), pops `expr`, matches `;` and then `$`; the run makes one panic step and no
mismatch, writes one error line (followed by the final line `Parsing failed`) and reports
the parse as failed.  The same holds when `expr` comes first in the grammar map. -/
theorem parseInput_panic_recovery_scenario :
    analyzeGrammar (loadGrammarFromFile "stmt -> id = expr ;\nexpr -> id".toList)
      = (loadGrammarFromFile "stmt -> id = expr ;\nexpr -> id".toList, true)
    ∧ (tableOf (loadGrammarFromFile "stmt -> id = expr ;\nexpr -> id".toList)).map
        (fun parseTable => tableGet parseTable "expr".toList ")".toList)
      = some none
    ∧ (computeFirstAndFollow
        (loadGrammarFromFile "stmt -> id = expr ;\nexpr -> id".toList)).map
        (fun sets => mapGet sets.2 "expr".toList)
      = some [";".toList]
    ∧ (computeFirstAndFollow
        (loadGrammarFromFile "stmt -> id = expr ;\nexpr -> id".toList)).map
        (fun sets =>
          parseStep (loadGrammarFromFile "stmt -> id = expr ;\nexpr -> id".toList) sets.2
            (buildParseTable (loadGrammarFromFile "stmt -> id = expr ;\nexpr -> id".toList)
              sets.1 sets.2)
            (inputTokens "id = ) ;".toList)
            { parsingStack := ["expr".toList, ";".toList, "$".toList]
              tokenIndex := 2
              success := true
              parseTree := [("stmt".toList, ["id".toList, "=".toList, "expr".toList,
                ";".toList])]
              console := ["Expand: stmt ->  id = expr ;".toList, "Match: id".toList,
                "Match: =".toList]
              errorFile := [] })
      = some
        { parsingStack := [";".toList, "$".toList]
          tokenIndex := 3
          success := false
          parseTree := [("stmt".toList, ["id".toList, "=".toList, "expr".toList,
            ";".toList])]
          console := ["Expand: stmt ->  id = expr ;".toList, "Match: id".toList,
            "Match: =".toList,
            "Error: No rule for 'expr' with token ')'. Entering Panic Mode.".toList]
          errorFile :=
            ["Error: No rule for 'expr' with token ')'. Entering Panic Mode.".toList] }
    ∧ (computeFirstAndFollow
        (loadGrammarFromFile "stmt -> id = expr ;\nexpr -> id".toList)).map
        (fun sets =>
          stepKinds (loadGrammarFromFile "stmt -> id = expr ;\nexpr -> id".toList) sets.2
            (buildParseTable (loadGrammarFromFile "stmt -> id = expr ;\nexpr -> id".toList)
              sets.1 sets.2)
            (inputTokens "id = ) ;".toList) 20 (initialState "stmt".toList))
      = some [StepKind.expand, StepKind.matching, StepKind.matching, StepKind.panic,
          StepKind.matching, StepKind.matching]
    ∧ parseWith 20 (loadGrammarFromFile "stmt -> id = expr ;\nexpr -> id".toList)
        "id = ) ;".toList "stmt".toList
      = some
        { parsingStack := []
          tokenIndex := 5
          success := false
          parseTree := [("stmt".toList, ["id".toList, "=".toList, "expr".toList,
            ";".toList])]
          console := ["Expand: stmt ->  id = expr ;".toList, "Match: id".toList,
            "Match: =".toList,
            "Error: No rule for 'expr' with token ')'. Entering Panic Mode.".toList,
            "Match: ;".toList, "Match: $".toList, "Parsing failed.".toList]
          errorFile :=
            ["Error: No rule for 'expr' with token ')'. Entering Panic Mode.".toList,
              "Parsing failed".toList] }
    ∧ parseWith 20 (loadGrammarFromFile "expr -> id\nstmt -> id = expr ;".toList)
        "id = ) ;".toList "stmt".toList
      = some
        { parsingStack := []
          tokenIndex := 5
          success := false
          parseTree := [("stmt".toList, ["id".toList, "=".toList, "expr".toList,
            ";".toList])]
          console := ["Expand: stmt ->  id = expr ;".toList, "Match: id".toList,
            "Match: =".toList,
            "Error: No rule for 'expr' with token ')'. Entering Panic Mode.".toList,
            "Match: ;".toList, "Match: $".toList, "Parsing failed.".toList]
          errorFile :=
            ["Error: No rule for 'expr' with token ')'. Entering Panic Mode.".toList,
              "Parsing failed".toList] } := by
  decide!

/-! ## C33: the token file -/

/-- No piece of a split contains a separator. -/
theorem splitOnP_piece_clean (p : Char → Bool) :
    ∀ (l piece : List Char), piece ∈ l.splitOnP p → ∀ x ∈ piece, p x = false := by
  intro l
  induction l with
  | nil =>
    intro piece hmem x hx
    simp [List.splitOnP_nil] at hmem
    subst hmem
    simp at hx
  | cons c rest ih =>
    intro piece hmem x hx
    rw [List.splitOnP_cons] at hmem
    by_cases hc : p c = true
    · simp only [hc, if_true] at hmem
      rcases List.mem_cons.mp hmem with h | h
      · subst h
        simp at hx
      · exact ih piece h x hx
    · simp only [hc, if_false, Bool.false_eq_true] at hmem
      cases hsplit : rest.splitOnP p with
      | nil => exact absurd hsplit (List.splitOnP_ne_nil p rest)
      | cons first others =>
        rw [hsplit] at hmem ih
        simp only [List.modifyHead_cons, List.mem_cons] at hmem
        rcases hmem with h | h
        · subst h
          rcases List.mem_cons.mp hx with h2 | h2
          · subst h2
            simpa using hc
          · exact ih first (List.mem_cons_self _ _) x h2
        · exact ih piece (List.mem_cons_of_mem _ h) x hx

/-- A word extracted by `>>` is a token stream of one word. -/
theorem words_of_mem_words (line word : List Char) (hmem : word ∈ words line) :
    words word = [word] := by
  unfold words at hmem
  rw [List.mem_filter] at hmem
  obtain ⟨hpiece, hne⟩ := hmem
  have hclean := splitOnP_piece_clean (fun c => Lexical.isspace c) line word hpiece
  unfold words
  rw [List.splitOnP_eq_single]
  · simpa using hne
  · intro x hx
    simpa using hclean x hx

/-- The input of `parseInput` made of one extracted word is that word and the end marker. -/
theorem inputTokens_of_mem_words (line word : List Char) (hmem : word ∈ words line) :
    inputTokens word = [word, "$".toList] := by
  simp [inputTokens, words_of_mem_words line word hmem]

/-- From the third line on, the loop of `parseFromFile` makes one record per line. -/
theorem parseFromFileLoop_eq_mapM (fuel : Nat) (grammar followSets : StrMap)
    (parseTable : ParseTable) (startSymbol : List Char) :
    ∀ (lines : List (List Char)) (lineNumber : Nat), 2 ≤ lineNumber →
      parseFromFileLoop fuel grammar followSets parseTable startSymbol lines lineNumber
        = ((lines.enumFrom (lineNumber + 1)).map fun entry =>
            (entry.1, (words entry.2).head?)).mapM
            (lineRecord fuel grammar followSets parseTable startSymbol) := by
  intro lines
  induction lines with
  | nil => intro lineNumber _; rfl
  | cons line rest ih =>
    intro lineNumber hn
    rw [parseFromFileLoop]
    have hskip : ¬ lineNumber + 1 ≤ 2 := by omega
    simp only [hskip, if_false, List.enumFrom_cons, List.map_cons, List.mapM_cons]
    rw [ih (lineNumber + 1) (by omega)]
    cases hw : words line with
    | nil => simp [lineRecord, Option.map_eq_bind]
    | cons firstValue others =>
      simp only [List.head?_cons, lineRecord]
      cases parseInputWithTree fuel grammar followSets parseTable firstValue startSymbol with
      | none => simp
      | some result =>
        obtain ⟨run, tree⟩ := result
        simp [Option.map_eq_bind]

/-- C33 (counterexample): for the grammar `S -> a b` and a token file with two header lines
and the records `a` and `b`, `parseFromFile` makes two calls of `parseInput`, one on the
token `a` alone and one on the token `b` alone, and both report a failed parse; it does not
parse the token stream `a b`, which `parseInput` reports as successfully parsed. -/
theorem parseFromFile_parses_no_joined_stream :
    fieldStream "Token Type\n----------\na Identifier\nb Identifier\n".toList = "a b".toList
    ∧ parseFileWith 20 (loadGrammarFromFile "S -> a b".toList)
        "Token Type\n----------\na Identifier\nb Identifier\n".toList "S".toList
      = some
        [LineRecord.parsed 3 "a".toList
          { parsingStack := ["b".toList, "$".toList]
            tokenIndex := 2
            success := false
            parseTree := [("S".toList, ["a".toList, "b".toList])]
            console :=
              ["Expand: S ->  a b".toList, "Match: a".toList,
                "Error: Unexpected token '$'. Expected: 'b'.".toList,
                "Parsing failed.".toList]
            errorFile :=
              ["Error: Unexpected token '$'. Expected: 'b'.".toList,
                "Parsing failed".toList] }
          ["|====> S".toList, "    |====> a".toList, "    |====> b".toList],
         LineRecord.parsed 4 "b".toList
          { parsingStack := []
            tokenIndex := 2
            success := false
            parseTree := []
            console :=
              ["Error: No rule for 'S' with token 'b'. Entering Panic Mode.".toList,
                "Match: $".toList, "Parsing failed.".toList]
            errorFile :=
              ["Error: No rule for 'S' with token 'b'. Entering Panic Mode.".toList,
                "Parsing failed".toList] }
          ["|====> S".toList]]
    ∧ parseWith 20 (loadGrammarFromFile "S -> a b".toList)
        (fieldStream "Token Type\n----------\na Identifier\nb Identifier\n".toList)
        "S".toList
      = some
        { parsingStack := []
          tokenIndex := 3
          success := true
          parseTree := [("S".toList, ["a".toList, "b".toList])]
          console :=
            ["Expand: S ->  a b".toList, "Match: a".toList, "Match: b".toList,
              "Match: $".toList, "Input successfully parsed.".toList]
          errorFile := [] } := by
  decide!

/-- C33 (amended): `parseFromFile` ignores the first two lines of the token file and makes,
for every following line in file order, one record: for a line with a first
whitespace-delimited field the result of a call of `parseInput` on that field alone (a
token stream of its own, made of that one token and a trailing `$`, parsed from the initial
stack), and for a line without a field the warning.  The run returns exactly when every
one of these calls does. -/
theorem parseFromFile_parses_each_field_alone (fuel : Nat) (grammar followSets : StrMap)
    (parseTable : ParseTable) (text startSymbol : List Char) :
    parseFromFile fuel grammar followSets parseTable text startSymbol
      = (lineFields text).mapM (lineRecord fuel grammar followSets parseTable startSymbol)
    ∧ (lineFields text).map (fun entry => entry.1)
      = (List.range ((Lexical.sourceLines text).length - 2)).map (fun i => i + 3)
    ∧ ∀ entry ∈ lineFields text, ∀ firstValue, entry.2 = some firstValue →
        inputTokens firstValue = [firstValue, "$".toList]
        ∧ parseInput fuel grammar followSets parseTable firstValue startSymbol
          = (parseLoop grammar followSets parseTable [firstValue, "$".toList] fuel
              (initialState startSymbol)).map (report [firstValue, "$".toList]) := by
  refine ⟨?_, ?_, ?_⟩
  · unfold parseFromFile lineFields
    rcases hl : Lexical.sourceLines text with _ | ⟨l1, _ | ⟨l2, rest⟩⟩
    · rfl
    · rfl
    · simp only [parseFromFileLoop, List.enumFrom_cons, List.drop_succ_cons, List.drop_zero]
      simp only [Nat.reduceAdd, Nat.reduceLeDiff, if_true, le_refl]
      exact parseFromFileLoop_eq_mapM fuel grammar followSets parseTable startSymbol rest 2
        (Nat.le_refl 2)
  · unfold lineFields
    rw [List.map_map]
    rcases Lexical.sourceLines text with _ | ⟨l1, _ | ⟨l2, rest⟩⟩
    · rfl
    · rfl
    · simp only [List.enumFrom_cons, List.drop_succ_cons, List.drop_zero, List.length_cons,
        Nat.add_sub_cancel]
      apply List.ext_getElem
      · simp
      · intro i h1 h2
        simp [List.getElem_enumFrom]
        omega
  · intro entry hentry firstValue hfield
    unfold lineFields at hentry
    rw [List.mem_map] at hentry
    obtain ⟨numbered, -, rfl⟩ := hentry
    have hmem : firstValue ∈ words numbered.2 := List.mem_of_mem_head? hfield
    have htokens := inputTokens_of_mem_words numbered.2 firstValue hmem
    exact ⟨htokens, by rw [parseInput, htokens]⟩

/-! ## C40: printing the tree -/

/-- Once a child has run out of fuel, the loop over the children of `printTree` returns
nothing. -/
theorem foldl_printTree_none (print : List Char → Option (List (List Char)))
    (children : List (List Char)) :
    children.foldl
      (fun output child =>
        match output with
        | none => none
        | some output => (print child).map fun lines => output ++ lines)
      none = none := by
  induction children with
  | nil => rfl
  | cons child children ih => simpa using ih

/-- The loop over the children of `printTree` returns nothing when one child does. -/
theorem foldl_printTree_of_mem (print : List Char → Option (List (List Char)))
    (children : List (List Char)) (child : List Char) (hmem : child ∈ children)
    (hnone : print child = none) :
    ∀ init : Option (List (List Char)),
      children.foldl
        (fun output child =>
          match output with
          | none => none
          | some output => (print child).map fun lines => output ++ lines)
        init = none := by
  induction children with
  | nil => simp at hmem
  | cons first children ih =>
    intro init
    rw [List.foldl_cons]
    rcases List.mem_cons.mp hmem with h | h
    · subst h
      cases init with
      | none => exact foldl_printTree_none print children
      | some output =>
        simp only [hnone, Option.map_none']
        exact foldl_printTree_none print children
    · exact ih h _

/-- A symbol that is among its own children in the tree map is never printed to the end:
`printTree` runs out of every amount of fuel. -/
theorem printTree_of_self_child (tree : ParseTree) (symbol : List Char)
    (children : List (List Char)) (hlookup : tree.lookup symbol = some children)
    (hmem : symbol ∈ children) :
    ∀ (fuel depth : Nat), printTree fuel symbol tree depth = none := by
  intro fuel
  induction fuel with
  | zero => intro depth; rfl
  | succ fuel ih =>
    intro depth
    rw [printTree]
    simp only [hlookup]
    exact foldl_printTree_of_mem (fun child => printTree fuel child tree (depth + 1))
      children symbol hmem (ih (depth + 1)) _

/-- A symbol with a child that is never printed to the end is never printed to the end. -/
theorem printTree_of_child (tree : ParseTree) (symbol child : List Char)
    (children : List (List Char)) (hlookup : tree.lookup symbol = some children)
    (hmem : child ∈ children)
    (hchild : ∀ (fuel depth : Nat), printTree fuel child tree depth = none) :
    ∀ (fuel depth : Nat), printTree fuel symbol tree depth = none := by
  intro fuel depth
  cases fuel with
  | zero => rfl
  | succ fuel =>
    rw [printTree]
    simp only [hlookup]
    exact foldl_printTree_of_mem (fun child => printTree fuel child tree (depth + 1))
      children child hmem (hchild fuel (depth + 1)) _

/-- C40 (evaluation at the failing input): for `E -> T E'`, `E' -> + T E' | ε` (which
`analyzeGrammar` leaves as it is) `parseInput` reports the tokens `T + T` as successfully
parsed.  The expansion `E' -> + T E'` records `+ T E'` as the children of `E'` and the
later expansion `E' -> ε` leaves that entry in place, so in the tree map that the parse
built `E'` is its own child, and `printTree` from the start symbol `E` returns for no
amount of fuel.  On the input `T` alone the tree has no such entry and is printed. -/
theorem printTree_never_returns_on_recursive_rule :
    analyzeGrammar (loadGrammarFromFile "E -> T E'\nE' -> + T E'|ε".toList)
      = (loadGrammarFromFile "E -> T E'\nE' -> + T E'|ε".toList, true)
    ∧ parseWith 20 (loadGrammarFromFile "E -> T E'\nE' -> + T E'|ε".toList)
        "T + T".toList "E".toList
      = some
        { parsingStack := []
          tokenIndex := 4
          success := true
          parseTree :=
            [("E".toList, ["T".toList, "E'".toList]),
              ("E'".toList, ["+".toList, "T".toList, "E'".toList])]
          console :=
            ["Expand: E ->  T E'".toList, "Match: T".toList, "Expand: E' ->  + T E'".toList,
              "Match: +".toList, "Match: T".toList, "Expand: E' -> ε".toList,
              "Match: $".toList, "Input successfully parsed.".toList]
          errorFile := [] }
    ∧ (∀ fuel depth : Nat,
        printTree fuel "E".toList
          [("E".toList, ["T".toList, "E'".toList]),
            ("E'".toList, ["+".toList, "T".toList, "E'".toList])] depth = none)
    ∧ (computeFirstAndFollow
        (loadGrammarFromFile "E -> T E'\nE' -> + T E'|ε".toList)).map
        (fun sets =>
          parseInputWithTree 20 (loadGrammarFromFile "E -> T E'\nE' -> + T E'|ε".toList)
            sets.2
            (buildParseTable (loadGrammarFromFile "E -> T E'\nE' -> + T E'|ε".toList)
              sets.1 sets.2)
            "T".toList "E".toList)
      = some (some
        ({ parsingStack := []
           tokenIndex := 2
           success := true
           parseTree := [("E".toList, ["T".toList, "E'".toList])]
           console :=
             ["Expand: E ->  T E'".toList, "Match: T".toList, "Expand: E' -> ε".toList,
               "Match: $".toList, "Input successfully parsed.".toList]
           errorFile := [] },
          ["|====> E".toList, "    |====> T".toList, "    |====> E'".toList])) := by
  refine ⟨by decide!, by decide!, ?_, by decide!⟩
  exact printTree_of_child _ "E".toList "E'".toList ["T".toList, "E'".toList] (by decide)
    (by decide)
    (printTree_of_self_child _ "E'".toList ["+".toList, "T".toList, "E'".toList]
      (by decide) (by decide))

end Synthetic
